import Mathlib

/-!
# Verification of the rg3d scene-graph engine

This development is a shallow embedding of `src/scene/graph.rs` and
`src/scene/mod.rs` of the rg3d engine, together with models of the external
collaborators those files use (the generational arena `Pool`, the entity base
record, the node variants, physics bodies) which are part of the repository but
outside the verified sources; those models are written from the specification
and are marked `Modelled from the spec:` in their doc comments.

Conventions:
* machine floats (`f32`) are modelled as rationals;
* `Mat4` is modelled as a 4x4 rational matrix;
* a fatal invalid-handle dereference (a `panic!` in the source) is modelled by
  leaving the state unchanged at that point; all theorems either hypothesise
  handle validity or are unaffected by that branch;
* source loops and recursions over the hierarchy are given explicit fuel; the
  fuel chosen is provably sufficient for the well-formed graphs the theorems
  speak about.
-/

/-- A generation-checked arena handle: a slot index plus a generation tag.
Modelled from the spec: handles carry `(index, generation)`. -/
structure Handle where
  index : Nat
  generation : Nat
  deriving DecidableEq, Repr

/-- The distinguished invalid handle (`Handle::NONE`). -/
def Handle.NONE : Handle := ⟨0, 0⟩

/-- `Handle::is_some`: the handle is not `NONE`. -/
def Handle.isSomeH (h : Handle) : Bool := h ≠ Handle.NONE

/-- One arena slot: its current generation and its (possibly freed) payload.
Modelled from the spec: stable indices with generation tags and free-list
reuse. -/
structure PoolRecord (α : Type) where
  generation : Nat
  payload : Option α

/-- Modelled from the spec: the generic generation-checked object store
(`Pool`) consumed by `Graph`; issues handles, supports borrow, free with slot
reuse, iteration in index order and capacity probing. -/
structure Pool (α : Type) where
  records : List (PoolRecord α)
  freeStack : List Nat

namespace Pool

variable {α : Type}

/-- A fresh, empty pool. -/
def new : Pool α := ⟨[], []⟩

/-- `Pool::spawn`: reuse the most recently freed slot with a bumped
generation, or append a fresh slot. Returns the handle and the new pool. -/
def spawn (p : Pool α) (v : α) : Handle × Pool α :=
  match p.freeStack with
  | [] => (⟨p.records.length, 1⟩, ⟨p.records ++ [⟨1, some v⟩], []⟩)
  | i :: rest =>
    let gen := (((p.records[i]?).map PoolRecord.generation).getD 0) + 1
    (⟨i, gen⟩, ⟨p.records.set i ⟨gen, some v⟩, rest⟩)

/-- `Pool::borrow`: the payload at the handle, provided the slot exists, the
generation matches and the slot is live; `none` models the fatal stop. -/
def borrow (p : Pool α) (h : Handle) : Option α :=
  match p.records[h.index]? with
  | some r => if r.generation = h.generation then r.payload else none
  | none => none

/-- `Pool::is_valid_handle`: validity check without a fatal stop. -/
def isValidHandle (p : Pool α) (h : Handle) : Bool := (p.borrow h).isSome

/-- `Pool::free`: on a valid handle, kill the slot and push its index on the
free stack. The source stops fatally on an invalid handle; modelled as a
no-op. -/
def free (p : Pool α) (h : Handle) : Pool α :=
  match p.records[h.index]? with
  | some r =>
    if r.generation = h.generation ∧ r.payload.isSome = true then
      { records := p.records.set h.index { r with payload := none },
        freeStack := h.index :: p.freeStack }
    else p
  | none => p

/-- `Pool::borrow_mut` followed by a field update: rewrite the payload at a
valid handle; a no-op on an invalid handle (fatal stop in the source). -/
def update (p : Pool α) (h : Handle) (f : α → α) : Pool α :=
  match p.records[h.index]? with
  | some r =>
    if r.generation = h.generation then
      { p with records := p.records.set h.index { r with payload := r.payload.map f } }
    else p
  | none => p

/-- `Pool::get_capacity`: the number of slots, live or dead. -/
def getCapacity (p : Pool α) : Nat := p.records.length

/-- `Pool::alive_count`: the number of live slots. -/
def aliveCount (p : Pool α) : Nat := (p.records.filter (fun r => r.payload.isSome)).length

/-- `Pool::at`: the live payload at a raw index. -/
def atIndex (p : Pool α) (i : Nat) : Option α := (p.records[i]?).bind PoolRecord.payload

/-- `Pool::handle_from_index`: a handle for a raw index carrying the slot's
current generation. -/
def handleFromIndex (p : Pool α) (i : Nat) : Handle :=
  ⟨i, ((p.records[i]?).map PoolRecord.generation).getD 0⟩

/-- The handles of the live slots, in index order (the iteration order of
`Pool::iter` and `Pool::pair_iter`). -/
def liveHandles (p : Pool α) : List Handle :=
  (List.range p.records.length).filterMap fun i =>
    if (p.atIndex i).isSome then some (p.handleFromIndex i) else none

/-- The `(handle, payload)` pairs of the live slots in index order
(`Pool::pair_iter`). -/
def pairList (p : Pool α) : List (Handle × α) :=
  (List.range p.records.length).filterMap fun i =>
    match p.atIndex i with
    | some v => some (p.handleFromIndex i, v)
    | none => none

/-- `Pool::iter_mut`-style map over every live payload. -/
def mapPayloads (p : Pool α) (f : α → α) : Pool α :=
  { p with records := p.records.map fun r => { r with payload := r.payload.map f } }

end Pool

/-! ## Entity data model -/

/-- `f32` scalars are modelled as rationals. -/
abbrev Real32 := ℚ

/-- `Mat4` modelled as a 4x4 rational matrix. -/
abbrev Mat4 := Matrix (Fin 4) (Fin 4) ℚ

/-- `Vec3` with rational components. -/
structure Vec3 where
  x : Real32
  y : Real32
  z : Real32
  deriving DecidableEq, Repr

/-- `Vec3::ZERO`, the origin. -/
def Vec3.ZERO : Vec3 := ⟨0, 0, 0⟩

/-- The homogeneous translation matrix of a vector. -/
def translationMatrix (v : Vec3) : Mat4 :=
  fun i j =>
    if i = j then 1
    else if j = 3 then (match i with | 0 => v.x | 1 => v.y | 2 => v.z | _ => 0)
    else 0

/-- Modelled from the spec: the local transform is a position / rotation /
scale specification; the rotation and scale parts are kept as one matrix
because no verified operation inspects them separately. -/
structure Transform where
  position : Vec3
  rotationScale : Mat4

/-- `Transform::matrix`: the full local matrix, translation composed with the
rotation-scale part. -/
def Transform.matrix (t : Transform) : Mat4 := translationMatrix t.position * t.rotationScale

/-- `Transform::set_position`. -/
def Transform.setPosition (t : Transform) (p : Vec3) : Transform := { t with position := p }

/-- The identity local transform. -/
def Transform.identityT : Transform := ⟨Vec3.ZERO, 1⟩

/-- Modelled from the spec: one render surface of a mesh; it carries the bone
handle list that copy and resolution remap, plus an opaque tag standing for
the shared surface data (`Surface::clone` shares that data, so a clone is the
identity on this model). -/
structure Surface where
  bones : List Handle
  dataId : Nat
  deriving DecidableEq, Repr

/-- Modelled from the spec: the entity base record shared by every node
variant (hierarchy links, transform, visibility, lifetime, resource
provenance, resolution data). `resource` is an index into a fixed registry of
resource template graphs, standing for the source's shared model reference. -/
structure Base where
  name : String
  parent : Handle
  children : List Handle
  localTransform : Transform
  visibility : Bool
  globalTransform : Mat4
  globalVisibility : Bool
  lifetime : Option Real32
  resource : Option Nat
  original : Handle
  invBindPoseTransform : Mat4
  isResourceInstance : Bool

/-- The default base record: detached, visible, identity transforms. -/
def Base.defaultBase : Base :=
  { name := ""
    parent := Handle.NONE
    children := []
    localTransform := Transform.identityT
    visibility := true
    globalTransform := 1
    globalVisibility := true
    lifetime := none
    resource := none
    original := Handle.NONE
    invBindPoseTransform := 1
    isResourceInstance := false }

/-- Alias for the base record, usable inside the `Node` declaration where the
constructor named `Base` shadows the structure name. -/
abbrev BaseRec := Base

/-- The node sum type over variants. Variant payloads other than the mesh
surface list are out-of-scope external behaviour and are not carried.
Modelled from the spec: polymorphic node variants sharing a common base. -/
inductive Node where
  | Base (b : BaseRec)
  | Mesh (b : BaseRec) (surfaces : List Surface)
  | Camera (b : BaseRec)
  | Light (b : BaseRec)
  | ParticleSystem (b : BaseRec)
  | Sprite (b : BaseRec)

/-- `node.base()`: the shared base record of any variant. -/
def Node.base : Node → BaseRec
  | .Base b => b
  | .Mesh b _ => b
  | .Camera b => b
  | .Light b => b
  | .ParticleSystem b => b
  | .Sprite b => b

/-- `node.base_mut()`-style update of the shared base record. -/
def Node.mapBase (f : BaseRec → BaseRec) : Node → Node
  | .Base b => .Base (f b)
  | .Mesh b s => .Mesh (f b) s
  | .Camera b => .Camera (f b)
  | .Light b => .Light (f b)
  | .ParticleSystem b => .ParticleSystem (f b)
  | .Sprite b => .Sprite (f b)

/-- The surface list of a mesh node (empty for other variants). -/
def Node.surfaces : Node → List Surface
  | .Mesh _ s => s
  | _ => []

/-- Whether the node is the mesh variant. -/
def Node.isMesh : Node → Bool
  | .Mesh _ _ => true
  | _ => false

/-- Modelled from the spec: `Node::clone` as used by the deep copy; it clones
the payload but detaches the hierarchy links, so a fresh clone has no parent
and no children. -/
def Node.cloneDetached (n : Node) : Node :=
  n.mapBase fun b => { b with parent := Handle.NONE, children := [] }

/-! ## The scene graph -/

/-- `Graph`: the root handle, the arena of nodes, and a reusable scratch
stack (pure performance cache, never semantically meaningful). -/
structure Graph where
  root : Handle
  pool : Pool Node
  stack : List Handle

/-- `Graph::default`: no root, empty pool. -/
def Graph.defaultGraph : Graph :=
  { root := Handle.NONE, pool := Pool.new, stack := [] }

/-- `Graph::new`: a graph with a single root node named `__ROOT__`. -/
def Graph.newGraph : Graph :=
  let rootNode : Node := Node.Base { Base.defaultBase with name := "__ROOT__" }
  let sp := (Pool.new (α := Node)).spawn rootNode
  { stack := [], root := sp.1, pool := sp.2 }

namespace Graph

/-- The base record stored at a handle, or the default on an invalid handle. -/
def baseOf (g : Graph) (h : Handle) : BaseRec :=
  ((g.pool.borrow h).map Node.base).getD Base.defaultBase

/-- The parent handle stored at a handle. -/
def parentOf (g : Graph) (h : Handle) : Handle := (g.baseOf h).parent

/-- The children list stored at a handle. -/
def childrenOf (g : Graph) (h : Handle) : List Handle := (g.baseOf h).children

/-- `Graph::is_valid_handle`. -/
def isValid (g : Graph) (h : Handle) : Bool := g.pool.isValidHandle h

/-- Update the node stored at a handle (`borrow_mut`; no-op models the fatal
stop on an invalid handle). -/
def updateNode (g : Graph) (h : Handle) (f : Node → Node) : Graph :=
  { g with pool := g.pool.update h f }

/-- `Graph::unlink_internal`: clear the node's parent handle, then remove the
first occurrence of the node from its former parent's children list. -/
def unlinkInternal (g : Graph) (node_handle : Handle) : Graph :=
  match g.pool.borrow node_handle with
  | none => g
  | some node =>
    let parent_handle := node.base.parent
    let g1 := g.updateNode node_handle (Node.mapBase fun b => { b with parent := Handle.NONE })
    if parent_handle.isSomeH then
      match g1.pool.borrow parent_handle with
      | none => g1
      | some _ =>
        g1.updateNode parent_handle
          (Node.mapBase fun b => { b with children := b.children.erase node_handle })
    else g1

/-- `Graph::link_nodes`: unlink the child, set its parent, append it to the
parent's children. -/
def linkNodes (g : Graph) (child_handle parent_handle : Handle) : Graph :=
  let g1 := g.unlinkInternal child_handle
  match g1.pool.borrow child_handle with
  | none => g1
  | some _ =>
    let g2 := g1.updateNode child_handle (Node.mapBase fun b => { b with parent := parent_handle })
    match g2.pool.borrow parent_handle with
    | none => g2
    | some _ =>
      g2.updateNode parent_handle
        (Node.mapBase fun b => { b with children := b.children ++ [child_handle] })

/-- `Graph::add_node`: spawn the node, then link it under the root. -/
def addNode (g : Graph) (node : Node) : Handle × Graph :=
  let sp := g.pool.spawn node
  (sp.1, linkNodes { g with pool := sp.2 } sp.1 g.root)

/-- The total length of the children lists of the live nodes; together with
the stack length it bounds the number of iterations of the stack-driven
loops. -/
def totalChildren (p : Pool Node) : Nat :=
  ((p.records.filterMap PoolRecord.payload).map fun n => n.base.children.length).sum

/-- The iterative stack loop of `Graph::remove_node`: pop a handle, push its
children, free it. The fuel is sufficient for every pool (each live pop frees
its node). -/
def removeLoop : Nat → List Handle → Pool Node → Pool Node
  | 0, _, p => p
  | _ + 1, [], p => p
  | fuel + 1, h :: rest, p =>
    match p.borrow h with
    | none => removeLoop fuel rest (p.free h)
    | some node => removeLoop fuel (node.base.children.reverse ++ rest) (p.free h)

/-- `Graph::remove_node`: unlink the subtree root, then free the whole
subtree with the iterative stack loop. -/
def removeNode (g : Graph) (node_handle : Handle) : Graph :=
  let g1 := g.unlinkInternal node_handle
  { g1 with
    pool := removeLoop (2 + totalChildren g1.pool) [node_handle] g1.pool
    stack := [] }

/-- `Graph::unlink_node`: unlink, re-attach under the root, reset the local
position to the origin. -/
def unlinkNode (g : Graph) (node_handle : Handle) : Graph :=
  let g1 := g.unlinkInternal node_handle
  let g2 := g1.linkNodes node_handle g1.root
  g2.updateNode node_handle
    (Node.mapBase fun b => { b with localTransform := b.localTransform.setPosition Vec3.ZERO })

/-- The recursion of `Graph::find_copy_of` over a work list: try each handle
in order, first searching its whole subtree, and return the first node whose
`original` field equals the target. Fuel bounds the recursion depth. -/
def findCopyList (g : Graph) : Nat → List Handle → Handle → Handle
  | 0, _, _ => Handle.NONE
  | _ + 1, [], _ => Handle.NONE
  | fuel + 1, r :: rs, target =>
    match g.pool.borrow r with
    | none => findCopyList g fuel rs target
    | some root =>
      if root.base.original = target then r
      else findCopyList g fuel (root.base.children ++ rs) target

/-- `Graph::find_copy_of` with step fuel `capacity + 1`, enough for every
well-formed graph (each live node is visited at most once). -/
def findCopyOf (g : Graph) (root_handle node_handle : Handle) : Handle :=
  findCopyList g (g.pool.getCapacity + 1) [root_handle] node_handle

/-- The recursion of `Graph::find_by_name` over a work list, depth-first,
first match wins. -/
def findByNameList (g : Graph) : Nat → List Handle → String → Handle
  | 0, _, _ => Handle.NONE
  | _ + 1, [], _ => Handle.NONE
  | fuel + 1, r :: rs, name =>
    match g.pool.borrow r with
    | none => findByNameList g fuel rs name
    | some node =>
      if node.base.name = name then r
      else findByNameList g fuel (node.base.children ++ rs) name

/-- `Graph::find_by_name`. -/
def findByName (g : Graph) (root_node : Handle) (name : String) : Handle :=
  findByNameList g (g.pool.getCapacity + 1) [root_node] name

/-- `Graph::find_by_name_from_root`. -/
def findByNameFromRoot (g : Graph) (name : String) : Handle :=
  g.findByName g.root name

/-- `Graph::find_model_root`: walk up the parent chain until a parentless
node or a resource-instance root is found. Fuel bounds the chain length. -/
def findModelRootAux (g : Graph) : Nat → Handle → Handle
  | 0, h => h
  | fuel + 1, h =>
    if h.isSomeH then
      match g.pool.borrow h with
      | none => h
      | some node =>
        if ¬ node.base.parent.isSomeH then h
        else if node.base.isResourceInstance then h
        else findModelRootAux g fuel node.base.parent
    else h

/-- `Graph::find_model_root` with chain fuel `capacity + 1`. -/
def findModelRoot (g : Graph) (from_ : Handle) : Handle :=
  findModelRootAux g (g.pool.getCapacity + 1) from_

/-- The iterative stack loop of `Graph::update_transforms`: pop a handle,
read the parent's already-computed global state (identity / fully visible
when parentless), write this node's global state, push the children. -/
def updateTransformsLoop : Nat → List Handle → Pool Node → Pool Node
  | 0, _, p => p
  | _ + 1, [], p => p
  | fuel + 1, h :: rest, p =>
    match p.borrow h with
    | none => p
    | some node =>
      let parent_handle := node.base.parent
      let pg :=
        if parent_handle.isSomeH then
          match p.borrow parent_handle with
          | some parent => (parent.base.globalTransform, parent.base.globalVisibility)
          | none => ((1 : Mat4), true)
        else ((1 : Mat4), true)
      let p1 := p.update h (Node.mapBase fun b =>
        { b with
          globalTransform := pg.1 * b.localTransform.matrix
          globalVisibility := pg.2 && b.visibility })
      updateTransformsLoop fuel (node.base.children.reverse ++ rest) p1

/-- `Graph::update_transforms`: one iterative pre-order pass from the root. -/
def updateTransforms (g : Graph) : Graph :=
  { g with
    pool := updateTransformsLoop (2 + totalChildren g.pool) [g.root] g.pool
    stack := [] }

end Graph

/-! ## Deep copy -/

/-- Lookup in the old-to-new handle mapping of the deep copy (an association
list standing for the source's `HashMap`). -/
def alistLookup (m : List (Handle × Handle)) (k : Handle) : Option Handle :=
  match m with
  | [] => none
  | (k', v) :: rest => if k' = k then some v else alistLookup rest k

namespace Graph

end Graph

/-- One pending action of the deep-copy traversal of `Graph::copy_node_raw`:
copy a source node (and then its subtree) under an optional destination
parent, or link an already-finished copy under its destination parent (the
source links each copy after its whole subtree has been copied). -/
inductive CopyItem where
  | copy (s : Handle) (destParent : Option Handle)
  | link (child parent : Handle)

namespace Graph

/-- The recursion of `Graph::copy_node_raw` over a work list of pending
actions, in the source's operation order: clone the node detached, set its
`original` to the source handle, add it to the destination graph (which
links it under the destination root), record the mapping, then copy the
source children under the fresh copy and finally re-link the copy under the
given destination parent. A dead source handle contributes nothing (the
source stops fatally there; its copy stays absent and the link guard skips
it). Fuel bounds the number of actions. -/
def copySubtrees (src : Graph) :
    Nat → List CopyItem → Graph → List (Handle × Handle) →
    Graph × List (Handle × Handle)
  | 0, _, dest, mapping => (dest, mapping)
  | _ + 1, [], dest, mapping => (dest, mapping)
  | fuel + 1, CopyItem.link c p :: rest, dest, mapping =>
    copySubtrees src fuel rest (if c.isSomeH then dest.linkNodes c p else dest) mapping
  | fuel + 1, CopyItem.copy s destParent :: rest, dest, mapping =>
    match src.pool.borrow s with
    | none => copySubtrees src fuel rest dest mapping
    | some srcNode =>
      let destNode := (srcNode.cloneDetached).mapBase fun b => { b with original := s }
      let added := dest.addNode destNode
      let destHandle := added.1
      let items :=
        (srcNode.base.children.map fun c => CopyItem.copy c (some destHandle))
          ++ (match destParent with
              | some p => [CopyItem.link destHandle p]
              | none => []) ++ rest
      copySubtrees src fuel items added.2 (mapping ++ [(s, destHandle)])

/-- Remap the bone handles of one copied mesh through the old-to-new mapping;
bones absent from the mapping are left unchanged (second pass of
`Graph::copy_node`). -/
def remapBonesAt (dest : Graph) (h : Handle) (mapping : List (Handle × Handle)) : Graph :=
  dest.updateNode h fun n =>
    match n with
    | Node.Mesh b surfs =>
      Node.Mesh b (surfs.map fun s =>
        { s with bones := s.bones.map fun bone => (alistLookup mapping bone).getD bone })
    | other => other

/-- `Graph::copy_node_raw` on one subtree root: returns the new root handle,
the destination graph and the old-to-new mapping. -/
def copyNodeRaw (g : Graph) (node_handle : Handle) (dest : Graph) :
    Handle × Graph × List (Handle × Handle) :=
  let r := copySubtrees g (2 * g.pool.getCapacity + 2) [CopyItem.copy node_handle none]
    dest []
  ((alistLookup r.2 node_handle).getD Handle.NONE, r.1, r.2)

/-- `Graph::copy_node`: deep copy of the subtree followed by the bone remap
pass over every instantiated node. -/
def copyNode (g : Graph) (node_handle : Handle) (dest : Graph) : Handle × Graph :=
  let raw := g.copyNodeRaw node_handle dest
  let mapping := raw.2.2
  let dest2 := mapping.foldl (fun d pr => remapBonesAt d pr.2 mapping) raw.2.1
  (raw.1, dest2)

end Graph

/-! ## Resolution -/

/-- The registry of resource template graphs; a node's `resource` field is an
index into it, standing for the source's shared model reference. -/
abbrev ResourceEnv := List Graph

/-- Pass 1 of `Graph::resolve` on one node: if the node carries a resource,
scan the resource graph's pool in index order for the first node with the
same name, record its handle as `original` and copy its inverse bind pose. -/
def pass1Node (env : ResourceEnv) (n : Node) : Node :=
  match n.base.resource with
  | none => n
  | some rid =>
    match env.get? rid with
    | none => n
    | some model =>
      match model.pool.pairList.find? (fun pr => pr.2.base.name = n.base.name) with
      | none => n
      | some pr =>
        n.mapBase fun b =>
          { b with
            original := pr.1
            invBindPoseTransform := pr.2.base.invBindPoseTransform }

namespace Graph

/-- Pass 1 of `Graph::resolve`: original-handle resolution over every live
node. -/
def pass1 (env : ResourceEnv) (g : Graph) : Graph :=
  { g with pool := g.pool.mapPayloads (pass1Node env) }

/-- Pass 2 of `Graph::resolve` on one node: for a mesh with a resource
reference, find the model root in the live graph, look up the same-named node
in the resource graph, and when it is a mesh, replace the surfaces with
clones of the resource surfaces and remap every bone handle through
`find_copy_of` against the live graph. On a failed name lookup the source
dereferences `Handle::NONE` in the resource graph and stops fatally; that
branch is modelled as a skip. -/
def pass2Step (env : ResourceEnv) (g : Graph) (node_handle : Handle) : Graph :=
  match g.pool.borrow node_handle with
  | none => g
  | some n =>
    match n with
    | Node.Mesh b _ =>
      let root_handle := g.findModelRoot node_handle
      match b.resource with
      | none => g
      | some rid =>
        match env.get? rid with
        | none => g
        | some model =>
          let resource_node_handle := model.findByNameFromRoot b.name
          match model.pool.borrow resource_node_handle with
          | some (Node.Mesh _ resourceSurfaces) =>
            g.updateNode node_handle fun node =>
              match node with
              | Node.Mesh b' _ =>
                Node.Mesh b' (resourceSurfaces.map fun s =>
                  { s with bones := s.bones.map fun bone => g.findCopyOf root_handle bone })
              | other => other
          | _ => g
    | _ => g

/-- Pass 2 of `Graph::resolve`: surface and bone resync over every live node
in index order, each step reading the graph as mutated by the previous
steps. -/
def pass2 (env : ResourceEnv) (g : Graph) : Graph :=
  (g.pool.liveHandles).foldl (pass2Step env) g

/-- `Graph::resolve`: transforms first, then original-handle resolution, then
surface/bone resync. -/
def resolve (env : ResourceEnv) (g : Graph) : Graph :=
  pass2 env (pass1 env (g.updateTransforms))

end Graph

/-! ## Per-frame node update -/

/-- `Vec2` (the frame size), carried but not consumed by any verified
behaviour. -/
structure Vec2 where
  x : Real32
  y : Real32
  deriving DecidableEq, Repr

namespace Graph

/-- The per-node body of the first loop of `Graph::update_nodes`: decrement
the lifetime when present. The camera / particle-system per-frame work is
out-of-scope payload behaviour and does not touch the base record. -/
def updateNodesPerNode (dt : Real32) (n : Node) : Node :=
  match n.base.lifetime with
  | some lifetime => n.mapBase fun b => { b with lifetime := some (lifetime - dt) }
  | none => n

/-- `Graph::update_nodes`: transform propagation, lifetime decrement and
variant dispatch over live nodes, then an index-based scan over the arena
capacity removing (with `remove_node`, subtree included) every entity whose
lifetime is present and non-positive. -/
def updateNodes (g : Graph) (frame_size : Vec2) (dt : Real32) : Graph :=
  let _ := frame_size
  let g1 := g.updateTransforms
  let g2 := { g1 with pool := g1.pool.mapPayloads (updateNodesPerNode dt) }
  (List.range g2.pool.getCapacity).foldl
    (fun acc i =>
      match acc.pool.atIndex i with
      | none => acc
      | some node =>
        match node.base.lifetime with
        | some lifetime =>
          if lifetime ≤ 0 then acc.removeNode (acc.pool.handleFromIndex i) else acc
        | none => acc)
    g2

end Graph

/-! ## Scene, physics binder, load precondition -/

/-- Modelled from the spec: an external rigid body; only its position is
observed by the scene layer. -/
structure RigidBody where
  position : Vec3

/-- Modelled from the spec: the external physics world, a pool of rigid
bodies; the solver step itself is out of scope and is passed as an opaque
state transformer. -/
structure Physics where
  bodies : Pool RigidBody

/-- `Physics::is_valid_body_handle`. -/
def Physics.isValidBodyHandle (p : Physics) (h : Handle) : Bool := p.bodies.isValidHandle h

/-- `Physics::borrow_body` (fatal on an invalid handle, modelled as `none`). -/
def Physics.borrowBody (p : Physics) (h : Handle) : Option RigidBody := p.bodies.borrow h

/-- `PhysicsBinder`: the map from graph node handles to rigid body handles,
modelled as an association list with distinct keys (the source's `HashMap`). -/
structure PhysicsBinder where
  nodeRigidBodyMap : List (Handle × Handle)

/-- `Scene` (the animation container is an out-of-scope external collaborator
and is not carried). -/
structure Scene where
  graph : Graph
  physics : Physics
  physicsBinder : PhysicsBinder

/-- `Scene::update_physics`: step the physics world (the external solver is
the opaque `step`), prune every binder entry whose node or body handle is no
longer valid, then write each surviving body's position into its bound node's
local transform. -/
def Scene.updatePhysics (s : Scene) (step : Physics → Physics) : Scene :=
  let physics := step s.physics
  let binder := s.physicsBinder.nodeRigidBodyMap.filter fun nb =>
    s.graph.isValid nb.1 && physics.isValidBodyHandle nb.2
  let graph := binder.foldl
    (fun g nb =>
      match physics.borrowBody nb.2 with
      | some body =>
        g.updateNode nb.1 (Node.mapBase fun b =>
          { b with localTransform := b.localTransform.setPosition body.position })
      | none => g)
    s.graph
  { graph := graph, physics := physics, physicsBinder := ⟨binder⟩ }

/-- The fatal load precondition of `impl Visit for Graph`: when the visitor
is reading, the backing arena must have zero capacity. -/
def Graph.loadFatal (isReading : Bool) (g : Graph) : Bool :=
  isReading && decide (g.pool.getCapacity ≠ 0)


/-! ## Pool lemmas -/

/-- Two handles with equal parts are equal. -/
theorem Handle.eq_of_parts {h k : Handle} (hi : h.index = k.index)
    (hg : h.generation = k.generation) : h = k := by
  cases h; cases k; simp_all

namespace Pool

variable {α : Type}

/-- Sanity of a pool state: free-stack entries are in-range, dead and
distinct, and every slot's generation is positive (as issued by `spawn`). -/
def ok (p : Pool α) : Prop :=
  (∀ i ∈ p.freeStack, i < p.records.length ∧ (p.atIndex i).isNone = true) ∧
  p.freeStack.Nodup ∧
  (∀ r ∈ p.records, 1 ≤ r.generation)

instance (p : Pool α) : Decidable p.ok := by
  unfold ok; infer_instance

theorem borrow_update_self (p : Pool α) (h : Handle) (f : α → α) :
    (p.update h f).borrow h = (p.borrow h).map f := by
  unfold update borrow
  cases hg : p.records[h.index]? with
  | none => simp [hg]
  | some r =>
    by_cases hgen : r.generation = h.generation
    · simp [hg, hgen, List.getElem?_set_self']
    · simp [hg, hgen]

theorem borrow_update_ne (p : Pool α) {h k : Handle} (f : α → α) (hne : k ≠ h) :
    (p.update h f).borrow k = p.borrow k := by
  unfold update borrow
  cases hg : p.records[h.index]? with
  | none => simp
  | some r =>
    by_cases hgen : r.generation = h.generation
    · by_cases hidx : h.index = k.index
      · have hkgen : r.generation ≠ k.generation := by
          intro hk
          exact hne (Handle.eq_of_parts hidx.symm (hk.symm.trans hgen))
        have hhk : h.generation ≠ k.generation := fun he => hkgen (hgen.trans he)
        rw [hidx] at hg
        simp [hg, hgen, hidx, List.getElem?_set_self', hkgen, hhk]
      · simp [hg, hgen, List.getElem?_set_ne hidx]
    · simp [hg, hgen]

theorem records_length_update (p : Pool α) (h : Handle) (f : α → α) :
    (p.update h f).records.length = p.records.length := by
  unfold update
  cases hg : p.records[h.index]? with
  | none => simp
  | some r =>
    by_cases hgen : r.generation = h.generation <;> simp [hg, hgen]

theorem borrow_free_self (p : Pool α) (h : Handle) : (p.free h).borrow h = none := by
  unfold free borrow
  cases hg : p.records[h.index]? with
  | none => simp [hg]
  | some r =>
    by_cases hcond : r.generation = h.generation ∧ r.payload.isSome = true
    · simp [hg, hcond, List.getElem?_set_self', hcond.1]
    · rcases Decidable.not_and_iff_or_not.mp hcond with hgen | hdead
      · simp [hg, hcond, hgen]
      · simp only [hg, hcond, if_false]
        by_cases hgen : r.generation = h.generation
        · simp [hgen, Option.not_isSome_iff_eq_none.mp hdead]
        · simp [hgen]

theorem borrow_free_ne (p : Pool α) {h k : Handle} (hne : k ≠ h) :
    (p.free h).borrow k = p.borrow k := by
  unfold free borrow
  cases hg : p.records[h.index]? with
  | none => simp
  | some r =>
    by_cases hcond : r.generation = h.generation ∧ r.payload.isSome = true
    · by_cases hidx : h.index = k.index
      · have hkgen : r.generation ≠ k.generation := by
          intro hk
          exact hne (Handle.eq_of_parts hidx.symm (hk.symm.trans hcond.1))
        have hhk : h.generation ≠ k.generation := fun he => hkgen (hcond.1.trans he)
        rw [hidx] at hg
        simp [hg, hcond, hidx, List.getElem?_set_self', hkgen, hhk]
      · simp [hg, hcond, List.getElem?_set_ne hidx]
    · simp [hg, hcond]

theorem records_length_free (p : Pool α) (h : Handle) :
    (p.free h).records.length = p.records.length := by
  unfold free
  cases hg : p.records[h.index]? with
  | none => simp
  | some r =>
    by_cases hcond : r.generation = h.generation ∧ r.payload.isSome = true <;>
      simp [hg, hcond]

theorem length_filter_set {β : Type} (q : β → Bool) (l : List β) (i : Nat) (a b : β)
    (hi : l[i]? = some a) :
    ((l.set i b).filter q).length + (if q a = true then 1 else 0)
      = (l.filter q).length + (if q b = true then 1 else 0) := by
  induction l generalizing i with
  | nil => simp at hi
  | cons x xs ih =>
    cases i with
    | zero =>
      have hx : x = a := by simpa using hi
      subst hx
      by_cases hqa : q x = true <;> by_cases hqb : q b = true <;>
        simp [List.filter_cons, hqa, hqb]
    | succ n =>
      have hi' : xs[n]? = some a := by simpa using hi
      have hrec := ih n hi'
      by_cases hqa : q a = true <;> by_cases hqb : q b = true <;>
        by_cases hqx : q x = true <;>
        simp [hqa, hqb] at hrec <;>
        simp [List.filter_cons, hqa, hqb, hqx, hrec]

theorem aliveCount_free (p : Pool α) (h : Handle) (hv : p.isValidHandle h = true) :
    (p.free h).aliveCount + 1 = p.aliveCount := by
  unfold isValidHandle borrow at hv
  cases hg : p.records[h.index]? with
  | none => simp [hg] at hv
  | some r =>
    simp only [hg] at hv
    by_cases hgen : r.generation = h.generation
    · have hcond : r.generation = h.generation ∧ r.payload.isSome = true := by
        refine ⟨hgen, ?_⟩
        simpa [hgen] using hv
      unfold free aliveCount
      simp only [hg]
      rw [if_pos hcond]
      dsimp only
      have hlen := length_filter_set (fun rec => rec.payload.isSome) p.records h.index r
        { r with payload := none } hg
      simp [hcond.2] at hlen
      omega
    · simp [hgen] at hv

theorem aliveCount_update (p : Pool α) (h : Handle) (f : α → α) :
    (p.update h f).aliveCount = p.aliveCount := by
  unfold update aliveCount
  cases hg : p.records[h.index]? with
  | none => simp
  | some r =>
    by_cases hgen : r.generation = h.generation
    · simp only [hg, hgen, if_true]
      have hlen := length_filter_set (fun rec => rec.payload.isSome) p.records h.index r
        { r with payload := r.payload.map f } hg
      rw [hgen] at hlen
      by_cases hp : r.payload.isSome = true <;> simp [hp] at hlen <;> omega
    · simp [hg, hgen]

theorem valid_free_iff (p : Pool α) (h k : Handle) :
    (p.free h).isValidHandle k = true ↔ p.isValidHandle k = true ∧ k ≠ h := by
  unfold isValidHandle
  by_cases hk : k = h
  · subst hk
    simp [borrow_free_self]
  · simp [borrow_free_ne p hk, hk]

theorem valid_update_iff (p : Pool α) (h k : Handle) (f : α → α) :
    (p.update h f).isValidHandle k = p.isValidHandle k := by
  unfold isValidHandle
  by_cases hk : k = h
  · subst hk
    simp [borrow_update_self]
  · simp [borrow_update_ne p f hk]

theorem spawn_borrow_self (p : Pool α) (v : α) (hok : p.ok) :
    (p.spawn v).2.borrow (p.spawn v).1 = some v := by
  unfold spawn borrow
  cases hs : p.freeStack with
  | nil => simp [List.getElem?_concat_length]
  | cons i rest =>
    have hmem : i ∈ p.freeStack := by rw [hs]; exact List.mem_cons_self i rest
    obtain ⟨hlt, _⟩ := hok.1 i hmem
    simp [List.getElem?_set_self hlt]

theorem spawn_borrow_preserved (p : Pool α) (v : α) (hok : p.ok) (k : Handle)
    (hv : p.isValidHandle k = true) :
    (p.spawn v).2.borrow k = p.borrow k := by
  unfold spawn borrow
  cases hs : p.freeStack with
  | nil =>
    have hlt : k.index < p.records.length := by
      unfold isValidHandle borrow at hv
      cases hg : p.records[k.index]? with
      | none => simp [hg] at hv
      | some r => exact (List.getElem?_eq_some_iff.mp hg).1
    simp [List.getElem?_append_left hlt]
  | cons i rest =>
    have hmem : i ∈ p.freeStack := by rw [hs]; exact List.mem_cons_self i rest
    obtain ⟨hlt, hdead⟩ := hok.1 i hmem
    by_cases hik : i = k.index
    · exfalso
      unfold isValidHandle borrow at hv
      unfold atIndex at hdead
      rw [hik] at hdead
      cases hg : p.records[k.index]? with
      | none => simp [hg] at hv
      | some r =>
        simp only [hg] at hv hdead
        have hpay : r.payload = none := by simpa using hdead
        by_cases hgen : r.generation = k.generation
        · simp only [hgen, if_true] at hv
          simp [hpay] at hv
        · simp [hgen] at hv
    · simp [List.getElem?_set_ne hik]

theorem spawn_not_valid_before (p : Pool α) (v : α) (hok : p.ok) :
    p.isValidHandle (p.spawn v).1 = false := by
  unfold spawn isValidHandle borrow
  cases hs : p.freeStack with
  | nil => simp
  | cons i rest =>
    have hmem : i ∈ p.freeStack := by rw [hs]; exact List.mem_cons_self i rest
    obtain ⟨hlt, hdead⟩ := hok.1 i hmem
    unfold atIndex at hdead
    cases hg : p.records[i]? with
    | none => simp [hg]
    | some r =>
      simp only [hg] at hdead
      simp [hg, Option.isNone_iff_eq_none.mp hdead]

theorem spawn_valid_iff (p : Pool α) (v : α) (hok : p.ok) (k : Handle) :
    (p.spawn v).2.isValidHandle k = true ↔
      p.isValidHandle k = true ∨ k = (p.spawn v).1 := by
  constructor
  · intro hv
    by_cases hk : k = (p.spawn v).1
    · exact Or.inr hk
    · left
      unfold isValidHandle at hv ⊢
      unfold spawn at hv hk
      unfold borrow at hv ⊢
      cases hs : p.freeStack with
      | nil =>
        simp only [hs] at hv hk
        by_cases hidx : k.index < p.records.length
        · simpa [List.getElem?_append_left hidx] using hv
        · by_cases heq : k.index = p.records.length
          · rw [heq] at hv
            simp [List.getElem?_concat_length] at hv
            exact absurd (Handle.eq_of_parts heq hv.symm) hk
          · have hge : p.records.length ≤ k.index := Nat.le_of_not_lt hidx
            have hgt : (p.records ++ [(⟨1, some v⟩ : PoolRecord α)]).length ≤ k.index := by
              simp
              omega
            rw [List.getElem?_eq_none hgt] at hv
            simp at hv
      | cons i rest =>
        simp only [hs] at hv hk
        have hmem : i ∈ p.freeStack := by rw [hs]; exact List.mem_cons_self i rest
        obtain ⟨hlt, _⟩ := hok.1 i hmem
        by_cases hik : i = k.index
        · exfalso
          rw [hik] at hv hk hlt
          rw [List.getElem?_set_self hlt] at hv
          simp at hv
          exact hk (Handle.eq_of_parts rfl hv.symm)
        · simpa [List.getElem?_set_ne hik] using hv
  · intro hv
    rcases hv with hv | hv
    · unfold isValidHandle
      rw [spawn_borrow_preserved p v hok k hv]
      exact hv
    · subst hv
      unfold isValidHandle
      rw [spawn_borrow_self p v hok]
      rfl

theorem atIndex_eq_none_of_borrow (p : Pool α) (i : Nat)
    (h : ∀ r, p.records[i]? = some r → r.payload = none) :
    (p.atIndex i).isNone = true := by
  unfold atIndex
  cases hg : p.records[i]? with
  | none => simp
  | some r => simp [h r hg]

theorem update_ok (p : Pool α) (h : Handle) (f : α → α) (hok : p.ok) :
    (p.update h f).ok := by
  unfold update
  cases hg : p.records[h.index]? with
  | none => simpa [hg] using hok
  | some r =>
    by_cases hgen : r.generation = h.generation
    · simp only [hg, hgen, if_true]
      obtain ⟨hfree, hnodup, hgens⟩ := hok
      refine ⟨?_, hnodup, ?_⟩
      · intro i hmem
        obtain ⟨hlt, hdead⟩ := hfree i hmem
        refine ⟨by simpa using hlt, ?_⟩
        unfold atIndex at hdead ⊢
        by_cases hih : h.index = i
        · subst hih
          simp only [hg] at hdead
          rw [List.getElem?_set_self (List.getElem?_eq_some_iff.mp hg).1]
          simpa using hdead
        · rw [List.getElem?_set_ne hih]
          exact hdead
      · intro r' hr'
        rcases List.mem_or_eq_of_mem_set hr' with hmem | heq
        · exact hgens r' hmem
        · subst heq
          have h1 := hgens r (List.getElem?_mem hg)
          rw [hgen] at h1
          simpa using h1
    · simpa [hg, hgen] using hok

theorem free_ok (p : Pool α) (h : Handle) (hok : p.ok) : (p.free h).ok := by
  unfold free
  cases hg : p.records[h.index]? with
  | none => simpa [hg] using hok
  | some r =>
    by_cases hcond : r.generation = h.generation ∧ r.payload.isSome = true
    · simp only [hg]
      rw [if_pos hcond]
      obtain ⟨hfree, hnodup, hgens⟩ := hok
      have hnotmem : h.index ∉ p.freeStack := by
        intro hmem
        obtain ⟨_, hdead⟩ := hfree h.index hmem
        unfold atIndex at hdead
        simp [hg, hcond.2] at hdead
        rw [hdead] at hcond
        simp at hcond
      refine ⟨?_, ?_, ?_⟩
      · intro i hmem
        rcases List.mem_cons.mp hmem with heq | hmem'
        · subst heq
          refine ⟨by simpa using (List.getElem?_eq_some_iff.mp hg).1, ?_⟩
          unfold atIndex
          rw [List.getElem?_set_self (List.getElem?_eq_some_iff.mp hg).1]
          simp
        · obtain ⟨hlt, hdead⟩ := hfree i hmem'
          refine ⟨by simpa using hlt, ?_⟩
          unfold atIndex at hdead ⊢
          by_cases hih : h.index = i
          · subst hih
            exact absurd hmem' hnotmem
          · rw [List.getElem?_set_ne hih]
            exact hdead
      · exact List.Nodup.cons hnotmem hnodup
      · intro r' hr'
        rcases List.mem_or_eq_of_mem_set hr' with hmem | heq
        · exact hgens r' hmem
        · subst heq
          exact hgens r (List.getElem?_mem hg)
    · simpa [hg, hcond] using hok

theorem spawn_ok (p : Pool α) (v : α) (hok : p.ok) : (p.spawn v).2.ok := by
  unfold spawn
  obtain ⟨hfree, hnodup, hgens⟩ := hok
  cases hs : p.freeStack with
  | nil =>
    refine ⟨?_, ?_, ?_⟩
    · intro i hmem
      simp at hmem
    · simp
    · intro r hr
      rcases List.mem_append.mp hr with hmem | hmem
      · exact hgens r hmem
      · simp at hmem
        subst hmem
        simp
  | cons j rest =>
    have hjmem : j ∈ p.freeStack := by rw [hs]; exact List.mem_cons_self j rest
    obtain ⟨hjlt, _⟩ := hfree j hjmem
    have hnodup' : (j :: rest).Nodup := hs ▸ hnodup
    refine ⟨?_, ?_, ?_⟩
    · intro i hmem
      have himem : i ∈ p.freeStack := by
        rw [hs]
        exact List.mem_cons_of_mem j hmem
      obtain ⟨hlt, hdead⟩ := hfree i himem
      refine ⟨by simpa using hlt, ?_⟩
      have hij : j ≠ i := by
        intro heq
        subst heq
        exact (List.nodup_cons.mp hnodup').1 hmem
      unfold atIndex at hdead ⊢
      rw [List.getElem?_set_ne hij]
      exact hdead
    · exact (List.nodup_cons.mp hnodup').2
    · intro r hr
      rcases List.mem_or_eq_of_mem_set hr with hmem | heq
      · exact hgens r hmem
      · subst heq
        simp

theorem free_of_invalid (p : Pool α) (h : Handle) (hv : p.isValidHandle h = false) :
    p.free h = p := by
  unfold isValidHandle borrow at hv
  unfold free
  cases hg : p.records[h.index]? with
  | none => rfl
  | some r =>
    simp only [hg] at hv ⊢
    by_cases hgen : r.generation = h.generation
    · have hv' : r.payload.isSome = false := by simpa [hgen] using hv
      rw [if_neg]
      rintro ⟨_, hs⟩
      rw [hv'] at hs
      exact Bool.false_ne_true hs
    · rw [if_neg]
      rintro ⟨hc, _⟩
      exact hgen hc

theorem gens_free (p : Pool α) (h : Handle) (i : Nat) :
    ((p.free h).records[i]?).map PoolRecord.generation
      = (p.records[i]?).map PoolRecord.generation := by
  unfold free
  cases hg : p.records[h.index]? with
  | none => rfl
  | some r =>
    by_cases hcond : r.generation = h.generation ∧ r.payload.isSome = true
    · simp only [hg]
      rw [if_pos hcond]
      by_cases hih : h.index = i
      · subst hih
        rw [List.getElem?_set_self (List.getElem?_eq_some_iff.mp hg).1]
        simp [hg]
      · simp [List.getElem?_set_ne hih]
    · simp [hg, hcond]

theorem gens_update (p : Pool α) (h : Handle) (f : α → α) (i : Nat) :
    ((p.update h f).records[i]?).map PoolRecord.generation
      = (p.records[i]?).map PoolRecord.generation := by
  unfold update
  cases hg : p.records[h.index]? with
  | none => rfl
  | some r =>
    by_cases hgen : r.generation = h.generation
    · simp only [hg]
      rw [if_pos hgen]
      by_cases hih : h.index = i
      · subst hih
        rw [List.getElem?_set_self (List.getElem?_eq_some_iff.mp hg).1]
        simp [hg]
      · simp [List.getElem?_set_ne hih]
    · simp [hg, hgen]

theorem mem_liveHandles (p : Pool α) (h : Handle) :
    h ∈ p.liveHandles ↔ p.isValidHandle h = true := by
  unfold liveHandles
  rw [List.mem_filterMap]
  constructor
  · rintro ⟨i, hi, hcond⟩
    by_cases hlive : (p.atIndex i).isSome = true
    · simp only [hlive, if_true] at hcond
      have hh : p.handleFromIndex i = h := by simpa using hcond
      unfold atIndex at hlive
      cases hg : p.records[i]? with
      | none => simp [hg] at hlive
      | some r =>
        simp only [hg] at hlive
        have hpl : r.payload.isSome = true := by simpa using hlive
        unfold isValidHandle borrow
        rw [← hh]
        unfold handleFromIndex
        simp [hg, hpl]
    · simp [hlive] at hcond
  · intro hv
    refine ⟨h.index, ?_, ?_⟩
    · unfold isValidHandle borrow at hv
      cases hg : p.records[h.index]? with
      | none => simp [hg] at hv
      | some r =>
        simpa using (List.getElem?_eq_some_iff.mp hg).1
    · unfold isValidHandle borrow at hv
      cases hg : p.records[h.index]? with
      | none => simp [hg] at hv
      | some r =>
        simp only [hg] at hv
        by_cases hgen : r.generation = h.generation
        · have hlive : (p.atIndex h.index).isSome = true := by
            unfold atIndex
            simp only [hg]
            simpa [hgen] using hv
          simp only [hlive, if_true]
          unfold handleFromIndex
          simp only [hg]
          congr 1
          exact Handle.eq_of_parts rfl (by simpa using hgen)
        · simp [hgen] at hv

theorem borrow_handleFromIndex (p : Pool α) (i : Nat) :
    p.borrow (p.handleFromIndex i) = p.atIndex i := by
  unfold borrow handleFromIndex atIndex
  cases hg : p.records[i]? with
  | none => simp [hg]
  | some r => simp [hg]

end Pool

/-! ## Node accessor lemmas -/

@[simp] theorem Node.base_mapBase (f : BaseRec → BaseRec) (n : Node) :
    (n.mapBase f).base = f n.base := by
  cases n <;> rfl

@[simp] theorem Node.surfaces_mapBase (f : BaseRec → BaseRec) (n : Node) :
    (n.mapBase f).surfaces = n.surfaces := by
  cases n <;> rfl

@[simp] theorem Node.isMesh_mapBase (f : BaseRec → BaseRec) (n : Node) :
    (n.mapBase f).isMesh = n.isMesh := by
  cases n <;> rfl

/-! ## Pool-level hierarchy: parents, children, descendants, depth -/

namespace Pool

/-- The parent handle stored at a handle of a node pool. -/
def parentP (p : Pool Node) (h : Handle) : Handle :=
  ((p.borrow h).map fun n => n.base.parent).getD Handle.NONE

/-- The children list stored at a handle of a node pool. -/
def childrenP (p : Pool Node) (h : Handle) : List Handle :=
  ((p.borrow h).map fun n => n.base.children).getD []

/-- The length of the up chain from a handle until a node with an invalid
parent, when it terminates within the fuel: the witness that the parent
relation is acyclic. -/
def upDepth (p : Pool Node) : Nat → Handle → Option Nat
  | 0, _ => none
  | fuel + 1, h =>
    if p.isValidHandle h = true then
      if p.isValidHandle (p.parentP h) = true then
        (upDepth p fuel (p.parentP h)).map (· + 1)
      else some 0
    else none

/-- Iterated parent. -/
def iterParentP (p : Pool Node) : Nat → Handle → Handle
  | 0, h => h
  | n + 1, h => iterParentP p n (p.parentP h)

/-- Descendant-or-self through the children lists, starting and staying on
live nodes. -/
inductive DescP (p : Pool Node) : Handle → Handle → Prop
  | refl (h : Handle) : p.isValidHandle h = true → DescP p h h
  | child {h c k : Handle} : p.isValidHandle h = true → c ∈ p.childrenP h →
      DescP p c k → DescP p h k

/-- The depth-first list of all descendants-or-self of the handles of a work
list (dead handles contribute nothing); fuel bounds the descent depth. -/
def subtreeListP (p : Pool Node) : Nat → List Handle → List Handle
  | 0, _ => []
  | _ + 1, [] => []
  | fuel + 1, h :: rest =>
    (match p.borrow h with
     | none => []
     | some n => h :: subtreeListP p fuel n.base.children) ++
      subtreeListP p (fuel + 1) rest
  termination_by fuel l => (fuel, l.length)

end Pool

namespace Pool

theorem isValid_of_borrow {p : Pool Node} {h : Handle} {n : Node}
    (hb : p.borrow h = some n) : p.isValidHandle h = true := by
  unfold isValidHandle
  simp [hb]

theorem childrenP_of_borrow {p : Pool Node} {h : Handle} {n : Node}
    (hb : p.borrow h = some n) : p.childrenP h = n.base.children := by
  unfold childrenP
  simp [hb]

theorem parentP_of_borrow {p : Pool Node} {h : Handle} {n : Node}
    (hb : p.borrow h = some n) : p.parentP h = n.base.parent := by
  unfold parentP
  simp [hb]

theorem upDepth_lt (p : Pool Node) :
    ∀ fuel h d, p.upDepth fuel h = some d → d < fuel := by
  intro fuel
  induction fuel with
  | zero => intro h d hd; simp [upDepth] at hd
  | succ fuel ih =>
    intro h d hd
    unfold upDepth at hd
    by_cases hv : p.isValidHandle h = true
    · simp only [hv, if_true] at hd
      by_cases hp : p.isValidHandle (p.parentP h) = true
      · simp only [hp, if_true] at hd
        cases hup : p.upDepth fuel (p.parentP h) with
        | none => simp [hup] at hd
        | some d' =>
          have := ih (p.parentP h) d' hup
          simp [hup] at hd
          omega
      · simp only [hp, if_false] at hd
        simp at hd
        omega
    · simp [hv] at hd

theorem upDepth_mono (p : Pool Node) :
    ∀ fuel fuel' h d, fuel ≤ fuel' → p.upDepth fuel h = some d →
      p.upDepth fuel' h = some d := by
  intro fuel
  induction fuel with
  | zero => intro fuel' h d _ hd; simp [upDepth] at hd
  | succ fuel ih =>
    intro fuel' h d hle hd
    cases fuel' with
    | zero => omega
    | succ fuel'' =>
      unfold upDepth at hd ⊢
      by_cases hv : p.isValidHandle h = true
      · simp only [hv, if_true] at hd ⊢
        by_cases hp : p.isValidHandle (p.parentP h) = true
        · simp only [hp, if_true] at hd ⊢
          cases hup : p.upDepth fuel (p.parentP h) with
          | none => simp [hup] at hd
          | some d' =>
            rw [ih fuel'' (p.parentP h) d' (by omega) hup]
            simpa [hup] using hd
        · simpa [hp] using hd
      · simp [hv] at hd

theorem upDepth_valid {p : Pool Node} {fuel : Nat} {h : Handle} {d : Nat}
    (hd : p.upDepth fuel h = some d) : p.isValidHandle h = true := by
  cases fuel with
  | zero => simp [upDepth] at hd
  | succ fuel =>
    unfold upDepth at hd
    by_cases hv : p.isValidHandle h = true
    · exact hv
    · simp [hv] at hd

theorem DescP.valid_src {p : Pool Node} {a k : Handle} (h : p.DescP a k) :
    p.isValidHandle a = true := by
  cases h with
  | refl _ hv => exact hv
  | child hv _ _ => exact hv

theorem DescP.valid_dst {p : Pool Node} {a k : Handle} (h : p.DescP a k) :
    p.isValidHandle k = true := by
  induction h with
  | refl _ hv => exact hv
  | child _ _ _ ih => exact ih

theorem DescP.trans_child {p : Pool Node} {a c k : Handle}
    (hv : p.isValidHandle a = true) (hc : c ∈ p.childrenP a) (h : p.DescP c k) :
    p.DescP a k := DescP.child hv hc h

theorem DescP_mono_subset {p q : Pool Node}
    (hsub : ∀ x, q.isValidHandle x = true →
      p.isValidHandle x = true ∧ ∀ c ∈ q.childrenP x, c ∈ p.childrenP x) :
    ∀ {a k : Handle}, q.DescP a k → p.DescP a k := by
  intro a k h
  induction h with
  | refl x hv => exact DescP.refl x (hsub x hv).1
  | child hv hc _ ih =>
    exact DescP.child (hsub _ hv).1 ((hsub _ hv).2 _ hc) ih

theorem DescP_of_agree {p q : Pool Node} (bads : List Handle)
    (hagree : ∀ x, p.isValidHandle x = true → x ∉ bads → q.borrow x = p.borrow x) :
    ∀ {a k : Handle}, p.DescP a k → (∀ b ∈ bads, ¬ p.DescP a b) → q.DescP a k := by
  intro a k h
  induction h with
  | refl x hv =>
    intro hb
    have hxnb : x ∉ bads := fun hx => hb x hx (DescP.refl x hv)
    have := hagree x hv hxnb
    refine DescP.refl x ?_
    unfold isValidHandle at hv ⊢
    rw [this]
    exact hv
  | child hv hc hd ih =>
    intro hb
    rename_i h c k'
    have hxnb : h ∉ bads := fun hx => hb h hx (DescP.refl h hv)
    have hagr := hagree h hv hxnb
    have hvq : q.isValidHandle h = true := by
      unfold isValidHandle
      rw [hagr]
      exact hv
    have hcq : c ∈ q.childrenP h := by
      unfold childrenP
      rw [hagr]
      exact hc
    refine DescP.child hvq hcq (ih ?_)
    intro b hbmem hdesc
    exact hb b hbmem (DescP.child hv hc hdesc)

/-- `DescP` only inspects validity and children lists, so it transfers along
any pool that agrees on those fields away from a list of excluded handles. -/
theorem DescP_of_agree_children {p q : Pool Node} (bads : List Handle)
    (hagree : ∀ x, p.isValidHandle x = true → x ∉ bads →
      q.isValidHandle x = true ∧ q.childrenP x = p.childrenP x) :
    ∀ {a k : Handle}, p.DescP a k → (∀ b ∈ bads, ¬ p.DescP a b) → q.DescP a k := by
  intro a k h
  induction h with
  | refl x hv =>
    intro hb
    have hxnb : x ∉ bads := fun hx => hb x hx (DescP.refl x hv)
    exact DescP.refl x (hagree x hv hxnb).1
  | child hv hc hd ih =>
    intro hb
    rename_i h c k'
    have hxnb : h ∉ bads := fun hx => hb h hx (DescP.refl h hv)
    obtain ⟨hvq, hcq⟩ := hagree h hv hxnb
    have hcq' : c ∈ q.childrenP h := by rw [hcq]; exact hc
    refine DescP.child hvq hcq' (ih ?_)
    intro b hbmem hdesc
    exact hb b hbmem (DescP.child hv hc hdesc)

theorem subtreeListP_nil (p : Pool Node) (fuel : Nat) : p.subtreeListP fuel [] = [] := by
  cases fuel <;> simp [subtreeListP]

theorem subtreeListP_cons (p : Pool Node) (fuel : Nat) (h : Handle) (rest : List Handle) :
    p.subtreeListP fuel (h :: rest)
      = p.subtreeListP fuel [h] ++ p.subtreeListP fuel rest := by
  cases fuel with
  | zero => simp [subtreeListP]
  | succ fuel =>
    conv_lhs => rw [subtreeListP]
    conv_rhs => rw [subtreeListP]
    rw [subtreeListP_nil]
    simp

theorem subtreeListP_single_dead (p : Pool Node) (fuel : Nat) (h : Handle)
    (hb : p.borrow h = none) : p.subtreeListP (fuel + 1) [h] = [] := by
  rw [subtreeListP]
  rw [subtreeListP_nil]
  simp [hb]

theorem subtreeListP_single_live (p : Pool Node) (fuel : Nat) (h : Handle) (n : Node)
    (hb : p.borrow h = some n) :
    p.subtreeListP (fuel + 1) [h] = h :: p.subtreeListP fuel n.base.children := by
  rw [subtreeListP]
  rw [subtreeListP_nil]
  simp [hb]

theorem mem_subtreeListP_of_mem {p : Pool Node} {fuel : Nat} {c : Handle}
    {l : List Handle} (hc : c ∈ l) {k : Handle}
    (hk : k ∈ p.subtreeListP fuel [c]) : k ∈ p.subtreeListP fuel l := by
  induction l with
  | nil => simp at hc
  | cons x rest ih =>
    rw [subtreeListP_cons]
    rcases List.mem_cons.mp hc with heq | hmem
    · subst heq
      exact List.mem_append_left _ hk
    · exact List.mem_append_right _ (ih hmem)

theorem descP_of_mem_subtreeListP (p : Pool Node) :
    ∀ fuel l k, k ∈ p.subtreeListP fuel l → ∃ c ∈ l, p.DescP c k := by
  intro fuel
  induction fuel with
  | zero => intro l k hk; simp [subtreeListP] at hk
  | succ fuel ih =>
    intro l
    induction l with
    | nil => intro k hk; rw [subtreeListP_nil] at hk; simp at hk
    | cons h rest ihl =>
      intro k hk
      rw [subtreeListP_cons] at hk
      rcases List.mem_append.mp hk with hk | hk
      · cases hb : p.borrow h with
        | none => rw [subtreeListP_single_dead p fuel h hb] at hk; simp at hk
        | some n =>
          rw [subtreeListP_single_live p fuel h n hb] at hk
          rcases List.mem_cons.mp hk with heq | hmem
          · refine ⟨h, List.mem_cons_self h rest, ?_⟩
            rw [heq]
            exact DescP.refl h (isValid_of_borrow hb)
          · obtain ⟨c, hcmem, hcdesc⟩ := ih n.base.children k hmem
            refine ⟨h, List.mem_cons_self h rest, ?_⟩
            refine DescP.child (isValid_of_borrow hb) ?_ hcdesc
            rw [childrenP_of_borrow hb]
            exact hcmem
      · obtain ⟨c, hcmem, hcdesc⟩ := ihl k hk
        exact ⟨c, List.mem_cons_of_mem h hcmem, hcdesc⟩

end Pool

namespace Pool

/-- The pool-level forest invariant: a sane pool in which every live node's
children are live, point back to it, and are distinct, and every live node's
parent chain terminates (acyclicity). -/
def forest (p : Pool Node) : Prop :=
  p.ok ∧ ∀ h ∈ p.liveHandles,
    (∀ c ∈ p.childrenP h, p.isValidHandle c = true ∧ p.parentP c = h) ∧
    (p.childrenP h).Nodup ∧
    (p.upDepth (p.getCapacity + 1) h).isSome = true

instance (p : Pool Node) : Decidable p.forest := by
  unfold forest; infer_instance

/-- The up-chain length of a handle (0 on dead handles). -/
def depthOf (p : Pool Node) (h : Handle) : Nat :=
  (p.upDepth (p.getCapacity + 1) h).getD 0

theorem forest_at {p : Pool Node} (hf : p.forest) {h : Handle}
    (hv : p.isValidHandle h = true) :
    (∀ c ∈ p.childrenP h, p.isValidHandle c = true ∧ p.parentP c = h) ∧
    (p.childrenP h).Nodup ∧
    (p.upDepth (p.getCapacity + 1) h).isSome = true :=
  hf.2 h ((p.mem_liveHandles h).mpr hv)

theorem upDepth_depthOf {p : Pool Node} (hf : p.forest) {h : Handle}
    (hv : p.isValidHandle h = true) :
    p.upDepth (p.getCapacity + 1) h = some (p.depthOf h) := by
  have := (forest_at hf hv).2.2
  cases hd : p.upDepth (p.getCapacity + 1) h with
  | none => rw [hd] at this; simp at this
  | some d => unfold depthOf; rw [hd]; rfl

theorem depthOf_le_capacity {p : Pool Node} (hf : p.forest) {h : Handle}
    (hv : p.isValidHandle h = true) : p.depthOf h ≤ p.getCapacity := by
  have := upDepth_lt p (p.getCapacity + 1) h (p.depthOf h) (upDepth_depthOf hf hv)
  omega

theorem depthOf_child {p : Pool Node} (hf : p.forest) {x c : Handle}
    (hv : p.isValidHandle x = true) (hc : c ∈ p.childrenP x) :
    p.depthOf c = p.depthOf x + 1 := by
  obtain ⟨hcv, hpc⟩ := (forest_at hf hv).1 c hc
  have hdc := upDepth_depthOf hf hcv
  unfold upDepth at hdc
  rw [if_pos hcv, hpc, if_pos hv] at hdc
  cases hup : p.upDepth p.getCapacity x with
  | none => rw [hup] at hdc; simp at hdc
  | some dx =>
    rw [hup] at hdc
    simp at hdc
    have hx := upDepth_mono p p.getCapacity (p.getCapacity + 1) x dx (by omega) hup
    rw [upDepth_depthOf hf hv] at hx
    have : dx = p.depthOf x := by simpa using hx.symm
    omega

theorem iterParentP_succ' (p : Pool Node) :
    ∀ (n : Nat) (h : Handle), p.iterParentP (n + 1) h = p.parentP (p.iterParentP n h) := by
  intro n
  induction n with
  | zero => intro h; rfl
  | succ n ih =>
    intro h
    show p.iterParentP (n + 1) (p.parentP h) = _
    rw [ih (p.parentP h)]
    rfl

theorem descP_depth_iter {p : Pool Node} (hf : p.forest) :
    ∀ {a k : Handle}, p.DescP a k →
      p.depthOf a ≤ p.depthOf k ∧ p.iterParentP (p.depthOf k - p.depthOf a) k = a := by
  intro a k h
  induction h with
  | refl x _ => simp [iterParentP]
  | child hv hc hd ih =>
    rename_i h c k'
    obtain ⟨hle, hiter⟩ := ih
    have hdc := depthOf_child hf hv hc
    constructor
    · omega
    · have harith : p.depthOf k' - p.depthOf h = (p.depthOf k' - p.depthOf c) + 1 := by omega
      rw [harith, iterParentP_succ', hiter]
      exact ((forest_at hf hv).1 c hc).2

theorem descP_unique_level {p : Pool Node} (hf : p.forest) {a b k : Handle}
    (ha : p.DescP a k) (hb : p.DescP b k) (hd : p.depthOf a = p.depthOf b) : a = b := by
  obtain ⟨_, hia⟩ := descP_depth_iter hf ha
  obtain ⟨_, hib⟩ := descP_depth_iter hf hb
  rw [← hia, ← hib, hd]

theorem not_descP_child_self {p : Pool Node} (hf : p.forest) {h c : Handle}
    (hv : p.isValidHandle h = true) (hc : c ∈ p.childrenP h) : ¬ p.DescP c h := by
  intro hd
  have hle := (descP_depth_iter hf hd).1
  have := depthOf_child hf hv hc
  omega

theorem sibling_disjoint {p : Pool Node} (hf : p.forest) {h c1 c2 : Handle}
    (hv : p.isValidHandle h = true) (hc1 : c1 ∈ p.childrenP h) (hc2 : c2 ∈ p.childrenP h)
    (hne : c1 ≠ c2) : ∀ k, p.DescP c1 k → p.DescP c2 k → False := by
  intro k h1 h2
  have hd1 := depthOf_child hf hv hc1
  have hd2 := depthOf_child hf hv hc2
  exact hne (descP_unique_level hf h1 h2 (by omega))

theorem mem_subtreeListP_of_descP {p : Pool Node} (hf : p.forest) :
    ∀ {h k : Handle}, p.DescP h k → ∀ fuel, p.getCapacity + 1 ≤ fuel + p.depthOf h →
      k ∈ p.subtreeListP fuel [h] := by
  intro h k hd
  induction hd with
  | refl x hv =>
    intro fuel hfuel
    have hdep := depthOf_le_capacity hf hv
    have h1 : 1 ≤ fuel := by omega
    obtain ⟨fuel', rfl⟩ : ∃ f, fuel = f + 1 := ⟨fuel - 1, by omega⟩
    cases hb : p.borrow x with
    | none => unfold isValidHandle at hv; simp [hb] at hv
    | some n =>
      rw [subtreeListP_single_live p fuel' x n hb]
      exact List.mem_cons_self x _
  | child hv hc hd ih =>
    rename_i h c k'
    intro fuel hfuel
    have hdep := depthOf_le_capacity hf hv
    obtain ⟨fuel', rfl⟩ : ∃ f, fuel = f + 1 := ⟨fuel - 1, by omega⟩
    cases hb : p.borrow h with
    | none => unfold isValidHandle at hv; simp [hb] at hv
    | some n =>
      rw [subtreeListP_single_live p fuel' h n hb]
      refine List.mem_cons_of_mem h ?_
      have hdc := depthOf_child hf hv hc
      have hrec := ih fuel' (by omega)
      refine mem_subtreeListP_of_mem ?_ hrec
      rw [← childrenP_of_borrow hb]
      exact hc

theorem mem_subtreeListP_iff {p : Pool Node} (hf : p.forest) (h k : Handle) :
    k ∈ p.subtreeListP (p.getCapacity + 1) [h] ↔ p.DescP h k := by
  constructor
  · intro hk
    obtain ⟨c, hc, hd⟩ := descP_of_mem_subtreeListP p _ _ k hk
    simp at hc
    rwa [hc] at hd
  · intro hd
    exact mem_subtreeListP_of_descP hf hd _ (by omega)

end Pool

namespace Pool

/-- The subtrees of the stack entries are pairwise disjoint. -/
def StackDisj (p : Pool Node) (l : List Handle) : Prop :=
  l.Pairwise fun a b => ∀ k, p.DescP a k → p.DescP b k → False

/-- No stack entry is listed among the children of any live node. -/
def NotChildOf (p : Pool Node) (l : List Handle) : Prop :=
  ∀ s ∈ l, ∀ x, p.isValidHandle x = true → s ∉ p.childrenP x

theorem descP_cases {p : Pool Node} {h k : Handle} (hd : p.DescP h k) :
    k = h ∨ ∃ c ∈ p.childrenP h, p.DescP c k := by
  cases hd with
  | refl _ _ => exact Or.inl rfl
  | child _ hc hd' => exact Or.inr ⟨_, hc, hd'⟩

theorem mem_subtreeList_list_iff {p : Pool Node} (hf : p.forest) (l : List Handle)
    (k : Handle) :
    k ∈ p.subtreeListP (p.getCapacity + 1) l ↔ ∃ c ∈ l, p.DescP c k := by
  constructor
  · exact descP_of_mem_subtreeListP p _ l k
  · rintro ⟨c, hc, hd⟩
    exact mem_subtreeListP_of_mem hc ((mem_subtreeListP_iff hf c k).mpr hd)

theorem subtreeListP_nodup {p : Pool Node} (hf : p.forest) :
    ∀ fuel l, StackDisj p l → (p.subtreeListP fuel l).Nodup := by
  intro fuel
  induction fuel with
  | zero => intro l _; simp [subtreeListP]
  | succ fuel ih =>
    intro l
    induction l with
    | nil => intro _; rw [subtreeListP_nil]; exact List.nodup_nil
    | cons h rest ihl =>
      intro hdisj
      rw [subtreeListP_cons]
      have hdhead : ∀ b ∈ rest, ∀ k, p.DescP h k → p.DescP b k → False :=
        fun b hb => List.rel_of_pairwise_cons hdisj hb
      have hdtail : StackDisj p rest := List.Pairwise.of_cons hdisj
      refine List.Nodup.append ?_ (ihl hdtail) ?_
      · cases hb : p.borrow h with
        | none => rw [subtreeListP_single_dead p fuel h hb]; exact List.nodup_nil
        | some n =>
          rw [subtreeListP_single_live p fuel h n hb]
          refine List.Nodup.cons ?_ ?_
          · intro hmem
            obtain ⟨c, hc, hd⟩ := descP_of_mem_subtreeListP p fuel n.base.children h hmem
            have hc' : c ∈ p.childrenP h := by rw [childrenP_of_borrow hb]; exact hc
            exact not_descP_child_self hf (isValid_of_borrow hb) hc' hd
          · refine ih n.base.children ?_
            have hnd : (p.childrenP h).Nodup := (forest_at hf (isValid_of_borrow hb)).2.1
            rw [childrenP_of_borrow hb] at hnd
            refine hnd.imp_of_mem ?_
            intro a b ha hb' hne
            have ha' : a ∈ p.childrenP h := by rw [childrenP_of_borrow hb]; exact ha
            have hb'' : b ∈ p.childrenP h := by rw [childrenP_of_borrow hb]; exact hb'
            exact sibling_disjoint hf (isValid_of_borrow hb) ha' hb'' hne
      · intro k hk hk'
        obtain ⟨c, hc, hd⟩ := descP_of_mem_subtreeListP p _ _ k hk
        simp at hc
        obtain ⟨b, hbmem, hbd⟩ := descP_of_mem_subtreeListP p _ _ k hk'
        exact hdhead b hbmem k (hc ▸ hd) hbd

theorem upDepth_isSome_shrink {p q : Pool Node}
    (hsub : ∀ x, q.isValidHandle x = true →
      p.isValidHandle x = true ∧ q.parentP x = p.parentP x) :
    ∀ fuel x, q.isValidHandle x = true → (p.upDepth fuel x).isSome = true →
      (q.upDepth fuel x).isSome = true := by
  intro fuel
  induction fuel with
  | zero => intro x _ hup; simp [upDepth] at hup
  | succ fuel ih =>
    intro x hxq hup
    obtain ⟨hxp, hpar⟩ := hsub x hxq
    unfold upDepth at hup ⊢
    rw [if_pos hxp] at hup
    rw [if_pos hxq, hpar]
    by_cases hpq : q.isValidHandle (p.parentP x) = true
    · rw [if_pos hpq]
      obtain ⟨hpp, _⟩ := hsub _ hpq
      rw [if_pos hpp] at hup
      cases hpu : p.upDepth fuel (p.parentP x) with
      | none => rw [hpu] at hup; simp at hup
      | some d =>
        have := ih (p.parentP x) hpq (by rw [hpu]; rfl)
        cases hqu : q.upDepth fuel (p.parentP x) with
        | none => rw [hqu] at this; simp at this
        | some d' => simp [hqu]
    · rw [if_neg hpq]
      rfl

theorem getCapacity_free (p : Pool Node) (h : Handle) :
    (p.free h).getCapacity = p.getCapacity := records_length_free p h

theorem valid_free_implies (p : Pool Node) (h x : Handle)
    (hv : (p.free h).isValidHandle x = true) :
    p.isValidHandle x = true ∧ x ≠ h := (valid_free_iff p h x).mp hv

theorem borrow_free_shrink (p : Pool Node) (h x : Handle)
    (hv : (p.free h).isValidHandle x = true) :
    (p.free h).borrow x = p.borrow x :=
  borrow_free_ne p ((valid_free_iff p h x).mp hv).2

theorem forest_free {p : Pool Node} (hf : p.forest) (h : Handle)
    (hnc : ∀ x, p.isValidHandle x = true → h ∉ p.childrenP x) :
    (p.free h).forest := by
  refine ⟨free_ok p h hf.1, ?_⟩
  intro x hx
  rw [mem_liveHandles] at hx
  obtain ⟨hxp, hxh⟩ := valid_free_implies p h x hx
  have hbeq := borrow_free_ne p (k := x) (h := h) hxh
  have hch : (p.free h).childrenP x = p.childrenP x := by
    unfold childrenP
    rw [hbeq]
  have hpar : (p.free h).parentP x = p.parentP x := by
    unfold parentP
    rw [hbeq]
  obtain ⟨hkids, hnd, hdep⟩ := forest_at hf hxp
  refine ⟨?_, ?_, ?_⟩
  · intro c hc
    rw [hch] at hc
    obtain ⟨hcv, hcp⟩ := hkids c hc
    have hcneh : c ≠ h := by
      intro heq
      exact hnc x hxp (heq ▸ hc)
    refine ⟨(valid_free_iff p h c).mpr ⟨hcv, hcneh⟩, ?_⟩
    unfold parentP
    rw [borrow_free_ne p hcneh]
    exact hcp
  · rw [hch]
    exact hnd
  · rw [getCapacity_free]
    refine upDepth_isSome_shrink ?_ (p.getCapacity + 1) x hx hdep
    intro y hy
    obtain ⟨hyp, hyh⟩ := valid_free_implies p h y hy
    refine ⟨hyp, ?_⟩
    unfold parentP
    rw [borrow_free_ne p hyh]

theorem sum_lengths_set (l : List (PoolRecord Node)) (i : Nat) (r b : PoolRecord Node)
    (hi : l[i]? = some r) :
    (((l.set i b).filterMap PoolRecord.payload).map (fun n => n.base.children.length)).sum
      + ((r.payload.map fun n => n.base.children.length).getD 0)
    = ((l.filterMap PoolRecord.payload).map (fun n => n.base.children.length)).sum
      + ((b.payload.map fun n => n.base.children.length).getD 0) := by
  induction l generalizing i with
  | nil => simp at hi
  | cons x xs ih =>
    cases i with
    | zero =>
      have hx : x = r := by simpa using hi
      subst hx
      cases hrp : x.payload <;> cases hbp : b.payload <;>
        simp [List.filterMap_cons, hrp, hbp] <;> omega
    | succ n =>
      have hi' : xs[n]? = some r := by simpa using hi
      have hrec := ih n hi'
      cases hxp : x.payload <;>
        simp [List.filterMap_cons, hxp] <;> omega

theorem totalChildren_free (p : Pool Node) (h : Handle) (n : Node)
    (hb : p.borrow h = some n) :
    Graph.totalChildren (p.free h) + n.base.children.length = Graph.totalChildren p := by
  unfold borrow at hb
  cases hg : p.records[h.index]? with
  | none => rw [hg] at hb; simp at hb
  | some r =>
    simp only [hg] at hb
    by_cases hgen : r.generation = h.generation
    · rw [if_pos hgen] at hb
      have hcond : r.generation = h.generation ∧ r.payload.isSome = true := by
        refine ⟨hgen, ?_⟩
        rw [hb]
        rfl
      unfold free
      rw [hg]
      simp only []
      rw [if_pos hcond]
      unfold Graph.totalChildren
      have := sum_lengths_set p.records h.index r { r with payload := none } hg
      rw [hb] at this
      simp at this
      simpa using this
    · rw [if_neg hgen] at hb
      exact absurd hb (by simp)

end Pool

namespace Graph

open Pool

theorem descP_free_mono {p : Pool Node} {h a k : Handle}
    (hd : (p.free h).DescP a k) : p.DescP a k := by
  refine DescP_mono_subset ?_ hd
  intro x hx
  obtain ⟨hxp, hxh⟩ := valid_free_implies p h x hx
  refine ⟨hxp, ?_⟩
  intro c hc
  unfold Pool.childrenP at hc ⊢
  rwa [borrow_free_ne p hxh] at hc

/-- The full specification of the iterative free loop of `remove_node`: with
a disjoint, unlinked stack over a forest pool and enough fuel, the loop frees
exactly the descendants-or-self of the stack entries, preserves the forest
invariant, slot count and generations, and lowers the live count by exactly
the total size of the freed subtrees. -/
theorem removeLoop_spec :
    ∀ fuel stack (p : Pool Node), p.forest → StackDisj p stack → NotChildOf p stack →
      stack.length + totalChildren p ≤ fuel →
      (∀ k, (∃ s ∈ stack, p.DescP s k) → (removeLoop fuel stack p).borrow k = none) ∧
      (∀ k, (∀ s ∈ stack, ¬ p.DescP s k) →
        (removeLoop fuel stack p).borrow k = p.borrow k) ∧
      (removeLoop fuel stack p).forest ∧
      (removeLoop fuel stack p).records.length = p.records.length ∧
      (∀ i : Nat, ((removeLoop fuel stack p).records[i]?).map PoolRecord.generation
        = (p.records[i]?).map PoolRecord.generation) ∧
      (removeLoop fuel stack p).aliveCount
        + (p.subtreeListP (p.getCapacity + 1) stack).length = p.aliveCount := by
  intro fuel
  induction fuel with
  | zero =>
    intro stack p hf _ _ hfuel
    have hnil : stack = [] := List.length_eq_zero.mp (by omega)
    subst hnil
    refine ⟨?_, ?_, hf, rfl, fun i => rfl, ?_⟩
    · rintro k ⟨s, hs, _⟩
      simp at hs
    · intro k _
      rfl
    · rw [subtreeListP_nil]
      simp only [List.length_nil, Nat.add_zero]
      rfl
  | succ fuel ih =>
    intro stack p hf hdisj hnc hfuel
    cases stack with
    | nil =>
      refine ⟨?_, ?_, hf, rfl, fun i => rfl, ?_⟩
      · rintro k ⟨s, hs, _⟩
        simp at hs
      · intro k _
        rfl
      · rw [subtreeListP_nil]
        simp only [List.length_nil, Nat.add_zero]
        rfl
    | cons h rest =>
      have hdhead : ∀ b ∈ rest, ∀ k, p.DescP h k → p.DescP b k → False :=
        fun b hb => List.rel_of_pairwise_cons hdisj hb
      have hdtail : StackDisj p rest := List.Pairwise.of_cons hdisj
      have hnctail : NotChildOf p rest := fun s hs => hnc s (List.mem_cons_of_mem h hs)
      cases hb : p.borrow h with
      | none =>
        have hinv : p.isValidHandle h = false := by
          unfold Pool.isValidHandle
          simp [hb]
        have hfr : p.free h = p := free_of_invalid p h hinv
        have hstep : removeLoop (fuel + 1) (h :: rest) p = removeLoop fuel rest p := by
          rw [removeLoop, hb, hfr]
        rw [hstep]
        obtain ⟨ih1, ih2, ih3, ih4, ih5, ih6⟩ :=
          ih rest p hf hdtail hnctail (by simp at hfuel ⊢; omega)
        refine ⟨?_, ?_, ih3, ih4, ih5, ?_⟩
        · rintro k ⟨s, hs, hd⟩
          rcases List.mem_cons.mp hs with heq | hmem
          · subst heq
            rw [hd.valid_src] at hinv
            exact absurd hinv (by simp)
          · exact ih1 k ⟨s, hmem, hd⟩
        · intro k hk
          exact ih2 k fun s hs => hk s (List.mem_cons_of_mem h hs)
        · rw [subtreeListP_cons]
          have hcap : p.getCapacity + 1 = p.getCapacity + 1 := rfl
          rw [show p.getCapacity + 1 = p.getCapacity + 1 from rfl] at hcap
          rw [subtreeListP_single_dead p p.getCapacity h hb]
          simpa using ih6
      | some n =>
        have hv : p.isValidHandle h = true := isValid_of_borrow hb
        have hch : p.childrenP h = n.base.children := childrenP_of_borrow hb
        -- the loop pops h, frees it, pushes its children
        have hstep : removeLoop (fuel + 1) (h :: rest) p
            = removeLoop fuel (n.base.children.reverse ++ rest) (p.free h) := by
          rw [removeLoop, hb]
        rw [hstep]
        set p' := p.free h with hp'
        set stack' := n.base.children.reverse ++ rest with hstack'
        -- forest is preserved by the free
        have hnch : ∀ x, p.isValidHandle x = true → h ∉ p.childrenP x :=
          fun x hx => hnc h (List.mem_cons_self h rest) x hx
        have hf' : p'.forest := forest_free hf h hnch
        -- transfers between p and p'
        have hagree : ∀ x, p.isValidHandle x = true → x ∉ [h] → p'.borrow x = p.borrow x := by
          intro x _ hx
          exact borrow_free_ne p (by simpa using hx)
        have htrans : ∀ {a k : Handle}, p.DescP a k → ¬ p.DescP a h → p'.DescP a k := by
          intro a k hd hnd
          refine DescP_of_agree [h] hagree hd ?_
          intro b hbm
          simp at hbm
          subst hbm
          exact hnd
        have hnotdesc_child : ∀ c ∈ p.childrenP h, ¬ p.DescP c h :=
          fun c hc => not_descP_child_self hf hv hc
        have hnotdesc_rest : ∀ s ∈ rest, ¬ p.DescP s h :=
          fun s hs hd => hdhead s hs h (DescP.refl h hv) hd
        -- stack conditions for the recursive call
        have hdisj' : StackDisj p' stack' := by
          have hdisjp : StackDisj p stack' := by
            rw [hstack']
            rw [StackDisj, List.pairwise_append]
            refine ⟨?_, hdtail, ?_⟩
            · rw [List.pairwise_reverse]
              have hnd : (p.childrenP h).Nodup := (forest_at hf hv).2.1
              rw [hch] at hnd
              refine hnd.imp_of_mem ?_
              intro a b ha hb' hne
              have ha' : a ∈ p.childrenP h := by rw [hch]; exact ha
              have hb'' : b ∈ p.childrenP h := by rw [hch]; exact hb'
              exact sibling_disjoint hf hv hb'' ha' (Ne.symm hne)
            · intro a ha b hb' k hka hkb
              have ha' : a ∈ p.childrenP h := by
                rw [hch]
                exact List.mem_reverse.mp ha
              exact hdhead b hb' k (DescP.child hv ha' hka) hkb
          refine hdisjp.imp ?_
          intro a b hr k hka hkb
          exact hr k (descP_free_mono hka) (descP_free_mono hkb)
        have hnc' : NotChildOf p' stack' := by
          intro s hs x hx hmem
          obtain ⟨hxp, hxh⟩ := valid_free_implies p h x hx
          have hmem' : s ∈ p.childrenP x := by
            unfold Pool.childrenP at hmem ⊢
            rwa [borrow_free_ne p hxh] at hmem
          rcases List.mem_append.mp hs with hsc | hsr
          · have hsc' : s ∈ p.childrenP h := by
              rw [hch]
              exact List.mem_reverse.mp hsc
            have hps : p.parentP s = h := ((forest_at hf hv).1 s hsc').2
            have hpx : p.parentP s = x := ((forest_at hf hxp).1 s hmem').2
            exact hxh (hpx.symm.trans hps)
          · exact hnctail s hsr x hxp hmem'
        have hfuel' : stack'.length + totalChildren p' ≤ fuel := by
          have htc : totalChildren p' + n.base.children.length = totalChildren p :=
            totalChildren_free p h n hb
          rw [hstack']
          simp only [List.length_append, List.length_reverse]
          simp only [List.length_cons] at hfuel
          omega
        obtain ⟨ih1, ih2, ih3, ih4, ih5, ih6⟩ := ih stack' p' hf' hdisj' hnc' hfuel'
        -- the subtree of the popped head in p decomposes as h plus the p' subtrees
        have hmemL : ∀ k, k ∈ p.subtreeListP (p.getCapacity + 1) (h :: rest)
            ↔ (k = h ∨ ∃ s ∈ stack', p'.DescP s k) := by
          intro k
          rw [mem_subtreeList_list_iff hf]
          constructor
          · rintro ⟨s, hs, hd⟩
            rcases List.mem_cons.mp hs with heq | hmem
            · subst heq
              rcases descP_cases hd with heq | ⟨c, hc, hcd⟩
              · exact Or.inl heq
              · right
                refine ⟨c, ?_, htrans hcd (hnotdesc_child c hc)⟩
                rw [hstack']
                refine List.mem_append_left _ ?_
                rw [List.mem_reverse]
                rw [hch] at hc
                exact hc
            · right
              exact ⟨s, List.mem_append_right _ hmem, htrans hd (hnotdesc_rest s hmem)⟩
          · rintro (heq | ⟨s, hs, hd⟩)
            · subst heq
              exact ⟨k, List.mem_cons_self k rest, DescP.refl k hv⟩
            · have hdp : p.DescP s k := descP_free_mono hd
              rcases List.mem_append.mp hs with hsc | hsr
              · have hsc' : s ∈ p.childrenP h := by
                  rw [hch]
                  exact List.mem_reverse.mp hsc
                exact ⟨h, List.mem_cons_self h rest, DescP.child hv hsc' hdp⟩
              · exact ⟨s, List.mem_cons_of_mem h hsr, hdp⟩
        have hcap' : p'.getCapacity = p.getCapacity := getCapacity_free p h
        have hlen : (p.subtreeListP (p.getCapacity + 1) (h :: rest)).length
            = (p'.subtreeListP (p'.getCapacity + 1) stack').length + 1 := by
          have hLnodup := subtreeListP_nodup hf (p.getCapacity + 1) (h :: rest) hdisj
          have htailnodup := subtreeListP_nodup hf' (p'.getCapacity + 1) stack' hdisj'
          have hhead : h ∉ p'.subtreeListP (p'.getCapacity + 1) stack' := by
            intro hmem
            obtain ⟨c, _, hd⟩ := descP_of_mem_subtreeListP p' _ _ h hmem
            have hvd := hd.valid_dst
            unfold Pool.isValidHandle at hvd
            rw [hp', borrow_free_self] at hvd
            simp at hvd
          have hMnodup : (h :: p'.subtreeListP (p'.getCapacity + 1) stack').Nodup :=
            List.Nodup.cons hhead htailnodup
          have hperm : List.Perm (p.subtreeListP (p.getCapacity + 1) (h :: rest))
              (h :: p'.subtreeListP (p'.getCapacity + 1) stack') := by
            rw [List.perm_ext_iff_of_nodup hLnodup hMnodup]
            intro k
            rw [hmemL k, List.mem_cons, mem_subtreeList_list_iff hf']
          have := hperm.length_eq
          simpa using this
        refine ⟨?_, ?_, ih3, ?_, ?_, ?_⟩
        · rintro k ⟨s, hs, hd⟩
          have hk : k = h ∨ ∃ s' ∈ stack', p'.DescP s' k := by
            rw [← hmemL k, mem_subtreeList_list_iff hf]
            exact ⟨s, hs, hd⟩
          rcases hk with heq | ⟨s', hs', hd'⟩
          · subst heq
            rw [ih2 k ?_]
            · exact borrow_free_self p k
            · intro s' hs' hd'
              have hvd := hd'.valid_dst
              unfold Pool.isValidHandle at hvd
              rw [hp', borrow_free_self] at hvd
              simp at hvd
          · exact ih1 k ⟨s', hs', hd'⟩
        · intro k hk
          have hkh : k ≠ h := by
            intro heq
            exact hk h (List.mem_cons_self h rest) (heq ▸ DescP.refl h hv)
          rw [ih2 k ?_]
          · exact borrow_free_ne p hkh
          · intro s' hs' hd'
            have hdp : p.DescP s' k := descP_free_mono hd'
            rcases List.mem_append.mp hs' with hsc | hsr
            · have hsc' : s' ∈ p.childrenP h := by
                rw [hch]
                exact List.mem_reverse.mp hsc
              exact hk h (List.mem_cons_self h rest) (DescP.child hv hsc' hdp)
            · exact hk s' (List.mem_cons_of_mem h hsr) hdp
        · rw [ih4]
          exact records_length_free p h
        · intro i
          rw [ih5 i]
          exact gens_free p h i
        · have halive : p'.aliveCount + 1 = p.aliveCount := aliveCount_free p h hv
          rw [hlen]
          omega

end Graph

namespace Pool

theorem none_not_valid (p : Pool α) (hok : p.ok) :
    p.isValidHandle Handle.NONE = false := by
  unfold isValidHandle borrow Handle.NONE
  cases hg : p.records[(0 : Nat)]? with
  | none => simp [hg]
  | some r =>
    have := hok.2.2 r (List.getElem?_mem hg)
    have hne : r.generation ≠ 0 := by omega
    simp [hg, hne]

theorem liveHandles_nodup (p : Pool α) : p.liveHandles.Nodup := by
  unfold liveHandles
  refine List.Nodup.filterMap ?_ (List.nodup_range _)
  intro a a' b hb hb'
  simp only [Option.mem_def] at hb hb'
  by_cases ha : (p.atIndex a).isSome = true
  · by_cases ha' : (p.atIndex a').isSome = true
    · simp only [ha, ha', if_true, Option.some.injEq] at hb hb'
      have h1 : b.index = a := by rw [← hb]; rfl
      have h2 : b.index = a' := by rw [← hb']; rfl
      omega
    · simp [ha'] at hb'
  · simp [ha] at hb

theorem aliveCount_le_capacity (p : Pool α) : p.aliveCount ≤ p.getCapacity :=
  List.length_filter_le _ _

theorem upDepth_tight (p : Pool Node) :
    ∀ fuel x d, p.upDepth fuel x = some d → p.upDepth (d + 1) x = some d := by
  intro fuel
  induction fuel with
  | zero => intro x d hd; simp [upDepth] at hd
  | succ fuel ih =>
    intro x d hd
    unfold upDepth at hd
    by_cases hv : p.isValidHandle x = true
    · rw [if_pos hv] at hd
      by_cases hp : p.isValidHandle (p.parentP x) = true
      · rw [if_pos hp] at hd
        cases hup : p.upDepth fuel (p.parentP x) with
        | none => rw [hup] at hd; simp at hd
        | some d' =>
          rw [hup] at hd
          simp at hd
          subst hd
          have htight := ih (p.parentP x) d' hup
          unfold upDepth
          rw [if_pos hv, if_pos hp, htight]
          rfl
      · rw [if_neg hp] at hd
        simp at hd
        subst hd
        unfold upDepth
        rw [if_pos hv, if_neg hp]
    · rw [if_neg hv] at hd
      simp at hd

theorem upDepth_step (p : Pool Node) {fuel : Nat} {x : Handle} {d : Nat}
    (hd : p.upDepth (fuel + 1) x = some d) (h1 : 1 ≤ d) :
    p.isValidHandle (p.parentP x) = true ∧ p.upDepth fuel (p.parentP x) = some (d - 1) := by
  unfold upDepth at hd
  by_cases hv : p.isValidHandle x = true
  · rw [if_pos hv] at hd
    by_cases hp : p.isValidHandle (p.parentP x) = true
    · rw [if_pos hp] at hd
      cases hup : p.upDepth fuel (p.parentP x) with
      | none => rw [hup] at hd; simp at hd
      | some d' =>
        rw [hup] at hd
        simp at hd
        refine ⟨hp, ?_⟩
        simp only [Option.some.injEq]
        omega
    · rw [if_neg hp] at hd
      simp at hd
      omega
  · rw [if_neg hv] at hd
    simp at hd

theorem upDepth_iter (p : Pool Node) {fuel : Nat} {x : Handle} {d : Nat}
    (hd : p.upDepth fuel x = some d) :
    ∀ j, j ≤ d → p.upDepth fuel (p.iterParentP j x) = some (d - j)
      ∧ p.isValidHandle (p.iterParentP j x) = true := by
  intro j
  induction j with
  | zero =>
    intro _
    exact ⟨by simpa using hd, upDepth_valid hd⟩
  | succ j ih =>
    intro hj
    obtain ⟨hdj, hvj⟩ := ih (by omega)
    have h1 : 1 ≤ d - j := by omega
    obtain ⟨fuel', rfl⟩ : ∃ f, fuel = f + 1 := by
      cases fuel with
      | zero => simp [upDepth] at hd
      | succ f => exact ⟨f, rfl⟩
    obtain ⟨hpv, hpd⟩ := upDepth_step p hdj h1
    rw [iterParentP_succ']
    constructor
    · have := upDepth_mono p fuel' (fuel' + 1) _ _ (by omega) hpd
      rw [this]
      simp only [Option.some.injEq]
      omega
    · exact hpv

theorem countP_range_records {α : Type} (l : List (PoolRecord α)) :
    ((List.range l.length).filter fun i => ((l[i]?).bind PoolRecord.payload).isSome).length
      = (l.filter fun r => r.payload.isSome).length := by
  induction l with
  | nil => simp
  | cons r rs ih =>
    simp only [List.length_cons, List.range_succ_eq_map, List.filter_cons,
      List.getElem?_cons_zero, Option.some_bind, List.filter_map, List.length_map,
      Function.comp_def, List.getElem?_cons_succ]
    by_cases hr : r.payload.isSome = true <;> simp [hr, ih]

theorem liveHandles_length (p : Pool α) : p.liveHandles.length = p.aliveCount := by
  unfold liveHandles aliveCount
  have hlen : ∀ (L : List Nat) (f : Nat → Handle),
      (L.filterMap fun i => if (p.atIndex i).isSome = true then some (f i) else none).length
        = (L.filter fun i => (p.atIndex i).isSome).length := by
    intro L f
    induction L with
    | nil => simp
    | cons a as ihh =>
      rw [List.filterMap_cons, List.filter_cons]
      by_cases ha : (p.atIndex a).isSome = true <;> simp [ha, ihh]
  rw [hlen]
  unfold atIndex
  exact countP_range_records p.records

/-- A terminating chain is bounded by the live count: its nodes are distinct
live handles. -/
theorem upDepth_le_alive (p : Pool Node) {fuel : Nat} {x : Handle} {d : Nat}
    (hd : p.upDepth fuel x = some d) : d + 1 ≤ p.aliveCount := by
  classical
  have hchain := upDepth_iter p hd
  let chain : List Handle := (List.range (d + 1)).map fun j => p.iterParentP j x
  have hnodup : chain.Nodup := by
    refine List.Nodup.map_on ?_ (List.nodup_range _)
    intro a ha b hb heq
    simp only [List.mem_range] at ha hb
    have hda := (hchain a (by omega)).1
    have hdb := (hchain b (by omega)).1
    rw [heq] at hda
    rw [hda] at hdb
    simp at hdb
    omega
  have hsub : chain ⊆ p.liveHandles := by
    intro y hy
    simp only [chain, List.mem_map, List.mem_range] at hy
    obtain ⟨j, hj, rfl⟩ := hy
    rw [mem_liveHandles]
    exact (hchain j (by omega)).2
  have hlen : chain.length ≤ p.liveHandles.length :=
    (List.subperm_of_subset hnodup hsub).length_le
  have hlive : p.liveHandles.length = p.aliveCount := liveHandles_length p
  simp only [chain, List.length_map, List.length_range] at hlen
  omega

end Pool

namespace Pool

theorem DescP_trans {p : Pool Node} {a b c : Handle}
    (h1 : p.DescP a b) (h2 : p.DescP b c) : p.DescP a c := by
  induction h1 with
  | refl _ _ => exact h2
  | child hv hc _ ih => exact DescP.child hv hc (ih h2)

/-- From an up chain and the membership clause (every live node with a live
parent sits in that parent's children list), every chain node is an ancestor
in the descendant relation. -/
theorem desc_of_chain {p : Pool Node}
    (hmem : ∀ y, p.isValidHandle y = true → p.isValidHandle (p.parentP y) = true →
      y ∈ p.childrenP (p.parentP y)) {fuel : Nat} {x : Handle} {d : Nat}
    (hd : p.upDepth fuel x = some d) :
    ∀ j, j ≤ d → p.DescP (p.iterParentP j x) x := by
  intro j
  induction j with
  | zero => intro _; exact DescP.refl x (upDepth_valid hd)
  | succ j ih =>
    intro hj
    obtain ⟨hdj, hvj⟩ := upDepth_iter p hd j (by omega)
    obtain ⟨fuel', rfl⟩ : ∃ f, fuel = f + 1 := by
      cases fuel with
      | zero => simp [upDepth] at hd
      | succ f => exact ⟨f, rfl⟩
    obtain ⟨hpv, _⟩ := upDepth_step p hdj (by omega)
    rw [iterParentP_succ']
    refine DescP_trans (DescP.child hpv (hmem _ hvj hpv) (DescP.refl _ hvj)) (ih (by omega))

/-- Any terminating chain terminates within the capacity-sized fuel. -/
theorem upDepth_cap_of_exists (p : Pool Node) {x : Handle}
    (hex : ∃ fuel d, p.upDepth fuel x = some d) :
    (p.upDepth (p.getCapacity + 1) x).isSome = true := by
  obtain ⟨fuel, d, hd⟩ := hex
  have htight := upDepth_tight p fuel x d hd
  have hle := upDepth_le_alive p hd
  have hcap := aliveCount_le_capacity p
  have := upDepth_mono p (d + 1) (p.getCapacity + 1) x d (by omega) htight
  rw [this]
  rfl

/-- Chains are stable under changing pools as long as validity agrees
everywhere and parents agree off a bad handle that the chain avoids. -/
theorem upDepth_congr_avoid {p q : Pool Node} (bad : Handle)
    (hval : ∀ x, q.isValidHandle x = p.isValidHandle x)
    (hpar : ∀ x, x ≠ bad → q.parentP x = p.parentP x) :
    ∀ fuel x d, p.upDepth fuel x = some d →
      (∀ j, j ≤ d → p.iterParentP j x ≠ bad) →
      q.upDepth fuel x = some d := by
  intro fuel
  induction fuel with
  | zero => intro x d hd _; simp [upDepth] at hd
  | succ fuel ih =>
    intro x d hd havoid
    have hv : p.isValidHandle x = true := upDepth_valid hd
    have hxbad : x ≠ bad := by
      have := havoid 0 (by omega)
      simpa [iterParentP] using this
    have hparx := hpar x hxbad
    unfold upDepth at hd ⊢
    rw [if_pos hv] at hd
    rw [if_pos (by rw [hval]; exact hv), hparx, hval]
    by_cases hp : p.isValidHandle (p.parentP x) = true
    · rw [if_pos hp] at hd ⊢
      cases hup : p.upDepth fuel (p.parentP x) with
      | none => rw [hup] at hd; simp at hd
      | some d' =>
        rw [hup] at hd
        simp at hd
        have hrec := ih (p.parentP x) d' hup ?_
        · rw [hrec]
          simp [hd]
        · intro j hj
          have := havoid (j + 1) (by omega)
          rwa [show p.iterParentP (j + 1) x = p.iterParentP j (p.parentP x) from rfl] at this
    · rw [if_neg hp] at hd ⊢
      exact hd

/-- Chains are stable under pointwise equal validity and parents. -/
theorem upDepth_congr {p q : Pool Node}
    (hval : ∀ x, q.isValidHandle x = p.isValidHandle x)
    (hpar : ∀ x, q.parentP x = p.parentP x) :
    ∀ fuel x, q.upDepth fuel x = p.upDepth fuel x := by
  intro fuel
  induction fuel with
  | zero => intro x; rfl
  | succ fuel ih =>
    intro x
    unfold upDepth
    rw [hval, hpar, hval, ih]

end Pool

namespace Pool

theorem borrow_mapPayloads (p : Pool α) (f : α → α) (h : Handle) :
    (p.mapPayloads f).borrow h = (p.borrow h).map f := by
  unfold mapPayloads borrow
  rw [List.getElem?_map]
  cases hg : p.records[h.index]? with
  | none => simp
  | some r =>
    by_cases hgen : r.generation = h.generation <;> simp [hgen]

theorem getCapacity_mapPayloads (p : Pool α) (f : α → α) :
    (p.mapPayloads f).getCapacity = p.getCapacity := by
  unfold mapPayloads getCapacity
  simp

theorem valid_mapPayloads (p : Pool α) (f : α → α) (h : Handle) :
    (p.mapPayloads f).isValidHandle h = p.isValidHandle h := by
  unfold isValidHandle
  rw [borrow_mapPayloads]
  cases p.borrow h <;> rfl

theorem mapPayloads_ok (p : Pool α) (f : α → α) (hok : p.ok) : (p.mapPayloads f).ok := by
  obtain ⟨hfree, hnodup, hgens⟩ := hok
  refine ⟨?_, hnodup, ?_⟩
  · intro i hmem
    obtain ⟨hlt, hdead⟩ := hfree i hmem
    refine ⟨by simpa [mapPayloads] using hlt, ?_⟩
    unfold atIndex at hdead ⊢
    unfold mapPayloads
    simp only [List.getElem?_map]
    cases hg : p.records[i]? with
    | none => simp
    | some r =>
      rw [hg] at hdead
      simp at hdead
      simp [hdead]
  · intro r hr
    unfold mapPayloads at hr
    simp at hr
    obtain ⟨r', hr', rfl⟩ := hr
    exact hgens r' hr'

end Pool

namespace Graph

open Pool

theorem parentOf_eq (g : Graph) (h : Handle) : g.parentOf h = g.pool.parentP h := by
  unfold parentOf baseOf Pool.parentP
  cases g.pool.borrow h <;> rfl

theorem childrenOf_eq (g : Graph) (h : Handle) : g.childrenOf h = g.pool.childrenP h := by
  unfold childrenOf baseOf Pool.childrenP
  cases g.pool.borrow h <;> rfl

/-- The descendant-or-self list of a handle, used to state subtree claims and
the no-cycle precondition of `link_nodes`. -/
def subtreeOf (g : Graph) (h : Handle) : List Handle :=
  g.pool.subtreeListP (g.pool.getCapacity + 1) [h]

/-- Graph well-formedness: the pool is a forest, the root is live and
parentless, and every other live node sits exactly once in its live parent's
children list. -/
def wf (g : Graph) : Prop :=
  g.pool.forest ∧ g.isValid g.root = true ∧ g.parentOf g.root = Handle.NONE ∧
  ∀ h ∈ g.pool.liveHandles, h ≠ g.root →
    g.isValid (g.parentOf h) = true ∧ (g.childrenOf (g.parentOf h)).count h = 1

instance (g : Graph) : Decidable g.wf := by
  unfold wf; infer_instance

theorem wf_at {g : Graph} (hwf : g.wf) {h : Handle} (hv : g.isValid h = true)
    (hne : h ≠ g.root) :
    g.isValid (g.parentOf h) = true ∧ (g.childrenOf (g.parentOf h)).count h = 1 :=
  hwf.2.2.2 h ((mem_liveHandles g.pool h).mpr hv) hne

theorem wf_child_mem {g : Graph} (hwf : g.wf) {h : Handle} (hv : g.isValid h = true)
    (hne : h ≠ g.root) : h ∈ g.childrenOf (g.parentOf h) := by
  have hcount := (wf_at hwf hv hne).2
  have : 0 < (g.childrenOf (g.parentOf h)).count h := by omega
  exact List.count_pos_iff.mp this

/-- The membership hypothesis of `desc_of_chain`, derived from graph
well-formedness. -/
theorem wf_mem_clause {g : Graph} (hwf : g.wf) :
    ∀ y, g.pool.isValidHandle y = true → g.pool.isValidHandle (g.pool.parentP y) = true →
      y ∈ g.pool.childrenP (g.pool.parentP y) := by
  intro y hy hpy
  by_cases hyr : y = g.root
  · exfalso
    subst hyr
    rw [← parentOf_eq, hwf.2.2.1] at hpy
    rw [none_not_valid g.pool hwf.1.1] at hpy
    simp at hpy
  · have := wf_child_mem hwf hy hyr
    rwa [parentOf_eq, childrenOf_eq] at this

/-- Transfer of well-formedness along pointwise-equal hierarchy state. -/
theorem wf_of_pointwise {g g' : Graph} (hroot : g'.root = g.root)
    (hok : g'.pool.ok) (hcap : g'.pool.getCapacity = g.pool.getCapacity)
    (hval : ∀ x, g'.pool.isValidHandle x = g.pool.isValidHandle x)
    (hpar : ∀ x, g'.pool.parentP x = g.pool.parentP x)
    (hch : ∀ x, g'.pool.childrenP x = g.pool.childrenP x)
    (hwf : g.wf) : g'.wf := by
  have hvalG : ∀ x, g'.isValid x = g.isValid x := hval
  refine ⟨⟨hok, ?_⟩, ?_, ?_, ?_⟩
  · intro h hh
    rw [mem_liveHandles, hval] at hh
    obtain ⟨hkids, hnd, hdep⟩ := forest_at hwf.1 hh
    refine ⟨?_, ?_, ?_⟩
    · intro c hc
      rw [hch] at hc
      obtain ⟨hcv, hcp⟩ := hkids c hc
      exact ⟨by rw [hval]; exact hcv, by rw [hpar]; exact hcp⟩
    · rw [hch]
      exact hnd
    · rw [hcap, upDepth_congr hval hpar]
      exact hdep
  · rw [hvalG, hroot]
    exact hwf.2.1
  · rw [parentOf_eq, hpar, hroot, ← parentOf_eq]
    exact hwf.2.2.1
  · intro h hh hne
    rw [mem_liveHandles, hval, ← mem_liveHandles] at hh
    rw [hroot] at hne
    obtain ⟨hpv, hcount⟩ := hwf.2.2.2 h hh hne
    constructor
    · rw [hvalG, parentOf_eq, hpar, ← parentOf_eq]
      exact hpv
    · rw [parentOf_eq, hpar, childrenOf_eq, hch, ← childrenOf_eq, ← parentOf_eq]
      exact hcount

/-- Well-formedness survives node updates that do not change the hierarchy
fields. -/
theorem wf_updateNode {g : Graph} (hwf : g.wf) (h : Handle) (f : Node → Node)
    (hpar : ∀ n, (f n).base.parent = n.base.parent)
    (hch : ∀ n, (f n).base.children = n.base.children) :
    (g.updateNode h f).wf := by
  refine wf_of_pointwise ?_ ?_ ?_ ?_ ?_ ?_ hwf
  · rfl
  · exact update_ok g.pool h f hwf.1.1
  · exact records_length_update g.pool h f
  · intro x
    exact valid_update_iff g.pool h x f
  · intro x
    show (g.pool.update h f).parentP x = g.pool.parentP x
    by_cases hx : x = h
    · subst hx
      unfold Pool.parentP
      rw [borrow_update_self]
      cases g.pool.borrow x <;> simp [hpar]
    · unfold Pool.parentP
      rw [borrow_update_ne g.pool f hx]
  · intro x
    show (g.pool.update h f).childrenP x = g.pool.childrenP x
    by_cases hx : x = h
    · subst hx
      unfold Pool.childrenP
      rw [borrow_update_self]
      cases g.pool.borrow x <;> simp [hch]
    · unfold Pool.childrenP
      rw [borrow_update_ne g.pool f hx]

end Graph

theorem List.set_getElem_self {α : Type} {l : List α} {i : Nat} {a : α}
    (h : l[i]? = some a) : l.set i a = l := by
  induction l generalizing i with
  | nil => simp at h
  | cons x xs ih =>
    cases i with
    | zero =>
      have : x = a := by simpa using h
      subst this
      rfl
    | succ n =>
      have h' : xs[n]? = some a := by simpa using h
      show x :: xs.set n a = x :: xs
      rw [ih h']

namespace Pool

theorem descP_parent {p : Pool Node} (hf : p.forest) {a k : Handle}
    (hd : p.DescP a k) : k ≠ a →
      p.isValidHandle (p.parentP k) = true ∧ p.DescP a (p.parentP k) := by
  induction hd with
  | refl x _ => intro h; exact absurd rfl h
  | child hv hc hsub ih =>
    rename_i h c k'
    intro hne
    by_cases hkc : k' = c
    · subst hkc
      have hp := ((forest_at hf hv).1 k' hc).2
      rw [hp]
      exact ⟨hv, DescP.refl h hv⟩
    · obtain ⟨hpv, hpd⟩ := ih hkc
      exact ⟨hpv, DescP.child hv hc hpd⟩

theorem descP_depth_strict {p : Pool Node} (hf : p.forest) {x h : Handle}
    (hd : p.DescP x h) (hne : h ≠ x) : p.depthOf x < p.depthOf h := by
  obtain ⟨hle, hiter⟩ := descP_depth_iter hf hd
  rcases Nat.lt_or_ge (p.depthOf x) (p.depthOf h) with hlt | hge
  · exact hlt
  · exfalso
    have heq : p.depthOf h = p.depthOf x := by omega
    rw [heq] at hiter
    simp [iterParentP] at hiter
    exact hne hiter

theorem depthOf_parent {p : Pool Node} (hf : p.forest) {h : Handle}
    (hv : p.isValidHandle h = true) (h1 : 1 ≤ p.depthOf h) :
    p.isValidHandle (p.parentP h) = true
      ∧ p.depthOf (p.parentP h) = p.depthOf h - 1 := by
  have hd := upDepth_depthOf hf hv
  obtain ⟨hpv, hpd⟩ := upDepth_step p hd h1
  refine ⟨hpv, ?_⟩
  have := upDepth_mono p p.getCapacity (p.getCapacity + 1) _ _ (by omega) hpd
  rw [upDepth_depthOf hf hpv] at this
  simpa using this

/-- Rebasing one node's parent keeps every live chain terminating, provided
the chain of the rebased node itself terminates in the new pool. -/
theorem forest_rebase {p q : Pool Node} (hf : p.forest)
    (hmem : ∀ y, p.isValidHandle y = true → p.isValidHandle (p.parentP y) = true →
      y ∈ p.childrenP (p.parentP y))
    (x : Handle)
    (hval : ∀ y, q.isValidHandle y = p.isValidHandle y)
    (hpar : ∀ y, y ≠ x → q.parentP y = p.parentP y)
    (hx : q.isValidHandle x = true → ∃ fuel, (q.upDepth fuel x).isSome = true) :
    ∀ h, q.isValidHandle h = true → (q.upDepth (q.getCapacity + 1) h).isSome = true := by
  classical
  intro h hvh
  have hvp : p.isValidHandle h = true := by rw [← hval]; exact hvh
  by_cases hdesc : p.DescP x h
  · -- below the rebased node: the new chain climbs to x, then follows x's
    -- new terminating chain
    suffices hex : ∃ fuel, (q.upDepth fuel h).isSome = true by
      obtain ⟨fuel, hfu⟩ := hex
      cases hu : q.upDepth fuel h with
      | none => rw [hu] at hfu; simp at hfu
      | some d => exact upDepth_cap_of_exists q ⟨fuel, d, hu⟩
    have hxvp : p.isValidHandle x = true := hdesc.valid_src
    have hxvq : q.isValidHandle x = true := by rw [hval]; exact hxvp
    clear hvh hvp
    generalize hm : p.depthOf h = m at *
    induction m using Nat.strong_induction_on generalizing h with
    | _ m ih =>
      by_cases hhx : h = x
      · subst hhx
        exact hx hxvq
      · obtain ⟨hppv, hppd⟩ := descP_parent hf hdesc hhx
        have hstrict : p.depthOf x < p.depthOf h := descP_depth_strict hf hdesc hhx
        have h1 : 1 ≤ p.depthOf h := by omega
        obtain ⟨_, hdp⟩ := depthOf_parent hf hdesc.valid_dst h1
        obtain ⟨fuel, hfu⟩ := ih (p.depthOf h - 1) (by omega) (p.parentP h) hppd hdp
        refine ⟨fuel + 1, ?_⟩
        unfold upDepth
        rw [if_pos (by rw [hval]; exact hdesc.valid_dst)]
        rw [hpar h hhx]
        rw [if_pos (by rw [hval]; exact hppv)]
        cases hu : q.upDepth fuel (p.parentP h) with
        | none => rw [hu] at hfu; simp at hfu
        | some d => simp
  · -- off the rebased subtree: the chain is untouched
    have hchain := upDepth_depthOf hf hvp
    have havoid : ∀ j, j ≤ p.depthOf h → p.iterParentP j h ≠ x := by
      intro j hj heq
      have := desc_of_chain hmem hchain j hj
      rw [heq] at this
      exact hdesc this
    have := upDepth_congr_avoid x hval hpar (p.getCapacity + 1) h (p.depthOf h)
      hchain havoid
    have hconv : (q.upDepth (p.getCapacity + 1) h).isSome = true := by
      rw [this]
      rfl
    exact upDepth_cap_of_exists q (by
      cases hu : q.upDepth (p.getCapacity + 1) h with
      | none => rw [hu] at hconv; simp at hconv
      | some d => exact ⟨p.getCapacity + 1, d, hu⟩)

end Pool

namespace Graph

open Pool

@[simp] theorem updateNode_pool (g : Graph) (h : Handle) (f : Node → Node) :
    (g.updateNode h f).pool = g.pool.update h f := rfl

@[simp] theorem updateNode_root (g : Graph) (h : Handle) (f : Node → Node) :
    (g.updateNode h f).root = g.root := rfl

theorem isValid_def (g : Graph) (h : Handle) :
    g.isValid h = g.pool.isValidHandle h := rfl

/-- The old parent of a well-formed non-root node is live and distinct from
it and from `NONE`. -/
theorem parent_facts {g : Graph} (hwf : g.wf) {c : Handle} (hv : g.isValid c = true)
    (hne : c ≠ g.root) :
    g.isValid (g.parentOf c) = true ∧ g.parentOf c ≠ c ∧ g.parentOf c ≠ Handle.NONE ∧
      c ∈ g.pool.childrenP (g.parentOf c) := by
  obtain ⟨hpv, _⟩ := wf_at hwf hv hne
  have hmem : c ∈ g.pool.childrenP (g.parentOf c) := by
    have := wf_child_mem hwf hv hne
    rwa [childrenOf_eq] at this
  refine ⟨hpv, ?_, ?_, hmem⟩
  · intro heq
    rw [heq] at hmem hpv
    rw [isValid_def] at hpv
    have := depthOf_child hwf.1 hpv hmem
    omega
  · intro heq
    rw [heq] at hpv
    rw [isValid_def, none_not_valid g.pool hwf.1.1] at hpv
    simp at hpv

/-- Full characterisation of `unlink_internal` on a live non-root node of a
well-formed graph. -/
theorem unlink_spec {g : Graph} (hwf : g.wf) {c : Handle} (hv : g.isValid c = true)
    (hne : c ≠ g.root) :
    (g.unlinkInternal c).root = g.root ∧
    (g.unlinkInternal c).pool.ok ∧
    (g.unlinkInternal c).pool.getCapacity = g.pool.getCapacity ∧
    (∀ x, (g.unlinkInternal c).pool.isValidHandle x = g.pool.isValidHandle x) ∧
    (g.unlinkInternal c).pool.parentP c = Handle.NONE ∧
    (∀ x, x ≠ c → (g.unlinkInternal c).pool.parentP x = g.pool.parentP x) ∧
    (g.unlinkInternal c).pool.childrenP (g.parentOf c)
      = (g.pool.childrenP (g.parentOf c)).erase c ∧
    (∀ x, x ≠ g.parentOf c → (g.unlinkInternal c).pool.childrenP x = g.pool.childrenP x) ∧
    (∀ x, x ≠ c → x ≠ g.parentOf c →
      (g.unlinkInternal c).pool.borrow x = g.pool.borrow x) := by
  obtain ⟨hpv, hpc, hpnone, hmem⟩ := parent_facts hwf hv hne
  obtain ⟨n, hb⟩ : ∃ n, g.pool.borrow c = some n := by
    unfold isValid Pool.isValidHandle at hv
    cases hbb : g.pool.borrow c with
    | none => rw [hbb] at hv; simp at hv
    | some n => exact ⟨n, rfl⟩
  have hnp : n.base.parent = g.parentOf c := by
    rw [parentOf_eq, parentP_of_borrow hb]
  have hsome : (g.parentOf c).isSomeH = true := by
    unfold Handle.isSomeH
    simpa using hpnone
  have hb1 : (g.updateNode c (Node.mapBase fun b => { b with parent := Handle.NONE
      })).pool.borrow (g.parentOf c) = g.pool.borrow (g.parentOf c) :=
    borrow_update_ne g.pool _ hpc
  obtain ⟨np, hbp⟩ : ∃ np, g.pool.borrow (g.parentOf c) = some np := by
    unfold isValid Pool.isValidHandle at hpv
    cases hbb : g.pool.borrow (g.parentOf c) with
    | none => rw [hbb] at hpv; simp at hpv
    | some np => exact ⟨np, rfl⟩
  have hb1' : (g.pool.update c (Node.mapBase fun b => { b with parent := Handle.NONE
      })).borrow (g.parentOf c) = g.pool.borrow (g.parentOf c) := hb1
  have hun : g.unlinkInternal c
      = (g.updateNode c (Node.mapBase fun b => { b with parent := Handle.NONE
        })).updateNode (g.parentOf c)
        (Node.mapBase fun b => { b with children := b.children.erase c }) := by
    unfold unlinkInternal
    rw [hb]
    simp only [hnp, hsome, if_true]
    rw [hb1, hbp]
  rw [hun]
  simp only [updateNode_pool, updateNode_root]
  refine ⟨trivial, ?_, ?_, ?_, ?_, ?_, ?_, ?_, ?_⟩
  · exact update_ok _ _ _ (update_ok _ _ _ hwf.1.1)
  · show ((g.pool.update _ _).update _ _).records.length = g.pool.records.length
    rw [records_length_update, records_length_update]
  · intro x
    rw [valid_update_iff, valid_update_iff]
  · unfold Pool.parentP
    rw [borrow_update_ne _ _ hpc.symm, borrow_update_self, hb]
    simp
  · intro x hx
    unfold Pool.parentP
    by_cases hxp : x = g.parentOf c
    · subst hxp
      rw [borrow_update_self, hb1', hbp]
      simp
    · rw [borrow_update_ne _ _ hxp, borrow_update_ne _ _ hx]
  · unfold Pool.childrenP
    rw [borrow_update_self, hb1', hbp]
    simp
  · intro x hxp
    unfold Pool.childrenP
    rw [borrow_update_ne _ _ hxp]
    by_cases hxc : x = c
    · subst hxc
      rw [borrow_update_self, hb]
      simp
    · rw [borrow_update_ne _ _ hxc]
  · intro x hxc hxp
    rw [borrow_update_ne _ _ hxp, borrow_update_ne _ _ hxc]

/-- Well-formedness with one detached live node: all of `wf` except that the
given node is parentless, listed in no children list, and exempt from the
membership clause. -/
def wfDetached (g : Graph) (x : Handle) : Prop :=
  g.pool.forest ∧ g.isValid g.root = true ∧ g.parentOf g.root = Handle.NONE ∧
  g.isValid x = true ∧ x ≠ g.root ∧ g.parentOf x = Handle.NONE ∧
  (∀ y, g.isValid y = true → x ∉ g.pool.childrenP y) ∧
  ∀ h ∈ g.pool.liveHandles, h ≠ g.root → h ≠ x →
    g.isValid (g.parentOf h) = true ∧ (g.childrenOf (g.parentOf h)).count h = 1

theorem unlink_wfDetached {g : Graph} (hwf : g.wf) {c : Handle}
    (hv : g.isValid c = true) (hne : c ≠ g.root) :
    (g.unlinkInternal c).wfDetached c := by
  obtain ⟨hpv, hpc, hpnone, hmem⟩ := parent_facts hwf hv hne
  obtain ⟨hroot, hok, hcap, hval, hparc, hparx, hchp, hchx, hborrow⟩ :=
    unlink_spec hwf hv hne
  have hcount1 := (wf_at hwf hv hne).2
  rw [childrenOf_eq] at hcount1
  have hcnotin : c ∉ (g.pool.childrenP (g.parentOf c)).erase c := by
    intro hmm
    have h1 : 0 < ((g.pool.childrenP (g.parentOf c)).erase c).count c :=
      List.count_pos_iff.mpr hmm
    have h2 : ((g.pool.childrenP (g.parentOf c)).erase c).count c
        = (g.pool.childrenP (g.parentOf c)).count c - 1 := List.count_erase_self c _
    omega
  have hentry_ne_c : ∀ y, g.pool.isValidHandle y = true → y ≠ g.parentOf c →
      c ∉ g.pool.childrenP y := by
    intro y hy hyp hcmem
    have h1 : g.pool.parentP c = y := ((forest_at hwf.1 hy).1 c hcmem).2
    rw [parentOf_eq] at hyp
    exact hyp h1.symm
  have hchar : ∀ y, (g.unlinkInternal c).pool.isValidHandle y = true →
      c ∉ (g.unlinkInternal c).pool.childrenP y := by
    intro y hy hcm
    rw [hval] at hy
    by_cases hyp : y = g.parentOf c
    · subst hyp
      rw [hchp] at hcm
      exact hcnotin hcm
    · rw [hchx y hyp] at hcm
      exact hentry_ne_c y hy hyp hcm
  refine ⟨⟨hok, ?_⟩, ?_, ?_, ?_, ?_, ?_, hchar, ?_⟩
  · -- forest clauses
    intro h hh
    rw [mem_liveHandles, hval] at hh
    obtain ⟨hkids, hnd, hdep⟩ := forest_at hwf.1 hh
    refine ⟨?_, ?_, ?_⟩
    · intro e he
      by_cases hhp : h = g.parentOf c
      · subst hhp
        rw [hchp] at he
        have he' : e ∈ g.pool.childrenP (g.parentOf c) := List.erase_subset _ _ he
        obtain ⟨hev, hep⟩ := hkids e he'
        have henc : e ≠ c := fun heq => hcnotin (heq ▸ he)
        exact ⟨by rw [hval]; exact hev, by rw [hparx e henc]; exact hep⟩
      · rw [hchx h hhp] at he
        obtain ⟨hev, hep⟩ := hkids e he
        have henc : e ≠ c := fun heq => hentry_ne_c h hh hhp (heq ▸ he)
        exact ⟨by rw [hval]; exact hev, by rw [hparx e henc]; exact hep⟩
    · by_cases hhp : h = g.parentOf c
      · subst hhp
        rw [hchp]
        exact hnd.erase c
      · rw [hchx h hhp]
        exact hnd
    · refine forest_rebase hwf.1 (wf_mem_clause hwf) c hval hparx ?_ h (by rw [hval]; exact hh)
      intro hcvq
      refine ⟨1, ?_⟩
      unfold Pool.upDepth
      rw [if_pos hcvq, hparc]
      rw [hval, none_not_valid g.pool hwf.1.1]
      simp
  · rw [isValid_def, hval, hroot]
    exact hwf.2.1
  · rw [parentOf_eq, hroot, hparx g.root (Ne.symm hne), ← parentOf_eq]
    exact hwf.2.2.1
  · rw [isValid_def, hval]
    exact hv
  · rw [hroot]
    exact hne
  · rw [parentOf_eq]
    exact hparc
  · intro h hh hhr hhc
    rw [mem_liveHandles, hval, ← mem_liveHandles] at hh
    rw [hroot] at hhr
    obtain ⟨hhpv, hhcount⟩ := hwf.2.2.2 h hh hhr
    have hparh : (g.unlinkInternal c).pool.parentP h = g.pool.parentP h := hparx h hhc
    constructor
    · rw [isValid_def, hval, parentOf_eq, hparh, ← parentOf_eq]
      exact hhpv
    · rw [parentOf_eq, hparh, ← parentOf_eq, childrenOf_eq]
      by_cases hhp : g.parentOf h = g.parentOf c
      · rw [hhp, hchp]
        rw [List.count_erase_of_ne hhc]
        rw [← childrenOf_eq, ← hhp]
        exact hhcount
      · rw [hchx _ hhp, ← childrenOf_eq]
        exact hhcount

end Graph

namespace Graph

open Pool

theorem wfDetached_mem_clause {g : Graph} {x : Handle} (hd : g.wfDetached x) :
    ∀ y, g.pool.isValidHandle y = true → g.pool.isValidHandle (g.pool.parentP y) = true →
      y ∈ g.pool.childrenP (g.pool.parentP y) := by
  intro y hy hpy
  by_cases hyr : y = g.root
  · exfalso
    subst hyr
    rw [← parentOf_eq, hd.2.2.1, none_not_valid g.pool hd.1.1] at hpy
    simp at hpy
  · by_cases hyx : y = x
    · exfalso
      subst hyx
      rw [← parentOf_eq, hd.2.2.2.2.2.1, none_not_valid g.pool hd.1.1] at hpy
      simp at hpy
    · have hcount := (hd.2.2.2.2.2.2.2 y ((mem_liveHandles g.pool y).mpr hy) hyr hyx).2
      rw [childrenOf_eq, parentOf_eq] at hcount
      have : 0 < (g.pool.childrenP (g.pool.parentP y)).count y := by omega
      exact List.count_pos_iff.mp this

/-- Attaching a detached live node under a live target outside its own
subtree restores full well-formedness. -/
theorem wf_attach {g : Graph} {x tgt : Handle} (hd : g.wfDetached x)
    (htv : g.isValid tgt = true) (hnd : ¬ g.pool.DescP x tgt) :
    ((g.updateNode x (Node.mapBase fun b => { b with parent := tgt })).updateNode tgt
      (Node.mapBase fun b => { b with children := b.children ++ [x] })).wf := by
  classical
  obtain ⟨hfor, hrv, hrp, hxv, hxr, hxp, hnotin, hclause⟩ := hd
  have htx : tgt ≠ x := by
    intro heq
    exact hnd (heq ▸ DescP.refl x hxv)
  obtain ⟨nx, hbx⟩ : ∃ nx, g.pool.borrow x = some nx := by
    rw [isValid_def, Pool.isValidHandle] at hxv
    cases hbb : g.pool.borrow x with
    | none => rw [hbb] at hxv; simp at hxv
    | some nx => exact ⟨nx, rfl⟩
  obtain ⟨nt, hbt⟩ : ∃ nt, g.pool.borrow tgt = some nt := by
    rw [isValid_def, Pool.isValidHandle] at htv
    cases hbb : g.pool.borrow tgt with
    | none => rw [hbb] at htv; simp at htv
    | some nt => exact ⟨nt, rfl⟩
  set q : Pool Node := (g.pool.update x (Node.mapBase fun b => { b with parent := tgt
    })).update tgt (Node.mapBase fun b => { b with children := b.children ++ [x] })
    with hq
  have hval : ∀ y, q.isValidHandle y = g.pool.isValidHandle y := by
    intro y
    rw [hq, valid_update_iff, valid_update_iff]
  have hcap : q.getCapacity = g.pool.getCapacity := by
    rw [hq]
    show ((g.pool.update _ _).update _ _).records.length = g.pool.records.length
    rw [records_length_update, records_length_update]
  have hok : q.ok := update_ok _ _ _ (update_ok _ _ _ hfor.1)
  have hparx : q.parentP x = tgt := by
    rw [hq]
    unfold Pool.parentP
    rw [borrow_update_ne _ _ htx.symm, borrow_update_self, hbx]
    simp
  have hpary : ∀ y, y ≠ x → q.parentP y = g.pool.parentP y := by
    intro y hy
    rw [hq]
    unfold Pool.parentP
    by_cases hyt : y = tgt
    · subst hyt
      rw [borrow_update_self, borrow_update_ne _ _ hy, hbt]
      simp
    · rw [borrow_update_ne _ _ hyt, borrow_update_ne _ _ hy]
  have hcht : q.childrenP tgt = g.pool.childrenP tgt ++ [x] := by
    rw [hq]
    unfold Pool.childrenP
    rw [borrow_update_self, borrow_update_ne _ _ htx, hbt]
    simp
  have hchy : ∀ y, y ≠ tgt → q.childrenP y = g.pool.childrenP y := by
    intro y hy
    rw [hq]
    unfold Pool.childrenP
    by_cases hyx : y = x
    · subst hyx
      rw [borrow_update_ne _ _ hy, borrow_update_self, hbx]
      simp
    · rw [borrow_update_ne _ _ hy, borrow_update_ne _ _ hyx]
  have hxnotint : x ∉ g.pool.childrenP tgt := hnotin tgt htv
  have hgoal : ∀ gq : Graph, gq.pool = q → gq.root = g.root → gq.wf := by
    intro gq hgq hgroot
    have hupdep : ∀ h, q.isValidHandle h = true →
        (q.upDepth (q.getCapacity + 1) h).isSome = true := by
      refine forest_rebase hfor (wfDetached_mem_clause
        ⟨hfor, hrv, hrp, hxv, hxr, hxp, hnotin, hclause⟩) x hval hpary ?_
      intro hxvq
      -- the rebased chain of x climbs to the target, whose own chain avoids
      -- the subtree of x and is untouched
      have hdept := upDepth_depthOf hfor (htv : g.pool.isValidHandle tgt = true)
      have havoid : ∀ j, j ≤ g.pool.depthOf tgt → g.pool.iterParentP j tgt ≠ x := by
        intro j hj heq
        have := desc_of_chain (wfDetached_mem_clause
          ⟨hfor, hrv, hrp, hxv, hxr, hxp, hnotin, hclause⟩) hdept j hj
        rw [heq] at this
        exact hnd this
      have htgtq := upDepth_congr_avoid x hval hpary (g.pool.getCapacity + 1) tgt
        (g.pool.depthOf tgt) hdept havoid
      refine ⟨g.pool.getCapacity + 2, ?_⟩
      unfold Pool.upDepth
      rw [if_pos hxvq, hparx, if_pos (by rw [hval]; exact htv), htgtq]
      rfl
    refine ⟨⟨by rw [hgq]; exact hok, ?_⟩, ?_, ?_, ?_⟩
    · intro h hh
      rw [hgq, mem_liveHandles, hval] at hh
      refine ⟨?_, ?_, ?_⟩
      · intro e he
        rw [hgq] at he
        by_cases hht : h = tgt
        · subst hht
          rw [hcht] at he
          rcases List.mem_append.mp he with hmm | hmm
          · obtain ⟨hev, hep⟩ := (forest_at hfor hh).1 e hmm
            have henx : e ≠ x := fun heq => hxnotint (heq ▸ hmm)
            rw [hgq]
            exact ⟨by rw [hval]; exact hev, by rw [hpary e henx, hep]⟩
          · simp at hmm
            subst hmm
            rw [hgq]
            exact ⟨by rw [hval]; exact hxv, hparx⟩
        · rw [hchy h hht] at he
          obtain ⟨hev, hep⟩ := (forest_at hfor hh).1 e he
          have henx : e ≠ x := fun heq => hnotin h hh (heq ▸ he)
          rw [hgq]
          exact ⟨by rw [hval]; exact hev, by rw [hpary e henx, hep]⟩
      · rw [hgq]
        by_cases hht : h = tgt
        · subst hht
          rw [hcht]
          refine List.Nodup.append (forest_at hfor hh).2.1 (List.nodup_singleton x) ?_
          intro a ha hb
          simp at hb
          subst hb
          exact hxnotint ha
        · rw [hchy h hht]
          exact (forest_at hfor hh).2.1
      · rw [hgq]
        exact hupdep h (by rw [hval]; exact hh)
    · rw [isValid_def, hgq, hval, hgroot]
      exact hrv
    · rw [parentOf_eq, hgq, hgroot, hpary g.root (Ne.symm hxr), ← parentOf_eq]
      exact hrp
    · intro h hh hhr
      rw [hgq, mem_liveHandles, hval] at hh
      rw [hgroot] at hhr
      by_cases hhx : h = x
      · subst hhx
        rw [parentOf_eq, hgq, hparx]
        constructor
        · rw [isValid_def, hgq, hval]
          exact htv
        · rw [childrenOf_eq, hgq, hcht]
          rw [List.count_append]
          have h0 : (g.pool.childrenP tgt).count h = 0 := by
            rw [List.count_eq_zero]
            exact hxnotint
          rw [h0]
          simp
      · obtain ⟨hhpv, hhcount⟩ :=
          hclause h ((mem_liveHandles g.pool h).mpr hh) hhr hhx
        rw [parentOf_eq, hgq, hpary h hhx, ← parentOf_eq]
        constructor
        · rw [isValid_def, hgq, hval]
          exact hhpv
        · rw [childrenOf_eq, hgq]
          by_cases hht : g.parentOf h = tgt
          · rw [hht, hcht, List.count_append]
            have h1 : [x].count h = 0 := by
              simp [hhx]
            rw [h1]
            rw [childrenOf_eq, hht] at hhcount
            omega
          · rw [hchy _ hht, ← childrenOf_eq]
            exact hhcount
  exact hgoal _ (by simp [hq]) (by simp)

end Graph

theorem Node.mapBase_parent_id {n : Node} (hp : n.base.parent = Handle.NONE) :
    (n.mapBase fun b => { b with parent := Handle.NONE }) = n := by
  have hb : ∀ b : BaseRec, b.parent = Handle.NONE →
      ({ b with parent := Handle.NONE } : BaseRec) = b := by
    intro b hbp
    rw [← hbp]
  cases n <;> simp only [Node.mapBase, Node.base] at hp ⊢ <;> rw [hb _ hp]

namespace Pool

theorem update_self_id (p : Pool α) (h : Handle) {n : α} (hb : p.borrow h = some n)
    (f : α → α) (hf : f n = n) : p.update h f = p := by
  unfold borrow at hb
  cases hg : p.records[h.index]? with
  | none => rw [hg] at hb; simp at hb
  | some r =>
    simp only [hg] at hb
    by_cases hgen : r.generation = h.generation
    · rw [if_pos hgen] at hb
      unfold update
      rw [hg]
      simp only []
      rw [if_pos hgen]
      have hrec : ({ r with payload := r.payload.map f } : PoolRecord α) = r := by
        rw [hb]
        simp [hf]
        rw [← hb]
      rw [hrec, List.set_getElem_self hg]
    · rw [if_neg hgen] at hb
      simp at hb

/-- Chains survive adding handles, as long as old nodes keep their parents
and dead parents stay dead. -/
theorem upDepth_grow {p q : Pool Node}
    (hvg : ∀ x, p.isValidHandle x = true →
      q.isValidHandle x = true ∧ q.parentP x = p.parentP x)
    (hterm : ∀ x, p.isValidHandle x = true → p.isValidHandle (p.parentP x) = false →
      q.isValidHandle (p.parentP x) = false) :
    ∀ fuel x d, p.upDepth fuel x = some d → q.upDepth fuel x = some d := by
  intro fuel
  induction fuel with
  | zero => intro x d hd; simp [upDepth] at hd
  | succ fuel ih =>
    intro x d hd
    have hv := upDepth_valid hd
    obtain ⟨hvq, hpq⟩ := hvg x hv
    unfold upDepth at hd ⊢
    rw [if_pos hv] at hd
    rw [if_pos hvq, hpq]
    by_cases hp : p.isValidHandle (p.parentP x) = true
    · rw [if_pos hp] at hd
      rw [if_pos (hvg _ hp).1]
      cases hup : p.upDepth fuel (p.parentP x) with
      | none => rw [hup] at hd; simp at hd
      | some d' =>
        rw [ih _ _ hup]
        rwa [hup] at hd
    · rw [if_neg hp] at hd
      rw [if_neg (by rw [hterm x hv (by simpa using hp)]; simp)]
      exact hd

end Pool

namespace Graph

open Pool

theorem unlinkInternal_detached {g : Graph} {c : Handle} {n : Node}
    (hb : g.pool.borrow c = some n) (hp : n.base.parent = Handle.NONE) :
    g.unlinkInternal c = g := by
  have hns : Handle.NONE.isSomeH = false := by
    unfold Handle.isSomeH
    simp
  unfold unlinkInternal
  simp only [hb, hp, hns, Bool.false_eq_true, if_false]
  show g.updateNode c _ = g
  unfold updateNode
  rw [update_self_id g.pool c hb _ (Node.mapBase_parent_id hp)]

theorem depthOf_root {g : Graph} (hwf : g.wf) : g.pool.depthOf g.root = 0 := by
  have hd := upDepth_depthOf hwf.1 hwf.2.1
  unfold Pool.upDepth at hd
  rw [if_pos (show g.pool.isValidHandle g.root = true from hwf.2.1)] at hd
  rw [← parentOf_eq, hwf.2.2.1, none_not_valid g.pool hwf.1.1] at hd
  simp at hd
  omega

theorem depthOf_pos {g : Graph} (hwf : g.wf) {h : Handle} (hv : g.isValid h = true)
    (hne : h ≠ g.root) : 1 ≤ g.pool.depthOf h := by
  have hd := upDepth_depthOf hwf.1 hv
  unfold Pool.upDepth at hd
  rw [if_pos (show g.pool.isValidHandle h = true from hv)] at hd
  have hpv := (wf_at hwf hv hne).1
  rw [isValid_def, parentOf_eq] at hpv
  rw [if_pos hpv] at hd
  cases hup : g.pool.upDepth g.pool.getCapacity (g.pool.parentP h) with
  | none => rw [hup] at hd; simp at hd
  | some d =>
    rw [hup] at hd
    simp at hd
    omega

theorem not_descP_root {g : Graph} (hwf : g.wf) {h : Handle} (hv : g.isValid h = true)
    (hne : h ≠ g.root) : ¬ g.pool.DescP h g.root := by
  intro hd
  have := (descP_depth_iter hwf.1 hd).1
  have h1 := depthOf_pos hwf hv hne
  have h0 := depthOf_root hwf
  omega

/-- After `unlink_internal`, descendants are unchanged. -/
theorem unlink_descP_iff {g : Graph} (hwf : g.wf) {c : Handle}
    (hv : g.isValid c = true) (hne : c ≠ g.root) (k : Handle) :
    (g.unlinkInternal c).pool.DescP c k ↔ g.pool.DescP c k := by
  obtain ⟨hroot, hok, hcap, hval, hparc, hparx, hchp, hchx, hborrow⟩ := unlink_spec hwf hv hne
  constructor
  · refine DescP_mono_subset ?_
    intro x hx
    rw [hval] at hx
    refine ⟨hx, ?_⟩
    intro e he
    by_cases hxp : x = g.parentOf c
    · subst hxp
      rw [hchp] at he
      exact List.erase_subset _ _ he
    · rwa [hchx x hxp] at he
  · intro hd
    refine DescP_of_agree_children [g.parentOf c] ?_ hd ?_
    · intro x hxv hxb
      simp at hxb
      refine ⟨?_, hchx x hxb⟩
      rw [hval x]
      exact hxv
    · intro b hb
      simp at hb
      subst hb
      intro hdb
      obtain ⟨hpv, hpc, _, hmem⟩ := parent_facts hwf hv hne
      have h1 := descP_depth_strict hwf.1 hdb hpc
      have h2 := depthOf_child hwf.1
        (show g.pool.isValidHandle (g.parentOf c) = true from hpv) hmem
      omega

end Graph

namespace Pool

theorem descP_valid_right {p : Pool Node} : ∀ {a k : Handle}, p.DescP a k →
    p.isValidHandle k = true := by
  intro a k hd
  induction hd with
  | refl x hv => exact hv
  | child hv hc hsub ih => exact ih

theorem descP_snoc {p : Pool Node} (hf : p.forest) :
    ∀ {a x c : Handle}, p.DescP a x → c ∈ p.childrenP x → p.DescP a c := by
  intro a x c hd
  induction hd with
  | refl y hv =>
    intro hc
    exact DescP.child hv hc (DescP.refl c ((forest_at hf hv).1 c hc).1)
  | child hv hcx hsub ih =>
    intro hc
    exact DescP.child hv hcx (ih hc)

/-- One extra unit of fuel absorbs the revival of a single fresh node whose
own parent is dead, so chains that terminated keep terminating. -/
theorem upDepth_grow_one {p q : Pool Node} (hnew : Handle)
    (hvg : ∀ x, p.isValidHandle x = true →
      q.isValidHandle x = true ∧ q.parentP x = p.parentP x)
    (hvq : ∀ x, q.isValidHandle x = true → p.isValidHandle x = true ∨ x = hnew)
    (hterm : q.isValidHandle (q.parentP hnew) = false) :
    ∀ fuel x d, p.upDepth fuel x = some d → ∃ e, q.upDepth (fuel + 1) x = some e := by
  intro fuel
  induction fuel with
  | zero => intro x d hd; simp [upDepth] at hd
  | succ fuel ih =>
    intro x d hd
    have hvx := upDepth_valid hd
    obtain ⟨hvqx, hpq⟩ := hvg x hvx
    unfold upDepth at hd
    rw [if_pos hvx] at hd
    by_cases hp : p.isValidHandle (p.parentP x) = true
    · rw [if_pos hp] at hd
      cases hup : p.upDepth fuel (p.parentP x) with
      | none => rw [hup] at hd; simp at hd
      | some d' =>
        obtain ⟨e, he⟩ := ih (p.parentP x) d' hup
        refine ⟨e + 1, ?_⟩
        show q.upDepth (fuel + 1 + 1) x = some (e + 1)
        unfold upDepth
        rw [if_pos hvqx, hpq, if_pos (hvg _ hp).1, he]
        rfl
    · by_cases hq : q.isValidHandle (p.parentP x) = true
      · have hxnew : p.parentP x = hnew := by
          rcases hvq _ hq with h1 | h1
          · exact absurd h1 hp
          · exact h1
        have hqnew : q.isValidHandle hnew = true := hxnew ▸ hq
        have h0 : q.upDepth (fuel + 1) hnew = some 0 := by
          unfold upDepth
          rw [if_pos hqnew, hterm]
          simp
        refine ⟨1, ?_⟩
        show q.upDepth (fuel + 1 + 1) x = some 1
        unfold upDepth
        rw [if_pos hvqx, hpq, if_pos hq, hxnew, h0]
        rfl
      · refine ⟨0, ?_⟩
        show q.upDepth (fuel + 1 + 1) x = some 0
        unfold upDepth
        rw [if_pos hvqx, hpq, if_neg hq]

/-- The subtree list only inspects validity and children along the closure of
the work list, so it is stable under pools that agree there. -/
theorem subtreeListP_congr {p q : Pool Node} (P : Handle → Prop)
    (hclosed : ∀ x, P x → ∀ c ∈ p.childrenP x, P c)
    (hvalP : ∀ x, P x → q.isValidHandle x = p.isValidHandle x)
    (hchP : ∀ x, P x → q.childrenP x = p.childrenP x) :
    ∀ fuel l, (∀ s ∈ l, P s) → q.subtreeListP fuel l = p.subtreeListP fuel l := by
  intro fuel
  induction fuel with
  | zero => intro l _; simp [subtreeListP]
  | succ fuel ih =>
    intro l
    induction l with
    | nil => intro _; rw [subtreeListP_nil, subtreeListP_nil]
    | cons h rest ihl =>
      intro hP
      have hPh : P h := hP h (List.mem_cons_self h rest)
      have hPrest : ∀ s ∈ rest, P s := fun s hs => hP s (List.mem_cons_of_mem h hs)
      rw [subtreeListP_cons q (fuel + 1) h rest, subtreeListP_cons p (fuel + 1) h rest,
        ihl hPrest]
      congr 1
      cases hb : p.borrow h with
      | none =>
        have hqb : q.borrow h = none := by
          have := hvalP h hPh
          unfold isValidHandle at this
          rw [hb] at this
          simp at this
          cases hqq : q.borrow h with
          | none => rfl
          | some m => rw [hqq] at this; simp at this
        rw [subtreeListP_single_dead p fuel h hb, subtreeListP_single_dead q fuel h hqb]
      | some n =>
        obtain ⟨m, hqb⟩ : ∃ m, q.borrow h = some m := by
          have := hvalP h hPh
          unfold isValidHandle at this
          rw [hb] at this
          simp at this
          cases hqq : q.borrow h with
          | none => rw [hqq] at this; simp at this
          | some m => exact ⟨m, rfl⟩
        have hmc : m.base.children = n.base.children := by
          have := hchP h hPh
          unfold childrenP at this
          rw [hb, hqb] at this
          simpa using this
        rw [subtreeListP_single_live p fuel h n hb, subtreeListP_single_live q fuel h m hqb,
          hmc]
        congr 1
        refine ih n.base.children ?_
        intro c hc
        refine hclosed h hPh c ?_
        rw [childrenP_of_borrow hb]
        exact hc

theorem spawn_parentP_preserved (p : Pool Node) (v : Node) (hok : p.ok) (k : Handle)
    (hv : p.isValidHandle k = true) : (p.spawn v).2.parentP k = p.parentP k := by
  unfold parentP
  rw [spawn_borrow_preserved p v hok k hv]

theorem spawn_childrenP_preserved (p : Pool Node) (v : Node) (hok : p.ok) (k : Handle)
    (hv : p.isValidHandle k = true) : (p.spawn v).2.childrenP k = p.childrenP k := by
  unfold childrenP
  rw [spawn_borrow_preserved p v hok k hv]

/-- Spawning a detached, childless node keeps the pool a forest. -/
theorem spawn_forest {p : Pool Node} (hf : p.forest) {v : Node}
    (hvp : v.base.parent = Handle.NONE) (hvc : v.base.children = []) :
    (p.spawn v).2.forest := by
  have hok := hf.1
  have hqok : (p.spawn v).2.ok := spawn_ok p v hok
  have hbs := spawn_borrow_self p v hok
  have hvnew : (p.spawn v).2.isValidHandle (p.spawn v).1 = true := by
    unfold isValidHandle
    rw [hbs]
    rfl
  have hpnew : (p.spawn v).2.parentP (p.spawn v).1 = Handle.NONE := by
    unfold parentP
    rw [hbs]
    simp [hvp]
  have hcnew : (p.spawn v).2.childrenP (p.spawn v).1 = [] := by
    unfold childrenP
    rw [hbs]
    simp [hvc]
  have hvg : ∀ x, p.isValidHandle x = true →
      (p.spawn v).2.isValidHandle x = true ∧ (p.spawn v).2.parentP x = p.parentP x := by
    intro x hx
    exact ⟨(spawn_valid_iff p v hok x).mpr (Or.inl hx), spawn_parentP_preserved p v hok x hx⟩
  refine ⟨hqok, ?_⟩
  intro h hh
  rw [mem_liveHandles] at hh
  by_cases hhn : h = (p.spawn v).1
  · subst hhn
    refine ⟨?_, ?_, ?_⟩
    · intro c hc
      rw [hcnew] at hc
      simp at hc
    · rw [hcnew]
      exact List.nodup_nil
    · refine upDepth_cap_of_exists _ ⟨1, 0, ?_⟩
      unfold upDepth
      rw [if_pos hvnew, hpnew, none_not_valid _ hqok]
      simp
  · have hx : p.isValidHandle h = true := by
      rcases (spawn_valid_iff p v hok h).mp hh with h1 | h1
      · exact h1
      · exact absurd h1 hhn
    obtain ⟨hkids, hnd, hdep⟩ := forest_at hf hx
    have hchp : (p.spawn v).2.childrenP h = p.childrenP h :=
      spawn_childrenP_preserved p v hok h hx
    refine ⟨?_, ?_, ?_⟩
    · intro c hc
      rw [hchp] at hc
      obtain ⟨hcv, hcp⟩ := hkids c hc
      exact ⟨(hvg c hcv).1, by rw [(hvg c hcv).2, hcp]⟩
    · rw [hchp]
      exact hnd
    · have hterm : (p.spawn v).2.isValidHandle ((p.spawn v).2.parentP (p.spawn v).1)
          = false := by
        rw [hpnew]
        exact none_not_valid _ hqok
      cases hup : p.upDepth (p.getCapacity + 1) h with
      | none => rw [hup] at hdep; simp at hdep
      | some d =>
        obtain ⟨e, he⟩ := upDepth_grow_one (p.spawn v).1 hvg
          (fun x hx' => (spawn_valid_iff p v hok x).mp hx') hterm _ h d hup
        exact upDepth_cap_of_exists _ ⟨p.getCapacity + 2, e, he⟩

end Pool

namespace Graph

open Pool

theorem not_descP_parent {g : Graph} (hwf : g.wf) {h : Handle}
    (hv : g.isValid h = true) (hne : h ≠ g.root) :
    ¬ g.pool.DescP h (g.parentOf h) := by
  intro hdb
  obtain ⟨hpv, hpc, _, hmem⟩ := parent_facts hwf hv hne
  have h1 := descP_depth_strict hwf.1 hdb hpc
  have h2 := depthOf_child hwf.1
    (show g.pool.isValidHandle (g.parentOf h) = true from hpv) hmem
  omega

/-- Spawning a detached, childless node leaves the graph well formed up to
that one detached node. -/
theorem spawn_wfDetached {g : Graph} (hwf : g.wf) {v : Node}
    (hvp : v.base.parent = Handle.NONE) (hvc : v.base.children = []) :
    ({ g with pool := (g.pool.spawn v).2 } : Graph).wfDetached (g.pool.spawn v).1 := by
  have hok := hwf.1.1
  have hbs := Pool.spawn_borrow_self g.pool v hok
  have hnvb := Pool.spawn_not_valid_before g.pool v hok
  have hroot_ne : (g.pool.spawn v).1 ≠ g.root := by
    intro heq
    have h1 : g.pool.isValidHandle g.root = true := hwf.2.1
    rw [heq, h1] at hnvb
    simp at hnvb
  have hvnew : (g.pool.spawn v).2.isValidHandle (g.pool.spawn v).1 = true := by
    unfold Pool.isValidHandle
    rw [hbs]
    rfl
  have hcnew : (g.pool.spawn v).2.childrenP (g.pool.spawn v).1 = [] := by
    unfold Pool.childrenP
    rw [hbs]
    simp [hvc]
  refine ⟨spawn_forest hwf.1 hvp hvc, ?_, ?_, ?_, hroot_ne, ?_, ?_, ?_⟩
  · rw [isValid_def]
    exact (Pool.spawn_valid_iff g.pool v hok g.root).mpr (Or.inl hwf.2.1)
  · rw [parentOf_eq]
    show (g.pool.spawn v).2.parentP g.root = Handle.NONE
    rw [Pool.spawn_parentP_preserved g.pool v hok g.root hwf.2.1, ← parentOf_eq]
    exact hwf.2.2.1
  · rw [isValid_def]
    exact hvnew
  · rw [parentOf_eq]
    show (g.pool.spawn v).2.parentP (g.pool.spawn v).1 = Handle.NONE
    unfold Pool.parentP
    rw [hbs]
    simp [hvp]
  · intro y hy
    by_cases hyx : y = (g.pool.spawn v).1
    · subst hyx
      rw [hcnew]
      simp
    · have hyp : g.pool.isValidHandle y = true := by
        rcases (Pool.spawn_valid_iff g.pool v hok y).mp hy with h1 | h1
        · exact h1
        · exact absurd h1 hyx
      show (g.pool.spawn v).1 ∉ (g.pool.spawn v).2.childrenP y
      rw [Pool.spawn_childrenP_preserved g.pool v hok y hyp]
      intro hmem
      have hval := ((forest_at hwf.1 hyp).1 _ hmem).1
      rw [hnvb] at hval
      simp at hval
  · intro h hh hhr hhx
    rw [mem_liveHandles] at hh
    have hx : g.pool.isValidHandle h = true := by
      rcases (Pool.spawn_valid_iff g.pool v hok h).mp hh with h1 | h1
      · exact h1
      · exact absurd h1 hhx
    obtain ⟨hpv, hcount⟩ := hwf.2.2.2 h ((mem_liveHandles g.pool h).mpr hx) hhr
    have hpv' : g.pool.isValidHandle (g.pool.parentP h) = true := by
      rw [← parentOf_eq]
      exact hpv
    constructor
    · rw [isValid_def, parentOf_eq]
      show (g.pool.spawn v).2.isValidHandle ((g.pool.spawn v).2.parentP h) = true
      rw [Pool.spawn_parentP_preserved g.pool v hok h hx]
      exact (Pool.spawn_valid_iff g.pool v hok _).mpr (Or.inl hpv')
    · rw [parentOf_eq, childrenOf_eq]
      show (((g.pool.spawn v).2.childrenP ((g.pool.spawn v).2.parentP h)).count h) = 1
      rw [Pool.spawn_parentP_preserved g.pool v hok h hx,
        Pool.spawn_childrenP_preserved g.pool v hok _ hpv']
      have := hcount
      rw [parentOf_eq, childrenOf_eq] at this
      exact this

/-- On a node that is already detached, `link_nodes` is the two-update attach
step. -/
theorem linkNodes_detached_eq {g : Graph} {x tgt : Handle} {n nt : Node}
    (hbx : g.pool.borrow x = some n) (hp : n.base.parent = Handle.NONE)
    (hbt : g.pool.borrow tgt = some nt) (htx : tgt ≠ x) :
    g.linkNodes x tgt =
      ((g.updateNode x (Node.mapBase fun b => { b with parent := tgt })).updateNode tgt
        (Node.mapBase fun b => { b with children := b.children ++ [x] })) := by
  have h1 : g.unlinkInternal x = g := unlinkInternal_detached hbx hp
  have h2 : (g.pool.update x (Node.mapBase fun b => { b with parent := tgt })).borrow tgt
      = g.pool.borrow tgt := borrow_update_ne g.pool _ htx
  simp only [linkNodes, h1, hbx, updateNode_pool, h2, hbt]

theorem wf_linkNodes_detached {g : Graph} {x tgt : Handle} (hd : g.wfDetached x)
    (htv : g.isValid tgt = true) (hnd : ¬ g.pool.DescP x tgt) :
    (g.linkNodes x tgt).wf := by
  have hxv : g.pool.isValidHandle x = true := hd.2.2.2.1
  have htx : tgt ≠ x := fun heq => hnd (heq ▸ DescP.refl x hxv)
  obtain ⟨n, hbx⟩ : ∃ n, g.pool.borrow x = some n := by
    unfold Pool.isValidHandle at hxv
    cases hbb : g.pool.borrow x with
    | none => rw [hbb] at hxv; simp at hxv
    | some n => exact ⟨n, rfl⟩
  have hp : n.base.parent = Handle.NONE := by
    have h6 := hd.2.2.2.2.2.1
    rw [parentOf_eq] at h6
    unfold Pool.parentP at h6
    rw [hbx] at h6
    simpa using h6
  obtain ⟨nt, hbt⟩ : ∃ nt, g.pool.borrow tgt = some nt := by
    have htv' : g.pool.isValidHandle tgt = true := htv
    unfold Pool.isValidHandle at htv'
    cases hbb : g.pool.borrow tgt with
    | none => rw [hbb] at htv'; simp at htv'
    | some nt => exact ⟨nt, rfl⟩
  rw [linkNodes_detached_eq hbx hp hbt htx]
  exact wf_attach hd htv hnd

theorem linkNodes_unlink_eq {g : Graph} {c t : Handle} {n1 : Node}
    (hb1 : (g.unlinkInternal c).pool.borrow c = some n1)
    (hp1 : n1.base.parent = Handle.NONE) :
    g.linkNodes c t = (g.unlinkInternal c).linkNodes c t := by
  have h1 : (g.unlinkInternal c).unlinkInternal c = g.unlinkInternal c :=
    unlinkInternal_detached hb1 hp1
  simp only [linkNodes, h1]

/-- `link_nodes` preserves well-formedness under the documented no-cycle
precondition. -/
theorem wf_linkNodes {g : Graph} (hwf : g.wf) {c t : Handle}
    (hvc : g.isValid c = true) (hnc : c ≠ g.root) (hvt : g.isValid t = true)
    (hnd : ¬ g.pool.DescP c t) :
    (g.linkNodes c t).wf := by
  have hdet := unlink_wfDetached hwf hvc hnc
  obtain ⟨hroot, hok, hcap, hval, hparc, hparx, hchp, hchx, hborrow⟩ :=
    unlink_spec hwf hvc hnc
  obtain ⟨n1, hb1⟩ : ∃ n1, (g.unlinkInternal c).pool.borrow c = some n1 := by
    have hvv : (g.unlinkInternal c).pool.isValidHandle c = true := by
      rw [hval]
      exact hvc
    unfold Pool.isValidHandle at hvv
    cases hbb : (g.unlinkInternal c).pool.borrow c with
    | none => rw [hbb] at hvv; simp at hvv
    | some n1 => exact ⟨n1, rfl⟩
  have hp1 : n1.base.parent = Handle.NONE := by
    have := hparc
    unfold Pool.parentP at this
    rw [hb1] at this
    simpa using this
  rw [linkNodes_unlink_eq hb1 hp1]
  refine wf_linkNodes_detached hdet ?_ ?_
  · rw [isValid_def, hval]
    exact hvt
  · rw [unlink_descP_iff hwf hvc hnc t]
    exact hnd

/-- `add_node` with a detached, childless payload preserves well-formedness. -/
theorem wf_addNode {g : Graph} (hwf : g.wf) {v : Node}
    (hvp : v.base.parent = Handle.NONE) (hvc : v.base.children = []) :
    (g.addNode v).2.wf := by
  have hok := hwf.1.1
  have hdet := spawn_wfDetached hwf hvp hvc
  have hcnew : (g.pool.spawn v).2.childrenP (g.pool.spawn v).1 = [] := by
    unfold Pool.childrenP
    rw [Pool.spawn_borrow_self g.pool v hok]
    simp [hvc]
  have hnd : ¬ ({ g with pool := (g.pool.spawn v).2 } : Graph).pool.DescP
      (g.pool.spawn v).1 g.root := by
    intro hdd
    rcases descP_cases hdd with heq | ⟨cc, hc, _⟩
    · exact hdet.2.2.2.2.1 heq.symm
    · rw [show ({ g with pool := (g.pool.spawn v).2 } : Graph).pool.childrenP
          (g.pool.spawn v).1 = [] from hcnew] at hc
      simp at hc
  have hres : (g.addNode v).2
      = ({ g with pool := (g.pool.spawn v).2 } : Graph).linkNodes (g.pool.spawn v).1
        g.root := rfl
  rw [hres]
  refine wf_linkNodes_detached hdet ?_ hnd
  rw [isValid_def]
  exact (Pool.spawn_valid_iff g.pool v hok g.root).mpr (Or.inl hwf.2.1)

/-- `unlink_node` preserves well-formedness. -/
theorem wf_unlinkNode {g : Graph} (hwf : g.wf) {h : Handle}
    (hv : g.isValid h = true) (hne : h ≠ g.root) :
    (g.unlinkNode h).wf := by
  have hdet := unlink_wfDetached hwf hv hne
  obtain ⟨hroot, hok, hcap, hval, hparc, hparx, hchp, hchx, hborrow⟩ :=
    unlink_spec hwf hv hne
  have hnd : ¬ (g.unlinkInternal h).pool.DescP h (g.unlinkInternal h).root := by
    rw [hroot, unlink_descP_iff hwf hv hne]
    exact not_descP_root hwf hv hne
  have hstep : g.unlinkNode h
      = ((g.unlinkInternal h).linkNodes h (g.unlinkInternal h).root).updateNode h
        (Node.mapBase fun b =>
          { b with localTransform := b.localTransform.setPosition Vec3.ZERO }) := rfl
  rw [hstep]
  refine wf_updateNode ?_ h _ ?_ ?_
  · exact wf_linkNodes_detached hdet hdet.2.1 hnd
  · intro m
    cases m <;> rfl
  · intro m
    cases m <;> rfl

end Graph

namespace Graph

open Pool

theorem unlinkInternal_aliveCount (g : Graph) (c : Handle) :
    (g.unlinkInternal c).pool.aliveCount = g.pool.aliveCount := by
  unfold unlinkInternal
  cases hb : g.pool.borrow c with
  | none => rfl
  | some n =>
    simp only [hb]
    by_cases hs : n.base.parent.isSomeH = true
    · rw [if_pos hs]
      cases hb2 : (g.updateNode c (Node.mapBase fun b =>
          { b with parent := Handle.NONE })).pool.borrow n.base.parent with
      | none =>
        show (g.pool.update c _).aliveCount = g.pool.aliveCount
        exact aliveCount_update g.pool c _
      | some m =>
        show ((g.pool.update c _).update n.base.parent _).aliveCount = g.pool.aliveCount
        rw [aliveCount_update, aliveCount_update]
    · rw [if_neg hs]
      show (g.pool.update c _).aliveCount = g.pool.aliveCount
      exact aliveCount_update g.pool c _

/-- Full characterisation of `remove_node` on a well-formed graph: exactly
the subtree dies, the live count drops by its size, the node leaves its old
parent's children list, and the graph stays well formed. -/
theorem removeNode_spec {g : Graph} (hwf : g.wf) {h : Handle}
    (hv : g.isValid h = true) (hne : h ≠ g.root) :
    (∀ k, (g.removeNode h).pool.isValidHandle k = true ↔
      (g.pool.isValidHandle k = true ∧ ¬ g.pool.DescP h k)) ∧
    (g.removeNode h).pool.aliveCount + (g.subtreeOf h).length = g.pool.aliveCount ∧
    (g.removeNode h).pool.childrenP (g.parentOf h)
      = (g.pool.childrenP (g.parentOf h)).erase h ∧
    (g.removeNode h).root = g.root ∧
    (g.removeNode h).wf := by
  have hdet := unlink_wfDetached hwf hv hne
  obtain ⟨hroot, hok, hcap, hval, hparc, hparx, hchp, hchx, hborrow⟩ :=
    unlink_spec hwf hv hne
  have hf1 : (g.unlinkInternal h).pool.forest := hdet.1
  have hdisj : StackDisj (g.unlinkInternal h).pool [h] := by
    unfold StackDisj
    simp
  have hnc : NotChildOf (g.unlinkInternal h).pool [h] := by
    intro s hs x hx
    simp at hs
    subst hs
    exact hdet.2.2.2.2.2.2.1 x hx
  have hfuel : ([h] : List Handle).length + totalChildren (g.unlinkInternal h).pool
      ≤ 2 + totalChildren (g.unlinkInternal h).pool := by
    simp only [List.length_singleton]
    omega
  obtain ⟨hfree, hkeep, hqf, hqlen, hqgen, hqalive⟩ :=
    removeLoop_spec (2 + totalChildren (g.unlinkInternal h).pool) [h]
      (g.unlinkInternal h).pool hf1 hdisj hnc hfuel
  have hDiff : ∀ k, (g.unlinkInternal h).pool.DescP h k ↔ g.pool.DescP h k :=
    unlink_descP_iff hwf hv hne
  have hpool : (g.removeNode h).pool
      = removeLoop (2 + totalChildren (g.unlinkInternal h).pool) [h]
        (g.unlinkInternal h).pool := rfl
  have hrt : (g.removeNode h).root = g.root := by
    show (g.unlinkInternal h).root = g.root
    exact hroot
  have hqb : ∀ k, ¬ g.pool.DescP h k →
      (g.removeNode h).pool.borrow k = (g.unlinkInternal h).pool.borrow k := by
    intro k hdk
    rw [hpool]
    refine hkeep k ?_
    intro s hs
    simp at hs
    subst hs
    intro hd
    exact hdk ((hDiff k).mp hd)
  have hvalid_iff : ∀ k, (g.removeNode h).pool.isValidHandle k = true ↔
      (g.pool.isValidHandle k = true ∧ ¬ g.pool.DescP h k) := by
    intro k
    by_cases hdk : g.pool.DescP h k
    · have hnone : (g.removeNode h).pool.borrow k = none := by
        rw [hpool]
        exact hfree k ⟨h, by simp, (hDiff k).mpr hdk⟩
      constructor
      · intro hq
        unfold Pool.isValidHandle at hq
        rw [hnone] at hq
        simp at hq
      · rintro ⟨_, hnd⟩
        exact absurd hdk hnd
    · constructor
      · intro hq
        refine ⟨?_, hdk⟩
        have hg1 : (g.unlinkInternal h).pool.isValidHandle k = true := by
          unfold Pool.isValidHandle at hq ⊢
          rw [← hqb k hdk]
          exact hq
        rw [← hval k]
        exact hg1
      · rintro ⟨hkv, _⟩
        have hg1 : (g.unlinkInternal h).pool.isValidHandle k = true := by
          rw [hval]
          exact hkv
        unfold Pool.isValidHandle at hg1 ⊢
        rw [hqb k hdk]
        exact hg1
  have halive1 : (g.unlinkInternal h).pool.aliveCount = g.pool.aliveCount :=
    unlinkInternal_aliveCount g h
  have hsub : (g.unlinkInternal h).pool.subtreeListP
      ((g.unlinkInternal h).pool.getCapacity + 1) [h]
      = g.pool.subtreeListP (g.pool.getCapacity + 1) [h] := by
    rw [hcap]
    refine subtreeListP_congr (g.pool.DescP h) ?_ ?_ ?_ (g.pool.getCapacity + 1) [h] ?_
    · intro x hPx c hc
      exact descP_snoc hwf.1 hPx hc
    · intro x hPx
      exact hval x
    · intro x hPx
      refine hchx x ?_
      intro heq
      exact not_descP_parent hwf hv hne (heq ▸ hPx)
    · intro s hs
      simp at hs
      subst hs
      exact DescP.refl _ hv
  have halive : (g.removeNode h).pool.aliveCount + (g.subtreeOf h).length
      = g.pool.aliveCount := by
    have hq := hqalive
    rw [hsub] at hq
    rw [hpool]
    unfold subtreeOf
    rw [← halive1]
    exact hq
  have hchres : (g.removeNode h).pool.childrenP (g.parentOf h)
      = (g.pool.childrenP (g.parentOf h)).erase h := by
    have hbq := hqb (g.parentOf h) (not_descP_parent hwf hv hne)
    unfold Pool.childrenP
    rw [hbq]
    exact hchp
  have hqpar : ∀ k, ¬ g.pool.DescP h k →
      (g.removeNode h).pool.parentP k = (g.unlinkInternal h).pool.parentP k := by
    intro k hdk
    unfold Pool.parentP
    rw [hqb k hdk]
  have hqch : ∀ k, ¬ g.pool.DescP h k →
      (g.removeNode h).pool.childrenP k = (g.unlinkInternal h).pool.childrenP k := by
    intro k hdk
    unfold Pool.childrenP
    rw [hqb k hdk]
  have hndr : ¬ g.pool.DescP h g.root := not_descP_root hwf hv hne
  refine ⟨hvalid_iff, halive, hchres, hrt, ?_, ?_, ?_, ?_⟩
  · rw [show (g.removeNode h).pool.forest = _ from congrArg Pool.forest hpool]
    exact hqf
  · rw [isValid_def, hrt]
    exact (hvalid_iff g.root).mpr ⟨hwf.2.1, hndr⟩
  · rw [parentOf_eq, hrt, hqpar g.root hndr, hparx g.root (Ne.symm hne), ← parentOf_eq]
    exact hwf.2.2.1
  · intro y hy hyr
    rw [mem_liveHandles] at hy
    obtain ⟨hyv, hynd⟩ := (hvalid_iff y).mp hy
    rw [hrt] at hyr
    have hyh : y ≠ h := by
      intro heq
      exact hynd (heq ▸ DescP.refl h hv)
    obtain ⟨hypv, hycount⟩ := hwf.2.2.2 y ((mem_liveHandles g.pool y).mpr hyv) hyr
    have hpnd : ¬ g.pool.DescP h (g.parentOf y) := by
      intro hdp
      refine hynd (descP_snoc hwf.1 hdp ?_)
      have hm := wf_child_mem hwf hyv hyr
      rwa [childrenOf_eq] at hm
    have hpary : (g.removeNode h).pool.parentP y = g.pool.parentP y := by
      rw [hqpar y hynd, hparx y hyh]
    constructor
    · rw [isValid_def, parentOf_eq, hpary, ← parentOf_eq]
      exact (hvalid_iff (g.parentOf y)).mpr ⟨hypv, hpnd⟩
    · rw [childrenOf_eq, parentOf_eq, hpary, ← parentOf_eq, hqch _ hpnd]
      by_cases hyp : g.parentOf y = g.parentOf h
      · rw [hyp, hchp, List.count_erase_of_ne hyh]
        have hc := hycount
        rw [childrenOf_eq, hyp] at hc
        exact hc
      · rw [hchx _ hyp]
        have hc := hycount
        rw [childrenOf_eq] at hc
        exact hc

end Graph

namespace Pool

/-- Descendant-or-self only depends on validity and children lists. -/
theorem DescP_congr {p q : Pool Node}
    (hval : ∀ x, q.isValidHandle x = p.isValidHandle x)
    (hch : ∀ x, q.childrenP x = p.childrenP x) :
    ∀ a k, p.DescP a k ↔ q.DescP a k := by
  intro a k
  constructor
  · intro hd
    refine DescP_of_agree_children [] ?_ hd ?_
    · intro x hx _
      exact ⟨by rw [hval]; exact hx, hch x⟩
    · intro b hb
      simp at hb
  · intro hd
    refine DescP_of_agree_children [] ?_ hd ?_
    · intro x hx _
      exact ⟨by rw [← hval]; exact hx, (hch x).symm⟩
    · intro b hb
      simp at hb

/-- The matrix product of the local transforms along the ancestor chain of a
handle, root leftmost; this is the specification's description of the value
`update_transforms` must store in `global_transform`. An invalid parent (the
root case) contributes the identity. Fuel bounds the chain length. -/
def pathTransform (p : Pool Node) : Nat → Handle → Mat4
  | 0, _ => 1
  | fuel + 1, h =>
    match p.borrow h with
    | none => 1
    | some n =>
      (if p.isValidHandle n.base.parent = true then pathTransform p fuel n.base.parent
       else 1) * n.base.localTransform.matrix

/-- The conjunction of the local visibility flags along the ancestor chain;
the specification's description of `global_visibility`. An invalid parent
contributes full visibility. -/
def pathVisibility (p : Pool Node) : Nat → Handle → Bool
  | 0, _ => true
  | fuel + 1, h =>
    match p.borrow h with
    | none => true
    | some n =>
      (if p.isValidHandle n.base.parent = true then pathVisibility p fuel n.base.parent
       else true) && n.base.visibility

theorem pathTransform_fuel_congr {p : Pool Node} :
    ∀ fuel h d, p.upDepth fuel h = some d →
      ∀ f1 f2, d < f1 → d < f2 → pathTransform p f1 h = pathTransform p f2 h := by
  intro fuel
  induction fuel with
  | zero => intro h d hd; simp [upDepth] at hd
  | succ fuel ih =>
    intro h d hd f1 f2 h1 h2
    have hv := upDepth_valid hd
    obtain ⟨a, rfl⟩ : ∃ a, f1 = a + 1 := ⟨f1 - 1, by omega⟩
    obtain ⟨b, rfl⟩ : ∃ b, f2 = b + 1 := ⟨f2 - 1, by omega⟩
    obtain ⟨n, hb⟩ : ∃ n, p.borrow h = some n := by
      unfold isValidHandle at hv
      cases hbb : p.borrow h with
      | none => rw [hbb] at hv; simp at hv
      | some n => exact ⟨n, rfl⟩
    have hpar : p.parentP h = n.base.parent := by
      unfold parentP
      rw [hb]
      rfl
    unfold upDepth at hd
    rw [if_pos hv, hpar] at hd
    unfold pathTransform
    rw [hb]
    simp only []
    by_cases hp : p.isValidHandle n.base.parent = true
    · rw [if_pos hp] at hd
      cases hup : p.upDepth fuel n.base.parent with
      | none => rw [hup] at hd; simp at hd
      | some d' =>
        rw [hup] at hd
        simp at hd
        rw [if_pos hp, if_pos hp,
          ih n.base.parent d' hup a b (by omega) (by omega)]
    · rw [if_neg hp, if_neg hp]

theorem pathVisibility_fuel_congr {p : Pool Node} :
    ∀ fuel h d, p.upDepth fuel h = some d →
      ∀ f1 f2, d < f1 → d < f2 → pathVisibility p f1 h = pathVisibility p f2 h := by
  intro fuel
  induction fuel with
  | zero => intro h d hd; simp [upDepth] at hd
  | succ fuel ih =>
    intro h d hd f1 f2 h1 h2
    have hv := upDepth_valid hd
    obtain ⟨a, rfl⟩ : ∃ a, f1 = a + 1 := ⟨f1 - 1, by omega⟩
    obtain ⟨b, rfl⟩ : ∃ b, f2 = b + 1 := ⟨f2 - 1, by omega⟩
    obtain ⟨n, hb⟩ : ∃ n, p.borrow h = some n := by
      unfold isValidHandle at hv
      cases hbb : p.borrow h with
      | none => rw [hbb] at hv; simp at hv
      | some n => exact ⟨n, rfl⟩
    have hpar : p.parentP h = n.base.parent := by
      unfold parentP
      rw [hb]
      rfl
    unfold upDepth at hd
    rw [if_pos hv, hpar] at hd
    unfold pathVisibility
    rw [hb]
    simp only []
    by_cases hp : p.isValidHandle n.base.parent = true
    · rw [if_pos hp] at hd
      cases hup : p.upDepth fuel n.base.parent with
      | none => rw [hup] at hd; simp at hd
      | some d' =>
        rw [hup] at hd
        simp at hd
        rw [if_pos hp, if_pos hp,
          ih n.base.parent d' hup a b (by omega) (by omega)]
    · rw [if_neg hp, if_neg hp]

/-- The path products ignore updates that only touch the global fields. -/
theorem pathTransform_update {p : Pool Node} {h : Handle} {f : Node → Node}
    (hpar : ∀ n, (f n).base.parent = n.base.parent)
    (hloc : ∀ n, (f n).base.localTransform = n.base.localTransform) :
    ∀ fuel k, pathTransform (p.update h f) fuel k = pathTransform p fuel k := by
  intro fuel
  induction fuel with
  | zero => intro k; rfl
  | succ fuel ih =>
    intro k
    unfold pathTransform
    by_cases hk : k = h
    · subst hk
      rw [borrow_update_self]
      cases hb : p.borrow k with
      | none => rfl
      | some n =>
        simp only [Option.map_some']
        rw [hpar n, hloc n, valid_update_iff, ih]
    · rw [borrow_update_ne p f hk]
      cases hb : p.borrow k with
      | none => rfl
      | some n =>
        simp only []
        rw [valid_update_iff, ih]

theorem pathVisibility_update {p : Pool Node} {h : Handle} {f : Node → Node}
    (hpar : ∀ n, (f n).base.parent = n.base.parent)
    (hvis : ∀ n, (f n).base.visibility = n.base.visibility) :
    ∀ fuel k, pathVisibility (p.update h f) fuel k = pathVisibility p fuel k := by
  intro fuel
  induction fuel with
  | zero => intro k; rfl
  | succ fuel ih =>
    intro k
    unfold pathVisibility
    by_cases hk : k = h
    · subst hk
      rw [borrow_update_self]
      cases hb : p.borrow k with
      | none => rfl
      | some n =>
        simp only [Option.map_some']
        rw [hpar n, hvis n, valid_update_iff, ih]
    · rw [borrow_update_ne p f hk]
      cases hb : p.borrow k with
      | none => rfl
      | some n =>
        simp only []
        rw [valid_update_iff, ih]

end Pool

theorem Node.mapBase_congr {f1 f2 : BaseRec → BaseRec} (n : Node)
    (h : f1 n.base = f2 n.base) : n.mapBase f1 = n.mapBase f2 := by
  cases n <;> simp only [Node.mapBase, Node.base] at h ⊢ <;> rw [h]

namespace Graph

open Pool

/-- In a well-formed graph every live node is a descendant of the root. -/
theorem root_reaches_all {g : Graph} (hwf : g.wf) :
    ∀ k, g.pool.isValidHandle k = true → g.pool.DescP g.root k := by
  have hstep : ∀ d k, g.pool.isValidHandle k = true → g.pool.depthOf k = d →
      g.pool.DescP g.root k := by
    intro d
    induction d using Nat.strong_induction_on with
    | _ d ih =>
      intro k hk hd
      by_cases hkr : k = g.root
      · subst hkr
        exact DescP.refl _ hk
      · have hpv := (wf_at hwf hk hkr).1
        have hmem := wf_child_mem hwf hk hkr
        rw [childrenOf_eq, parentOf_eq] at hmem
        have hpv' : g.pool.isValidHandle (g.pool.parentP k) = true := by
          rw [← parentOf_eq]
          exact hpv
        have hdc := depthOf_child hwf.1 hpv' hmem
        have hanc := ih (g.pool.depthOf (g.pool.parentP k)) (by omega) _ hpv' rfl
        exact descP_snoc hwf.1 hanc hmem
  intro k hk
  exact hstep (g.pool.depthOf k) k hk rfl

/-- The subtree below the root fits inside one plus the total number of
children-list entries: each non-root subtree member sits in some live node's
children list, and the members are distinct. -/
theorem subtree_root_length_le {g : Graph} (hwf : g.wf) :
    (g.pool.subtreeListP (g.pool.getCapacity + 1) [g.root]).length
      ≤ 1 + totalChildren g.pool := by
  classical
  set L := g.pool.subtreeListP (g.pool.getCapacity + 1) [g.root] with hL
  have hnodup : L.Nodup := by
    refine subtreeListP_nodup hwf.1 _ _ ?_
    unfold StackDisj
    simp
  have hrootmem : g.root ∈ L := by
    rw [hL, mem_subtreeListP_iff hwf.1]
    exact DescP.refl _ hwf.2.1
  set A := ((g.pool.records.filterMap PoolRecord.payload).map
    fun n => n.base.children) with hA
  have hAlen : A.flatten.length = totalChildren g.pool := by
    rw [List.length_flatten, hA, List.map_map]
    rfl
  have hsub : L.erase g.root ⊆ A.flatten := by
    intro k hk
    rw [List.Nodup.mem_erase_iff hnodup] at hk
    obtain ⟨hkr, hkL⟩ := hk
    have hdk : g.pool.DescP g.root k := by
      rw [← mem_subtreeListP_iff hwf.1]
      exact hkL
    have hkv := descP_valid_right hdk
    have hmem := wf_child_mem hwf hkv hkr
    rw [childrenOf_eq, parentOf_eq] at hmem
    have hpv : g.pool.isValidHandle (g.pool.parentP k) = true := by
      rw [← parentOf_eq]
      exact (wf_at hwf hkv hkr).1
    obtain ⟨m, hbm⟩ : ∃ m, g.pool.borrow (g.pool.parentP k) = some m := by
      unfold Pool.isValidHandle at hpv
      cases hbb : g.pool.borrow (g.pool.parentP k) with
      | none => rw [hbb] at hpv; simp at hpv
      | some m => exact ⟨m, rfl⟩
    have hmA : m ∈ g.pool.records.filterMap PoolRecord.payload := by
      unfold Pool.borrow at hbm
      cases hg : g.pool.records[(g.pool.parentP k).index]? with
      | none => rw [hg] at hbm; simp at hbm
      | some r =>
        simp only [hg] at hbm
        by_cases hgen : r.generation = (g.pool.parentP k).generation
        · rw [if_pos hgen] at hbm
          exact List.mem_filterMap.mpr ⟨r, List.getElem?_mem hg, hbm⟩
        · rw [if_neg hgen] at hbm
          simp at hbm
    refine List.mem_flatten.mpr ⟨m.base.children, ?_, ?_⟩
    · rw [hA]
      exact List.mem_map.mpr ⟨m, hmA, rfl⟩
    · have := childrenP_of_borrow hbm
      rw [← this]
      exact hmem
  have hlen : (L.erase g.root).length ≤ A.flatten.length :=
    (List.subperm_of_subset (hnodup.erase g.root) hsub).length_le
  have hLlen : L.length = (L.erase g.root).length + 1 := by
    rw [List.length_erase_of_mem hrootmem]
    have := List.length_pos_of_mem hrootmem
    omega
  omega

end Graph

namespace Pool

/-- Forests transfer along pointwise-equal hierarchy state. -/
theorem forest_congr {p q : Pool Node} (hok : q.ok)
    (hcap : q.getCapacity = p.getCapacity)
    (hval : ∀ x, q.isValidHandle x = p.isValidHandle x)
    (hpar : ∀ x, q.parentP x = p.parentP x)
    (hch : ∀ x, q.childrenP x = p.childrenP x)
    (hf : p.forest) : q.forest := by
  refine ⟨hok, ?_⟩
  intro h hh
  rw [mem_liveHandles, hval] at hh
  obtain ⟨hkids, hnd, hdep⟩ := forest_at hf hh
  refine ⟨?_, ?_, ?_⟩
  · intro c hc
    rw [hch] at hc
    obtain ⟨hcv, hcp⟩ := hkids c hc
    exact ⟨by rw [hval]; exact hcv, by rw [hpar]; exact hcp⟩
  · rw [hch]
    exact hnd
  · rw [hcap, upDepth_congr hval hpar]
    exact hdep

end Pool

namespace Graph

open Pool

theorem pathTransform_succ (p : Pool Node) (fuel : Nat) (h : Handle) :
    pathTransform p (fuel + 1) h
      = match p.borrow h with
        | none => 1
        | some n =>
          (if p.isValidHandle n.base.parent = true then pathTransform p fuel n.base.parent
           else 1) * n.base.localTransform.matrix := rfl

theorem pathVisibility_succ (p : Pool Node) (fuel : Nat) (h : Handle) :
    pathVisibility p (fuel + 1) h
      = match p.borrow h with
        | none => true
        | some n =>
          ((if p.isValidHandle n.base.parent = true then pathVisibility p fuel n.base.parent
           else true) && n.base.visibility) := rfl

/-- Invariant proof for the iterative transform pass: every node below the
stack ends with the path products of the specification in its global fields
(its parents being already up to date), and every other node is untouched. -/
theorem updateTransformsLoop_spec :
    ∀ fuel stack (p : Pool Node),
      p.forest →
      (∀ y, p.isValidHandle y = true → p.isValidHandle (p.parentP y) = true →
        y ∈ p.childrenP (p.parentP y)) →
      StackDisj p stack →
      (∀ s ∈ stack, p.isValidHandle s = true) →
      (∀ s ∈ stack, p.isValidHandle (p.parentP s) = true →
        ∀ m, p.borrow (p.parentP s) = some m →
          m.base.globalTransform = pathTransform p (p.getCapacity + 1) (p.parentP s) ∧
          m.base.globalVisibility = pathVisibility p (p.getCapacity + 1) (p.parentP s)) →
      (∀ s ∈ stack, p.isValidHandle (p.parentP s) = false → p.parentP s = Handle.NONE) →
      (p.subtreeListP (p.getCapacity + 1) stack).length < fuel →
      (∀ k n, (∃ s ∈ stack, p.DescP s k) → p.borrow k = some n →
        (updateTransformsLoop fuel stack p).borrow k
          = some (n.mapBase fun b =>
              { b with
                globalTransform := pathTransform p (p.getCapacity + 1) k
                globalVisibility := pathVisibility p (p.getCapacity + 1) k })) ∧
      (∀ k, (∀ s ∈ stack, ¬ p.DescP s k) →
        (updateTransformsLoop fuel stack p).borrow k = p.borrow k) := by
  intro fuel
  induction fuel with
  | zero =>
    intro stack p _ _ _ _ _ _ hfuel
    exact absurd hfuel (Nat.not_lt_zero _)
  | succ fuel ih =>
    intro stack p hf hmemc hdisj hvs hdone hnone hfuel
    cases stack with
    | nil =>
      refine ⟨?_, ?_⟩
      · rintro k n ⟨s, hs, _⟩ _
        simp at hs
      · intro k _
        rfl
    | cons h rest =>
      have hdhead : ∀ b ∈ rest, ∀ k, p.DescP h k → p.DescP b k → False :=
        fun b hb => List.rel_of_pairwise_cons hdisj hb
      have hdtail : StackDisj p rest := List.Pairwise.of_cons hdisj
      have hv : p.isValidHandle h = true := hvs h (List.mem_cons_self h rest)
      obtain ⟨node, hb⟩ : ∃ node, p.borrow h = some node := by
        unfold Pool.isValidHandle at hv
        cases hbb : p.borrow h with
        | none => rw [hbb] at hv; simp at hv
        | some node => exact ⟨node, rfl⟩
      have hch : p.childrenP h = node.base.children := childrenP_of_borrow hb
      have hparh : p.parentP h = node.base.parent := by
        unfold Pool.parentP
        rw [hb]
        rfl
      have hdh := hdone h (List.mem_cons_self h rest)
      have hnh := hnone h (List.mem_cons_self h rest)
      set pg : Mat4 × Bool :=
        (if node.base.parent.isSomeH = true then
          match p.borrow node.base.parent with
          | some parent => (parent.base.globalTransform, parent.base.globalVisibility)
          | none => ((1 : Mat4), true)
        else ((1 : Mat4), true)) with hpg
      have hpgval : pg = (if p.isValidHandle (p.parentP h) = true then
          (pathTransform p (p.getCapacity + 1) (p.parentP h),
           pathVisibility p (p.getCapacity + 1) (p.parentP h))
        else ((1 : Mat4), true)) := by
        by_cases hp : p.isValidHandle (p.parentP h) = true
        · rw [if_pos hp]
          have hpne : node.base.parent ≠ Handle.NONE := by
            rw [← hparh]
            intro heq
            rw [heq, none_not_valid p hf.1] at hp
            simp at hp
          have hsome : node.base.parent.isSomeH = true := by
            unfold Handle.isSomeH
            simpa using hpne
          obtain ⟨m, hbm⟩ : ∃ m, p.borrow (p.parentP h) = some m := by
            unfold Pool.isValidHandle at hp
            cases hbb : p.borrow (p.parentP h) with
            | none => rw [hbb] at hp; simp at hp
            | some m => exact ⟨m, rfl⟩
          obtain ⟨hmg, hmv⟩ := hdh hp m hbm
          rw [hpg, if_pos hsome, ← hparh, hbm]
          simp only []
          rw [hmg, hmv]
        · rw [if_neg hp]
          have hpn : p.parentP h = Handle.NONE := hnh (by simpa using hp)
          have hnsome : ¬ (node.base.parent.isSomeH = true) := by
            unfold Handle.isSomeH
            rw [← hparh, hpn]
            simp
          rw [hpg, if_neg hnsome]
      have hpg1 : pg.1 = (if p.isValidHandle (p.parentP h) = true then
          pathTransform p (p.getCapacity + 1) (p.parentP h) else 1) := by
        rw [hpgval, apply_ite Prod.fst]
      have hpg2 : pg.2 = (if p.isValidHandle (p.parentP h) = true then
          pathVisibility p (p.getCapacity + 1) (p.parentP h) else true) := by
        rw [hpgval, apply_ite Prod.snd]
      have hunf : pathTransform p (p.getCapacity + 1) h
          = (if p.isValidHandle node.base.parent = true then
              pathTransform p p.getCapacity node.base.parent else 1)
            * node.base.localTransform.matrix := by
        rw [pathTransform_succ, hb]
      have hunfV : pathVisibility p (p.getCapacity + 1) h
          = ((if p.isValidHandle node.base.parent = true then
              pathVisibility p p.getCapacity node.base.parent else true)
            && node.base.visibility) := by
        rw [pathVisibility_succ, hb]
      have hTG : pg.1 * node.base.localTransform.matrix
          = pathTransform p (p.getCapacity + 1) h := by
        rw [hunf, hpg1, ← hparh]
        by_cases hp : p.isValidHandle (p.parentP h) = true
        · rw [if_pos hp, if_pos hp]
          have hdep := upDepth_depthOf hf hp
          have hle := upDepth_le_alive p hdep
          have hcap := aliveCount_le_capacity p
          rw [pathTransform_fuel_congr _ _ _ hdep (p.getCapacity + 1) p.getCapacity
            (by omega) (by omega)]
        · rw [if_neg hp, if_neg hp]
      have hTV : (pg.2 && node.base.visibility)
          = pathVisibility p (p.getCapacity + 1) h := by
        rw [hunfV, hpg2, ← hparh]
        by_cases hp : p.isValidHandle (p.parentP h) = true
        · rw [if_pos hp, if_pos hp]
          have hdep := upDepth_depthOf hf hp
          have hle := upDepth_le_alive p hdep
          have hcap := aliveCount_le_capacity p
          rw [pathVisibility_fuel_congr _ _ _ hdep (p.getCapacity + 1) p.getCapacity
            (by omega) (by omega)]
        · rw [if_neg hp, if_neg hp]
      have hstep : updateTransformsLoop (fuel + 1) (h :: rest) p
          = updateTransformsLoop fuel (node.base.children.reverse ++ rest)
            (p.update h (Node.mapBase fun b =>
              { b with
                globalTransform := pg.1 * b.localTransform.matrix
                globalVisibility := pg.2 && b.visibility })) := by
        rw [updateTransformsLoop, hb]
      rw [hstep]
      set f : Node → Node := Node.mapBase fun b =>
        { b with
          globalTransform := pg.1 * b.localTransform.matrix
          globalVisibility := pg.2 && b.visibility } with hfdef
      set p1 : Pool Node := p.update h f with hp1
      set stack' : List Handle := node.base.children.reverse ++ rest with hstack'
      have hfpar : ∀ m, (f m).base.parent = m.base.parent := by
        intro m
        cases m <;> rfl
      have hfch : ∀ m, (f m).base.children = m.base.children := by
        intro m
        cases m <;> rfl
      have hfloc : ∀ m, (f m).base.localTransform = m.base.localTransform := by
        intro m
        cases m <;> rfl
      have hfvis : ∀ m, (f m).base.visibility = m.base.visibility := by
        intro m
        cases m <;> rfl
      have hval1 : ∀ x, p1.isValidHandle x = p.isValidHandle x := by
        intro x
        rw [hp1]
        exact valid_update_iff p h x f
      have hpar1 : ∀ x, p1.parentP x = p.parentP x := by
        intro x
        rw [hp1]
        by_cases hx : x = h
        · subst hx
          unfold Pool.parentP
          rw [borrow_update_self]
          cases p.borrow x <;> simp [hfpar]
        · unfold Pool.parentP
          rw [borrow_update_ne p f hx]
      have hch1 : ∀ x, p1.childrenP x = p.childrenP x := by
        intro x
        rw [hp1]
        by_cases hx : x = h
        · subst hx
          unfold Pool.childrenP
          rw [borrow_update_self]
          cases p.borrow x <;> simp [hfch]
        · unfold Pool.childrenP
          rw [borrow_update_ne p f hx]
      have hcap1 : p1.getCapacity = p.getCapacity := by
        rw [hp1]
        exact records_length_update p h f
      have hok1 : p1.ok := by
        rw [hp1]
        exact update_ok p h f hf.1
      have hf1 : p1.forest := forest_congr hok1 hcap1 hval1 hpar1 hch1 hf
      have hdcongr : ∀ a k, p.DescP a k ↔ p1.DescP a k := DescP_congr hval1 hch1
      have hpath1 : ∀ k, pathTransform p1 (p1.getCapacity + 1) k
          = pathTransform p (p.getCapacity + 1) k := by
        intro k
        rw [hcap1, hp1]
        exact pathTransform_update hfpar hfloc _ k
      have hpathV1 : ∀ k, pathVisibility p1 (p1.getCapacity + 1) k
          = pathVisibility p (p.getCapacity + 1) k := by
        intro k
        rw [hcap1, hp1]
        exact pathVisibility_update hfpar hfvis _ k
      have hmemc1 : ∀ y, p1.isValidHandle y = true →
          p1.isValidHandle (p1.parentP y) = true → y ∈ p1.childrenP (p1.parentP y) := by
        intro y hy hpy
        rw [hval1] at hy
        rw [hpar1, hval1] at hpy
        rw [hpar1, hch1]
        exact hmemc y hy hpy
      have hdisjP : StackDisj p stack' := by
        rw [hstack']
        rw [StackDisj, List.pairwise_append]
        refine ⟨?_, hdtail, ?_⟩
        · rw [List.pairwise_reverse]
          have hnd : (p.childrenP h).Nodup := (forest_at hf hv).2.1
          rw [hch] at hnd
          refine hnd.imp_of_mem ?_
          intro a b ha hb' hne
          have ha' : a ∈ p.childrenP h := by rw [hch]; exact ha
          have hb'' : b ∈ p.childrenP h := by rw [hch]; exact hb'
          exact sibling_disjoint hf hv hb'' ha' (Ne.symm hne)
        · intro a ha b hb' k hka hkb
          have ha' : a ∈ p.childrenP h := by
            rw [hch]
            exact List.mem_reverse.mp ha
          exact hdhead b hb' k (DescP.child hv ha' hka) hkb
      have hdisj1 : StackDisj p1 stack' := by
        refine hdisjP.imp ?_
        intro a b hr k hka hkb
        exact hr k ((hdcongr a k).mpr hka) ((hdcongr b k).mpr hkb)
      have hvs1 : ∀ s ∈ stack', p1.isValidHandle s = true := by
        intro s hs
        rw [hval1]
        rcases List.mem_append.mp hs with hsc | hsr
        · have hsc' : s ∈ p.childrenP h := by
            rw [hch]
            exact List.mem_reverse.mp hsc
          exact ((forest_at hf hv).1 s hsc').1
        · exact hvs s (List.mem_cons_of_mem h hsr)
      have hbp1h : p1.borrow h = some (f node) := by
        rw [hp1, borrow_update_self, hb]
        rfl
      have hfglobals : (f node).base.globalTransform
            = pathTransform p (p.getCapacity + 1) h
          ∧ (f node).base.globalVisibility
            = pathVisibility p (p.getCapacity + 1) h := by
        rw [hfdef]
        constructor
        · show (Node.mapBase _ node).base.globalTransform = _
          rw [Node.base_mapBase]
          exact hTG
        · show (Node.mapBase _ node).base.globalVisibility = _
          rw [Node.base_mapBase]
          exact hTV
      have hdone1 : ∀ s ∈ stack', p1.isValidHandle (p1.parentP s) = true →
          ∀ m, p1.borrow (p1.parentP s) = some m →
            m.base.globalTransform = pathTransform p1 (p1.getCapacity + 1) (p1.parentP s) ∧
            m.base.globalVisibility
              = pathVisibility p1 (p1.getCapacity + 1) (p1.parentP s):= by
        intro s hs hps m hbm
        rw [hpar1] at hps hbm ⊢
        rw [hpath1, hpathV1]
        by_cases hsph : p.parentP s = h
        · rw [hsph] at hbm ⊢
          rw [hbp1h] at hbm
          have hm : m = f node := by
            simpa using hbm.symm
          rw [hm]
          exact hfglobals
        · rw [hp1, borrow_update_ne p f hsph] at hbm
          rw [hval1] at hps
          have hsr : s ∈ rest := by
            rcases List.mem_append.mp hs with hsc | hsr
            · exfalso
              have hsc' : s ∈ p.childrenP h := by
                rw [hch]
                exact List.mem_reverse.mp hsc
              exact hsph ((forest_at hf hv).1 s hsc').2
            · exact hsr
          exact hdone s (List.mem_cons_of_mem h hsr) hps m hbm
      have hnone1 : ∀ s ∈ stack', p1.isValidHandle (p1.parentP s) = false →
          p1.parentP s = Handle.NONE := by
        intro s hs hps
        rw [hpar1] at hps ⊢
        rw [hval1] at hps
        rcases List.mem_append.mp hs with hsc | hsr
        · exfalso
          have hsc' : s ∈ p.childrenP h := by
            rw [hch]
            exact List.mem_reverse.mp hsc
          have := ((forest_at hf hv).1 s hsc').2
          rw [this, hv] at hps
          simp at hps
        · exact hnone s (List.mem_cons_of_mem h hsr) hps
      have hnotin : ∀ s ∈ stack', ¬ p.DescP s h := by
        intro s hs hd
        rcases List.mem_append.mp hs with hsc | hsr
        · have hsc' : s ∈ p.childrenP h := by
            rw [hch]
            exact List.mem_reverse.mp hsc
          exact not_descP_child_self hf hv hsc' hd
        · exact hdhead s hsr h (DescP.refl h hv) hd
      have hmemL : ∀ k, k ∈ p.subtreeListP (p.getCapacity + 1) (h :: rest)
          ↔ (k = h ∨ ∃ s ∈ stack', p.DescP s k) := by
        intro k
        rw [mem_subtreeList_list_iff hf]
        constructor
        · rintro ⟨s, hs, hd⟩
          rcases List.mem_cons.mp hs with heq | hmem
          · subst heq
            rcases descP_cases hd with heq | ⟨c, hc, hcd⟩
            · exact Or.inl heq
            · right
              refine ⟨c, ?_, hcd⟩
              rw [hstack']
              refine List.mem_append_left _ ?_
              rw [List.mem_reverse]
              rw [hch] at hc
              exact hc
          · exact Or.inr ⟨s, List.mem_append_right _ hmem, hd⟩
        · rintro (heq | ⟨s, hs, hd⟩)
          · subst heq
            exact ⟨k, List.mem_cons_self k rest, DescP.refl k hv⟩
          · rcases List.mem_append.mp hs with hsc | hsr
            · have hsc' : s ∈ p.childrenP h := by
                rw [hch]
                exact List.mem_reverse.mp hsc
              exact ⟨h, List.mem_cons_self h rest, DescP.child hv hsc' hd⟩
            · exact ⟨s, List.mem_cons_of_mem h hsr, hd⟩
      have hsub1 : p1.subtreeListP (p1.getCapacity + 1) stack'
          = p.subtreeListP (p.getCapacity + 1) stack' := by
        rw [hcap1]
        refine subtreeListP_congr (fun _ => True) (fun _ _ _ _ => trivial)
          (fun x _ => hval1 x) (fun x _ => hch1 x) _ _ (fun _ _ => trivial)
      have hfuel1 : (p1.subtreeListP (p1.getCapacity + 1) stack').length < fuel := by
        rw [hsub1]
        have hLno := subtreeListP_nodup hf (p.getCapacity + 1) (h :: rest) hdisj
        have hRno := subtreeListP_nodup hf (p.getCapacity + 1) stack' hdisjP
        have hhead : h ∉ p.subtreeListP (p.getCapacity + 1) stack' := by
          intro hmm
          obtain ⟨s, hs, hd⟩ := (mem_subtreeList_list_iff hf stack' h).mp hmm
          exact hnotin s hs hd
        have hperm : List.Perm (p.subtreeListP (p.getCapacity + 1) (h :: rest))
            (h :: p.subtreeListP (p.getCapacity + 1) stack') := by
          rw [List.perm_ext_iff_of_nodup hLno (List.Nodup.cons hhead hRno)]
          intro k
          rw [hmemL k, List.mem_cons, mem_subtreeList_list_iff hf]
        have hlen := hperm.length_eq
        simp only [List.length_cons] at hlen
        omega
      obtain ⟨ih1, ih2⟩ := ih stack' p1 hf1 hmemc1 hdisj1 hvs1 hdone1 hnone1 hfuel1
      have hnotin1 : ∀ s ∈ stack', ¬ p1.DescP s h :=
        fun s hs hd => hnotin s hs ((hdcongr s h).mpr hd)
      refine ⟨?_, ?_⟩
      · rintro k n ⟨s, hs, hd⟩ hbk
        have hk : k = h ∨ ∃ s' ∈ stack', p.DescP s' k := by
          rw [← hmemL k, mem_subtreeList_list_iff hf]
          exact ⟨s, hs, hd⟩
        rcases hk with heq | ⟨s', hs', hd'⟩
        · subst heq
          have hn : n = node := by
            rw [hb] at hbk
            simpa using hbk.symm
          rw [ih2 k hnotin1, hbp1h, hn]
          refine congrArg some ?_
          rw [hfdef]
          refine Node.mapBase_congr node ?_
          rw [hTG, hTV]
        · have hkh : k ≠ h := by
            intro heq
            exact hnotin s' hs' (heq ▸ hd')
          have hbk1 : p1.borrow k = some n := by
            rw [hp1, borrow_update_ne p f hkh]
            exact hbk
          have := ih1 k n ⟨s', hs', (hdcongr s' k).mp hd'⟩ hbk1
          rw [hpath1, hpathV1] at this
          exact this
      · intro k hk
        have hkh : k ≠ h := by
          intro heq
          exact hk h (List.mem_cons_self h rest) (heq ▸ DescP.refl h hv)
        have hk1 : ∀ s ∈ stack', ¬ p1.DescP s k := by
          intro s hs hd
          have hdp := (hdcongr s k).mpr hd
          rcases List.mem_append.mp hs with hsc | hsr
          · have hsc' : s ∈ p.childrenP h := by
              rw [hch]
              exact List.mem_reverse.mp hsc
            exact hk h (List.mem_cons_self h rest) (DescP.child hv hsc' hdp)
          · exact hk s (List.mem_cons_of_mem h hsr) hdp
        rw [ih2 k hk1, hp1, borrow_update_ne p f hkh]

end Graph

namespace Graph

open Pool

/-- After `update_transforms`, every node of a well-formed graph carries the
path products of the specification in its global fields, all other fields
unchanged. -/
theorem updateTransforms_spec {g : Graph} (hwf : g.wf) :
    ∀ k n, g.pool.borrow k = some n →
      (g.updateTransforms).pool.borrow k
        = some (n.mapBase fun b =>
            { b with
              globalTransform := pathTransform g.pool (g.pool.getCapacity + 1) k
              globalVisibility := pathVisibility g.pool (g.pool.getCapacity + 1) k }) := by
  intro k n hbk
  have hv : g.pool.isValidHandle k = true := isValid_of_borrow hbk
  have hpool : (g.updateTransforms).pool
      = updateTransformsLoop (2 + totalChildren g.pool) [g.root] g.pool := rfl
  have hdisj : StackDisj g.pool [g.root] := by
    unfold StackDisj
    simp
  have hvs : ∀ s ∈ [g.root], g.pool.isValidHandle s = true := by
    intro s hs
    simp at hs
    subst hs
    exact hwf.2.1
  have hdone : ∀ s ∈ [g.root], g.pool.isValidHandle (g.pool.parentP s) = true →
      ∀ m, g.pool.borrow (g.pool.parentP s) = some m →
        m.base.globalTransform
          = pathTransform g.pool (g.pool.getCapacity + 1) (g.pool.parentP s) ∧
        m.base.globalVisibility
          = pathVisibility g.pool (g.pool.getCapacity + 1) (g.pool.parentP s) := by
    intro s hs hps
    exfalso
    simp at hs
    subst hs
    rw [← parentOf_eq, hwf.2.2.1, none_not_valid _ hwf.1.1] at hps
    simp at hps
  have hnone : ∀ s ∈ [g.root], g.pool.isValidHandle (g.pool.parentP s) = false →
      g.pool.parentP s = Handle.NONE := by
    intro s hs _
    simp at hs
    subst hs
    rw [← parentOf_eq]
    exact hwf.2.2.1
  have hfuel : (g.pool.subtreeListP (g.pool.getCapacity + 1) [g.root]).length
      < 2 + totalChildren g.pool := by
    have := subtree_root_length_le hwf
    omega
  obtain ⟨h1, _⟩ := updateTransformsLoop_spec (2 + totalChildren g.pool) [g.root] g.pool
    hwf.1 (wf_mem_clause hwf) hdisj hvs hdone hnone hfuel
  rw [hpool]
  exact h1 k n ⟨g.root, by simp, root_reaches_all hwf k hv⟩ hbk

end Graph

/-! ## Operation sequences -/

/-- One hierarchy-mutating operation of the graph interface. -/
inductive GraphOp where
  | add (v : Node)
  | link (c t : Handle)
  | unlink (h : Handle)
  | remove (h : Handle)

namespace Graph

open Pool

/-- Apply one operation. -/
def applyOp (g : Graph) : GraphOp → Graph
  | .add v => (g.addNode v).2
  | .link c t => g.linkNodes c t
  | .unlink h => g.unlinkNode h
  | .remove h => g.removeNode h

/-- The operation's precondition: handles are valid and non-root, a linked
child does not contain its new parent in its subtree (the documented no-cycle
precondition), an added node starts detached and childless. -/
def opOk (g : Graph) : GraphOp → Prop
  | .add v => v.base.parent = Handle.NONE ∧ v.base.children = []
  | .link c t => g.isValid c = true ∧ c ≠ g.root ∧ g.isValid t = true ∧
      ¬ g.pool.DescP c t
  | .unlink h => g.isValid h = true ∧ h ≠ g.root
  | .remove h => g.isValid h = true ∧ h ≠ g.root

/-- Apply a sequence of operations left to right. -/
def applyOps (g : Graph) : List GraphOp → Graph
  | [] => g
  | op :: ops => applyOps (g.applyOp op) ops

/-- Every operation of the sequence satisfies its precondition in the state
it runs in. -/
def opsOk (g : Graph) : List GraphOp → Prop
  | [] => True
  | op :: ops => g.opOk op ∧ opsOk (g.applyOp op) ops

theorem wf_applyOp {g : Graph} (hwf : g.wf) {op : GraphOp} (hop : g.opOk op) :
    (g.applyOp op).wf := by
  cases op with
  | add v => exact wf_addNode hwf hop.1 hop.2
  | link c t => exact wf_linkNodes hwf hop.1 hop.2.1 hop.2.2.1 hop.2.2.2
  | unlink h => exact wf_unlinkNode hwf hop.1 hop.2
  | remove h => exact (removeNode_spec hwf hop.1 hop.2).2.2.2.2

theorem wf_applyOps : ∀ (ops : List GraphOp) (g : Graph), g.wf → g.opsOk ops →
    (g.applyOps ops).wf := by
  intro ops
  induction ops with
  | nil => intro g hwf _; exact hwf
  | cons op rest ih =>
    intro g hwf hops
    exact ih (g.applyOp op) (wf_applyOp hwf hops.1) hops.2

end Graph

/-- C1: for every well-formed graph and every finite sequence of `add_node`,
`link_nodes` (under its documented no-cycle precondition), `unlink_node` and
`remove_node` operations applied to non-root, valid handles, the resulting
graph satisfies the three hierarchy invariants: exactly the root is live and
parentless, every other live entity appears exactly once in its parent's
children list, and the parent/children relation is acyclic (no entity is a
descendant of one of its own children). -/
theorem C1_op_sequences_preserve_invariants (g : Graph) (ops : List GraphOp)
    (hwf : g.wf) (hops : g.opsOk ops) :
    (∀ k, (g.applyOps ops).isValid k = true →
      ((g.applyOps ops).parentOf k = Handle.NONE ↔ k = (g.applyOps ops).root)) ∧
    (∀ k, (g.applyOps ops).isValid k = true → k ≠ (g.applyOps ops).root →
      ((g.applyOps ops).childrenOf ((g.applyOps ops).parentOf k)).count k = 1) ∧
    (∀ k c, (g.applyOps ops).pool.isValidHandle k = true →
      c ∈ (g.applyOps ops).pool.childrenP k →
      ¬ (g.applyOps ops).pool.DescP c k) := by
  have hw := Graph.wf_applyOps ops g hwf hops
  refine ⟨?_, ?_, ?_⟩
  · intro k hk
    constructor
    · intro hpn
      by_contra hkr
      have h1 := (Graph.wf_at hw hk hkr).1
      rw [hpn, Graph.isValid_def, Pool.none_not_valid _ hw.1.1] at h1
      simp at h1
    · intro hkr
      subst hkr
      exact hw.2.2.1
  · intro k hk hkr
    exact (Graph.wf_at hw hk hkr).2
  · intro k c hk hc
    exact Pool.not_descP_child_self hw.1 hk hc

theorem C1_op_sequences_preserve_invariants_witness :
    Graph.newGraph.wf ∧
    Graph.newGraph.opsOk [GraphOp.add (Node.Base Base.defaultBase)] ∧
    ((Graph.newGraph.applyOps [GraphOp.add (Node.Base Base.defaultBase)]).parentOf
        (Graph.newGraph.applyOps [GraphOp.add (Node.Base Base.defaultBase)]).root
          = Handle.NONE
      ↔ (Graph.newGraph.applyOps [GraphOp.add (Node.Base Base.defaultBase)]).root
        = (Graph.newGraph.applyOps [GraphOp.add (Node.Base Base.defaultBase)]).root) :=
  ⟨by decide, ⟨⟨rfl, rfl⟩, trivial⟩,
    (C1_op_sequences_preserve_invariants Graph.newGraph
        [GraphOp.add (Node.Base Base.defaultBase)] (by decide) ⟨⟨rfl, rfl⟩, trivial⟩).1
      _ (by decide)⟩

/-- C2: after `update_transforms()` on a well-formed tree-shaped graph, every
node's `global_transform` equals the left-to-right product of the local
transform matrices along the root-to-node path (`pathTransform`, root
leftmost, the root's implicit parent contributing the identity) and its
`global_visibility` equals the conjunction of the local visibility flags
along that path (`pathVisibility`); all other fields are unchanged. -/
theorem C2_update_transforms_path_products {g : Graph} (hwf : g.wf) :
    ∀ k n, g.pool.borrow k = some n →
      g.updateTransforms.pool.borrow k
        = some (n.mapBase fun b =>
            { b with
              globalTransform := Pool.pathTransform g.pool (g.pool.getCapacity + 1) k
              globalVisibility := Pool.pathVisibility g.pool (g.pool.getCapacity + 1) k }) :=
  Graph.updateTransforms_spec hwf

theorem C2_update_transforms_path_products_witness :
    Graph.newGraph.wf ∧
    Graph.newGraph.updateTransforms.pool.borrow Graph.newGraph.root
      = some ((Node.Base { Base.defaultBase with name := "__ROOT__" }).mapBase fun b =>
          { b with
            globalTransform := Pool.pathTransform Graph.newGraph.pool
              (Graph.newGraph.pool.getCapacity + 1) Graph.newGraph.root
            globalVisibility := Pool.pathVisibility Graph.newGraph.pool
              (Graph.newGraph.pool.getCapacity + 1) Graph.newGraph.root }) :=
  ⟨by decide, C2_update_transforms_path_products (by decide) Graph.newGraph.root _ rfl⟩

/-- A one-child sample graph: the fresh root plus one default node linked
under it. -/
def sampleGraph : Graph := (Graph.newGraph.addNode (Node.Base Base.defaultBase)).2

/-- The handle of the added node of `sampleGraph`. -/
def sampleChild : Handle := (Graph.newGraph.addNode (Node.Base Base.defaultBase)).1

/-- C3: on a well-formed graph, `remove_node(h)` frees exactly `h` and its
transitive descendants, the live count drops by exactly the subtree size, and
`h` leaves its former parent's children sequence. -/
theorem C3_remove_node_frees_subtree {g : Graph} (hwf : g.wf) {h : Handle}
    (hv : g.isValid h = true) (hne : h ≠ g.root) :
    (∀ k, (g.removeNode h).pool.isValidHandle k = true ↔
      (g.pool.isValidHandle k = true ∧ ¬ g.pool.DescP h k)) ∧
    (g.removeNode h).pool.aliveCount + (g.subtreeOf h).length = g.pool.aliveCount ∧
    h ∉ (g.removeNode h).pool.childrenP (g.parentOf h) := by
  obtain ⟨h1, h2, h3, _, _⟩ := Graph.removeNode_spec hwf hv hne
  refine ⟨h1, h2, ?_⟩
  rw [h3]
  intro hmem
  obtain ⟨hpv, _, _, _⟩ := Graph.parent_facts hwf hv hne
  have hnd : (g.pool.childrenP (g.parentOf h)).Nodup :=
    (Pool.forest_at hwf.1 (show g.pool.isValidHandle (g.parentOf h) = true from hpv)).2.1
  rw [List.Nodup.mem_erase_iff hnd] at hmem
  exact hmem.1 rfl

theorem C3_remove_node_frees_subtree_witness :
    sampleGraph.wf ∧ sampleGraph.isValid sampleChild = true ∧
    sampleChild ≠ sampleGraph.root ∧
    (sampleGraph.removeNode sampleChild).pool.aliveCount
        + (sampleGraph.subtreeOf sampleChild).length
      = sampleGraph.pool.aliveCount :=
  ⟨by decide, by decide, by decide,
    (C3_remove_node_frees_subtree (by decide) (by decide) (by decide)).2.1⟩

/-! ## The resolve scenario of the specification -/

/-- Template graph: a root, a node named `Bone`, and a mesh named `Mesh` with
one surface whose bone list references the template `Bone` node. -/
def c5tplBoneAdd := Graph.newGraph.addNode (Node.Base { Base.defaultBase with name := "Bone" })

def c5tplBone : Handle := c5tplBoneAdd.1

def c5tplMeshAdd := c5tplBoneAdd.2.addNode
  (Node.Mesh { Base.defaultBase with name := "Mesh" } [⟨[c5tplBone], 7⟩])

def c5tpl : Graph := c5tplMeshAdd.2

def c5env : ResourceEnv := [c5tpl]

/-- Live graph: root `R`, child `A` named `Bone`, child `B` of `A` named
`Mesh`, both instantiated from the template resource. `B` is spawned first so
that `A`'s live handle differs from the template `Bone` handle. -/
def c5addB := Graph.newGraph.addNode
  (Node.Mesh { Base.defaultBase with name := "Mesh", resource := some 0 } [])

def c5hB : Handle := c5addB.1

def c5addA := c5addB.2.addNode
  (Node.Base { Base.defaultBase with name := "Bone", resource := some 0 })

def c5hA : Handle := c5addA.1

def c5live : Graph := c5addA.2.linkNodes c5hB c5hA

def c5resolved : Graph := Graph.resolve c5env c5live

/-- C5: in the specification's scenario (root `R`, child `A` named `Bone`,
child `B` of `A` named `Mesh` whose resource template holds a `Bone` node and
a `Mesh` node with one surface referencing the template bone), `resolve()`
makes `B`'s surface list equal to the resource mesh's surfaces with the bone
handle replaced by `A`'s live handle — not the resource node's handle —
while pass 1 resolved `A`'s `original` to the template `Bone` handle. -/
theorem C5_resolve_scenario :
    ((c5resolved.pool.borrow c5hB).map Node.surfaces = some [⟨[c5hA], 7⟩]) ∧
    ((c5resolved.pool.borrow c5hA).map (fun n => n.base.original) = some c5tplBone) ∧
    c5hA ≠ c5tplBone := by decide

/-- C9: the graph's visit stops fatally in reading direction exactly when the
backing arena has nonzero capacity; a write-direction visit never stops this
way, and loading into the freshly-constructed empty graph proceeds. -/
theorem C9_load_requires_empty_arena :
    (∀ g : Graph, Graph.loadFatal true g = true ↔ g.pool.getCapacity ≠ 0) ∧
    (∀ b : Bool, Graph.loadFatal b Graph.defaultGraph = false) ∧
    (∀ g : Graph, Graph.loadFatal false g = false) := by
  refine ⟨?_, ?_, ?_⟩
  · intro g
    unfold Graph.loadFatal
    simp
  · intro b
    cases b <;> rfl
  · intro g
    rfl

/-! ## Scene physics synchronisation -/

namespace Scene

open Pool

/-- The node-update step of `Scene::update_physics` over the surviving
binder entries. -/
def syncStep (physics : Physics) (g : Graph) (nb : Handle × Handle) : Graph :=
  match physics.borrowBody nb.2 with
  | some body =>
    g.updateNode nb.1 (Node.mapBase fun b =>
      { b with localTransform := b.localTransform.setPosition body.position })
  | none => g

theorem updatePhysics_eq (s : Scene) (step : Physics → Physics) :
    s.updatePhysics step =
      { graph := (s.physicsBinder.nodeRigidBodyMap.filter fun nb =>
            s.graph.isValid nb.1 && (step s.physics).isValidBodyHandle nb.2).foldl
          (syncStep (step s.physics)) s.graph
        physics := step s.physics
        physicsBinder := ⟨s.physicsBinder.nodeRigidBodyMap.filter fun nb =>
          s.graph.isValid nb.1 && (step s.physics).isValidBodyHandle nb.2⟩ } := rfl

theorem syncFold_borrow_ne (physics : Physics) :
    ∀ (l : List (Handle × Handle)) (g : Graph) (k : Handle),
      (∀ nb ∈ l, nb.1 ≠ k) →
      (l.foldl (syncStep physics) g).pool.borrow k = g.pool.borrow k := by
  intro l
  induction l with
  | nil => intro g k _; rfl
  | cons nb rest ih =>
    intro g k hk
    show (rest.foldl (syncStep physics) (syncStep physics g nb)).pool.borrow k = _
    rw [ih _ k (fun e he => hk e (List.mem_cons_of_mem nb he))]
    unfold syncStep
    cases physics.borrowBody nb.2 with
    | none => rfl
    | some body =>
      exact borrow_update_ne g.pool _ (hk nb (List.mem_cons_self nb rest)).symm

theorem syncFold_valid (physics : Physics) :
    ∀ (l : List (Handle × Handle)) (g : Graph) (k : Handle),
      (l.foldl (syncStep physics) g).pool.isValidHandle k = g.pool.isValidHandle k := by
  intro l
  induction l with
  | nil => intro g k; rfl
  | cons nb rest ih =>
    intro g k
    show (rest.foldl (syncStep physics) (syncStep physics g nb)).pool.isValidHandle k = _
    rw [ih]
    unfold syncStep
    cases physics.borrowBody nb.2 with
    | none => rfl
    | some body => exact valid_update_iff g.pool _ k _

theorem syncFold_sets (physics : Physics) :
    ∀ (l : List (Handle × Handle)) (g : Graph), (l.map Prod.fst).Nodup →
      ∀ nb ∈ l, ∀ body, physics.borrowBody nb.2 = some body →
        (l.foldl (syncStep physics) g).pool.borrow nb.1
          = (g.pool.borrow nb.1).map (Node.mapBase fun b =>
              { b with localTransform := b.localTransform.setPosition body.position }) := by
  intro l
  induction l with
  | nil =>
    intro g _ nb hnb
    simp at hnb
  | cons nb0 rest ih =>
    intro g hnd nb hnb body hbody
    have hnd0 : nb0.1 ∉ rest.map Prod.fst := by
      rw [List.map_cons] at hnd
      exact (List.nodup_cons.mp hnd).1
    have hndr : (rest.map Prod.fst).Nodup := by
      rw [List.map_cons] at hnd
      exact (List.nodup_cons.mp hnd).2
    rcases List.mem_cons.mp hnb with heq | hmem
    · subst heq
      show (rest.foldl (syncStep physics) (syncStep physics g nb)).pool.borrow nb.1 = _
      rw [syncFold_borrow_ne physics rest _ nb.1 ?_]
      · unfold syncStep
        rw [hbody]
        show (g.updateNode nb.1 _).pool.borrow nb.1 = _
        rw [Graph.updateNode_pool, borrow_update_self]
      · intro e he heq
        exact hnd0 (heq ▸ List.mem_map_of_mem Prod.fst he)
    · show (rest.foldl (syncStep physics) (syncStep physics g nb0)).pool.borrow nb.1 = _
      have hne : nb.1 ≠ nb0.1 := by
        intro heq
        exact hnd0 (heq ▸ List.mem_map_of_mem Prod.fst hmem)
      have hpres : (syncStep physics g nb0).pool.borrow nb.1 = g.pool.borrow nb.1 := by
        unfold syncStep
        cases physics.borrowBody nb0.2 with
        | none => rfl
        | some body0 =>
          show (g.updateNode nb0.1 _).pool.borrow nb.1 = _
          rw [Graph.updateNode_pool, borrow_update_ne g.pool _ hne]
      rw [ih (syncStep physics g nb0) hndr nb hmem body hbody, hpres]

end Scene

/-- C7: after `Scene::update_physics` (the external solver step passed as
`step`), every binder entry's node is alive in the scene graph and its body
alive in the physics world; a node whose body was freed externally is no
longer bound; and every surviving binding's node has its local position set
to its body's position. The binder keys are assumed distinct, as in the
source's `HashMap`. -/
theorem C7_update_physics_prunes_and_syncs (s : Scene) (step : Physics → Physics)
    (hnd : (s.physicsBinder.nodeRigidBodyMap.map Prod.fst).Nodup) :
    (∀ nb ∈ (s.updatePhysics step).physicsBinder.nodeRigidBodyMap,
      (s.updatePhysics step).graph.isValid nb.1 = true ∧
      (s.updatePhysics step).physics.isValidBodyHandle nb.2 = true) ∧
    (∀ N H, (N, H) ∈ s.physicsBinder.nodeRigidBodyMap →
      (step s.physics).isValidBodyHandle H = false →
      ∀ H', (N, H') ∉ (s.updatePhysics step).physicsBinder.nodeRigidBodyMap) ∧
    (∀ nb ∈ (s.updatePhysics step).physicsBinder.nodeRigidBodyMap,
      ∃ body n, (s.updatePhysics step).physics.borrowBody nb.2 = some body ∧
        (s.updatePhysics step).graph.pool.borrow nb.1 = some n ∧
        n.base.localTransform.position = body.position) := by
  rw [Scene.updatePhysics_eq]
  set physics := step s.physics with hphys
  set binder := s.physicsBinder.nodeRigidBodyMap.filter fun nb =>
    s.graph.isValid nb.1 && physics.isValidBodyHandle nb.2 with hbinder
  have hbnd : (binder.map Prod.fst).Nodup :=
    ((List.filter_sublist _).map Prod.fst).nodup hnd
  refine ⟨?_, ?_, ?_⟩
  · intro nb hnb
    have hmm := List.mem_filter.mp hnb
    obtain ⟨h1, h2⟩ : s.graph.isValid nb.1 = true ∧ physics.isValidBodyHandle nb.2 = true := by
      simpa using hmm.2
    constructor
    · show (binder.foldl (Scene.syncStep physics) s.graph).pool.isValidHandle nb.1 = true
      rw [Scene.syncFold_valid]
      exact h1
    · exact h2
  · intro N H hNH hdead H' hmem
    have hmm := List.mem_filter.mp hmem
    obtain ⟨h1, h2⟩ : s.graph.isValid N = true ∧ physics.isValidBodyHandle H' = true := by
      simpa using hmm.2
    have hkey : H' = H := by
      have hinj := List.inj_on_of_nodup_map hnd
      exact congrArg Prod.snd (hinj hmm.1 hNH rfl)
    rw [hkey] at h2
    rw [h2] at hdead
    simp at hdead
  · intro nb hnb
    have hmm := List.mem_filter.mp hnb
    obtain ⟨h1, h2⟩ : s.graph.isValid nb.1 = true ∧ physics.isValidBodyHandle nb.2 = true := by
      simpa using hmm.2
    obtain ⟨body, hbody⟩ : ∃ body, physics.borrowBody nb.2 = some body := by
      unfold Physics.borrowBody
      unfold Physics.isValidBodyHandle Pool.isValidHandle at h2
      cases hbb : physics.bodies.borrow nb.2 with
      | none => rw [hbb] at h2; simp at h2
      | some body => exact ⟨body, rfl⟩
    obtain ⟨n0, hn0⟩ : ∃ n0, s.graph.pool.borrow nb.1 = some n0 := by
      rw [Graph.isValid_def] at h1
      unfold Pool.isValidHandle at h1
      cases hbb : s.graph.pool.borrow nb.1 with
      | none => rw [hbb] at h1; simp at h1
      | some n0 => exact ⟨n0, rfl⟩
    refine ⟨body, (n0.mapBase fun b =>
      { b with localTransform := b.localTransform.setPosition body.position }), hbody, ?_, ?_⟩
    · show (binder.foldl (Scene.syncStep physics) s.graph).pool.borrow nb.1 = _
      rw [Scene.syncFold_sets physics binder s.graph hbnd nb hnb body hbody, hn0]
      rfl
    · rw [Node.base_mapBase]
      rfl

/-- A one-body physics world. -/
def c7bodyAdd := (Pool.new (α := RigidBody)).spawn ⟨⟨1, 2, 3⟩⟩

def c7bH : Handle := c7bodyAdd.1

def c7scene : Scene := ⟨sampleGraph, ⟨c7bodyAdd.2⟩, ⟨[(sampleChild, c7bH)]⟩⟩

/-- An external step that frees the bound body. -/
def c7step : Physics → Physics := fun p => ⟨p.bodies.free c7bH⟩

theorem C7_update_physics_prunes_and_syncs_witness :
    (c7scene.physicsBinder.nodeRigidBodyMap.map Prod.fst).Nodup ∧
    (sampleChild, c7bH) ∉ (c7scene.updatePhysics c7step).physicsBinder.nodeRigidBodyMap :=
  ⟨by decide,
    (C7_update_physics_prunes_and_syncs c7scene c7step (by decide)).2.1
      sampleChild c7bH (by decide) (by decide) c7bH⟩

/-! ## Per-frame lifetime handling -/

namespace Pool

theorem free_gen (p : Pool α) (h : Handle) (i : Nat) :
    ((p.free h).records[i]?).map PoolRecord.generation
      = (p.records[i]?).map PoolRecord.generation := by
  unfold free
  cases hg : p.records[h.index]? with
  | none => rfl
  | some r =>
    simp only []
    by_cases hc : r.generation = h.generation ∧ r.payload.isSome = true
    · rw [if_pos hc]
      by_cases hi : h.index = i
      · subst hi
        simp only []
        rw [List.getElem?_set_self (List.getElem?_eq_some_iff.mp hg).1, hg]
        rfl
      · simp only []
        rw [List.getElem?_set_ne hi]
    · rw [if_neg hc]

theorem update_gen (p : Pool α) (h : Handle) (f : α → α) (i : Nat) :
    ((p.update h f).records[i]?).map PoolRecord.generation
      = (p.records[i]?).map PoolRecord.generation := by
  unfold update
  cases hg : p.records[h.index]? with
  | none => rfl
  | some r =>
    simp only []
    by_cases hc : r.generation = h.generation
    · rw [if_pos hc]
      by_cases hi : h.index = i
      · subst hi
        simp only []
        rw [List.getElem?_set_self (List.getElem?_eq_some_iff.mp hg).1, hg]
        rfl
      · simp only []
        rw [List.getElem?_set_ne hi]
    · rw [if_neg hc]

theorem free_borrow_some (p : Pool α) (h k : Handle) {n : α}
    (hb : (p.free h).borrow k = some n) : p.borrow k = some n := by
  by_cases hk : k = h
  · subst hk
    rw [borrow_free_self] at hb
    simp at hb
  · rwa [borrow_free_ne p hk] at hb

theorem update_lifetime_frame {p : Pool Node} {h : Handle} {f : Node → Node}
    (hf : ∀ m, (f m).base.lifetime = m.base.lifetime) :
    ∀ k n', (p.update h f).borrow k = some n' →
      ∃ n, p.borrow k = some n ∧ n'.base.lifetime = n.base.lifetime := by
  intro k n' hb
  by_cases hk : k = h
  · subst hk
    rw [borrow_update_self] at hb
    cases hpb : p.borrow k with
    | none => rw [hpb] at hb; simp at hb
    | some n =>
      rw [hpb] at hb
      simp at hb
      exact ⟨n, rfl, by rw [← hb, hf]⟩
  · rw [borrow_update_ne p f hk] at hb
    exact ⟨n', hb, rfl⟩

end Pool

namespace Graph

open Pool

theorem removeLoop_borrow_some :
    ∀ fuel stack (p : Pool Node) k (n' : Node),
      (removeLoop fuel stack p).borrow k = some n' → p.borrow k = some n' := by
  intro fuel
  induction fuel with
  | zero => intro stack p k n' hb; exact hb
  | succ fuel ih =>
    intro stack p k n' hb
    cases stack with
    | nil => exact hb
    | cons h rest =>
      cases hbh : p.borrow h with
      | none =>
        rw [removeLoop, hbh] at hb
        exact free_borrow_some p h k (ih rest (p.free h) k n' hb)
      | some node =>
        rw [removeLoop, hbh] at hb
        exact free_borrow_some p h k
          (ih (node.base.children.reverse ++ rest) (p.free h) k n' hb)

theorem removeLoop_gen :
    ∀ fuel stack (p : Pool Node) (i : Nat),
      ((removeLoop fuel stack p).records[i]?).map PoolRecord.generation
        = (p.records[i]?).map PoolRecord.generation := by
  intro fuel
  induction fuel with
  | zero => intro stack p i; rfl
  | succ fuel ih =>
    intro stack p i
    cases stack with
    | nil => rfl
    | cons h rest =>
      cases hbh : p.borrow h with
      | none =>
        rw [removeLoop, hbh, ih rest (p.free h) i, free_gen]
      | some node =>
        rw [removeLoop, hbh, ih (node.base.children.reverse ++ rest) (p.free h) i, free_gen]

theorem removeLoop_cap :
    ∀ fuel stack (p : Pool Node),
      (removeLoop fuel stack p).getCapacity = p.getCapacity := by
  intro fuel
  induction fuel with
  | zero => intro stack p; rfl
  | succ fuel ih =>
    intro stack p
    cases stack with
    | nil => rfl
    | cons h rest =>
      cases hbh : p.borrow h with
      | none =>
        rw [removeLoop, hbh, ih rest (p.free h), getCapacity_free]
      | some node =>
        rw [removeLoop, hbh, ih (node.base.children.reverse ++ rest) (p.free h),
          getCapacity_free]

theorem unlinkInternal_lifetime_frame (g : Graph) (c : Handle) :
    ∀ k n', (g.unlinkInternal c).pool.borrow k = some n' →
      ∃ n, g.pool.borrow k = some n ∧ n'.base.lifetime = n.base.lifetime := by
  intro k n' hb
  have hlt : ∀ (f : BaseRec → BaseRec), (∀ b, (f b).lifetime = b.lifetime) →
      ∀ m : Node, ((Node.mapBase f) m).base.lifetime = m.base.lifetime := by
    intro f hf m
    cases m <;> simp only [Node.mapBase, Node.base] <;> rw [hf]
  unfold unlinkInternal at hb
  cases hbc : g.pool.borrow c with
  | none =>
    rw [hbc] at hb
    exact ⟨n', hb, rfl⟩
  | some node =>
    rw [hbc] at hb
    simp only [] at hb
    by_cases hs : node.base.parent.isSomeH = true
    · rw [if_pos hs] at hb
      cases hb2 : (g.updateNode c (Node.mapBase fun b =>
          { b with parent := Handle.NONE })).pool.borrow node.base.parent with
      | none =>
        rw [hb2] at hb
        simp only [] at hb
        exact update_lifetime_frame
          (hlt (fun b => { b with parent := Handle.NONE }) (fun b => rfl)) k n' hb
      | some m =>
        rw [hb2] at hb
        simp only [] at hb
        obtain ⟨n1, hb1, hl1⟩ := update_lifetime_frame
          (hlt (fun b => { b with children := b.children.erase c }) (fun b => rfl)) k n' hb
        obtain ⟨n0, hb0, hl0⟩ := update_lifetime_frame
          (hlt (fun b => { b with parent := Handle.NONE }) (fun b => rfl)) k n1 hb1
        exact ⟨n0, hb0, hl1.trans hl0⟩
    · rw [if_neg hs] at hb
      exact update_lifetime_frame
        (hlt (fun b => { b with parent := Handle.NONE }) (fun b => rfl)) k n' hb

theorem unlinkInternal_gen (g : Graph) (c : Handle) (i : Nat) :
    (((g.unlinkInternal c).pool.records[i]?).map PoolRecord.generation)
      = ((g.pool.records[i]?).map PoolRecord.generation) := by
  unfold unlinkInternal
  cases hbc : g.pool.borrow c with
  | none => rfl
  | some node =>
    simp only [hbc]
    by_cases hs : node.base.parent.isSomeH = true
    · rw [if_pos hs]
      cases hb2 : (g.updateNode c (Node.mapBase fun b =>
          { b with parent := Handle.NONE })).pool.borrow node.base.parent with
      | none =>
        show (((g.pool.update c _).records[i]?).map PoolRecord.generation) = _
        rw [update_gen]
      | some m =>
        show ((((g.pool.update c _).update node.base.parent _).records[i]?).map
          PoolRecord.generation) = _
        rw [update_gen, update_gen]
    · rw [if_neg hs]
      show (((g.pool.update c _).records[i]?).map PoolRecord.generation) = _
      rw [update_gen]

theorem unlinkInternal_cap (g : Graph) (c : Handle) :
    (g.unlinkInternal c).pool.getCapacity = g.pool.getCapacity := by
  unfold unlinkInternal
  cases hbc : g.pool.borrow c with
  | none => rfl
  | some node =>
    simp only [hbc]
    by_cases hs : node.base.parent.isSomeH = true
    · rw [if_pos hs]
      cases hb2 : (g.updateNode c (Node.mapBase fun b =>
          { b with parent := Handle.NONE })).pool.borrow node.base.parent with
      | none =>
        show ((g.pool.update c _).records.length) = _
        rw [records_length_update]
        rfl
      | some m =>
        show (((g.pool.update c _).update node.base.parent _).records.length) = _
        rw [records_length_update, records_length_update]
        rfl
    · rw [if_neg hs]
      show ((g.pool.update c _).records.length) = _
      rw [records_length_update]
      rfl

theorem removeNode_lifetime_frame (g : Graph) (h : Handle) :
    ∀ k n', (g.removeNode h).pool.borrow k = some n' →
      ∃ n, g.pool.borrow k = some n ∧ n'.base.lifetime = n.base.lifetime := by
  intro k n' hb
  have hb1 : (g.unlinkInternal h).pool.borrow k = some n' :=
    removeLoop_borrow_some _ _ _ k n' hb
  exact unlinkInternal_lifetime_frame g h k n' hb1

theorem removeNode_gen (g : Graph) (h : Handle) (i : Nat) :
    (((g.removeNode h).pool.records[i]?).map PoolRecord.generation)
      = ((g.pool.records[i]?).map PoolRecord.generation) := by
  show (((removeLoop _ _ (g.unlinkInternal h).pool).records[i]?).map
    PoolRecord.generation) = _
  rw [removeLoop_gen, unlinkInternal_gen]

theorem removeNode_cap (g : Graph) (h : Handle) :
    (g.removeNode h).pool.getCapacity = g.pool.getCapacity := by
  show (removeLoop _ _ (g.unlinkInternal h).pool).getCapacity = _
  rw [removeLoop_cap, unlinkInternal_cap]

theorem unlinkInternal_valid_frame (g : Graph) (c : Handle) (k : Handle) :
    (g.unlinkInternal c).pool.isValidHandle k = g.pool.isValidHandle k := by
  unfold unlinkInternal
  cases hbc : g.pool.borrow c with
  | none => rfl
  | some node =>
    simp only [hbc]
    by_cases hs : node.base.parent.isSomeH = true
    · rw [if_pos hs]
      cases hb2 : (g.updateNode c (Node.mapBase fun b =>
          { b with parent := Handle.NONE })).pool.borrow node.base.parent with
      | none =>
        show ((g.pool.update c _).isValidHandle k) = _
        rw [valid_update_iff]
      | some m =>
        show (((g.pool.update c _).update node.base.parent _).isValidHandle k) = _
        rw [valid_update_iff, valid_update_iff]
    · rw [if_neg hs]
      show ((g.pool.update c _).isValidHandle k) = _
      rw [valid_update_iff]

/-- `remove_node` always kills its target. -/
theorem removeNode_kills (g : Graph) {h : Handle}
    (hv : g.pool.isValidHandle h = true) :
    (g.removeNode h).pool.isValidHandle h = false := by
  have hv1 : (g.unlinkInternal h).pool.isValidHandle h = true := by
    rw [unlinkInternal_valid_frame]
    exact hv
  obtain ⟨n1, hb1⟩ : ∃ n1, (g.unlinkInternal h).pool.borrow h = some n1 := by
    unfold Pool.isValidHandle at hv1
    cases hbb : (g.unlinkInternal h).pool.borrow h with
    | none => rw [hbb] at hv1; simp at hv1
    | some n1 => exact ⟨n1, rfl⟩
  show (removeLoop (2 + totalChildren (g.unlinkInternal h).pool) [h]
    (g.unlinkInternal h).pool).isValidHandle h = false
  have hfe : 2 + totalChildren (g.unlinkInternal h).pool
      = (1 + totalChildren (g.unlinkInternal h).pool) + 1 := by
    omega
  rw [hfe, removeLoop, hb1]
  unfold Pool.isValidHandle
  cases hbr : (removeLoop (1 + totalChildren (g.unlinkInternal h).pool)
      (n1.base.children.reverse ++ []) ((g.unlinkInternal h).pool.free h)).borrow h with
  | none => rfl
  | some n2 =>
    exfalso
    have := removeLoop_borrow_some _ _ _ h n2 hbr
    rw [borrow_free_self] at this
    simp at this

end Graph

namespace Graph

open Pool

/-- The graph after the transform pass and the lifetime decrement, before
the removal scan of `update_nodes`. -/
def lifetimesPhase (g : Graph) (dt : Real32) : Graph :=
  let g1 := g.updateTransforms
  { g1 with pool := g1.pool.mapPayloads (updateNodesPerNode dt) }

/-- One step of the index-based removal scan of `update_nodes`. -/
def lifetimeStep (acc : Graph) (i : Nat) : Graph :=
  match acc.pool.atIndex i with
  | none => acc
  | some node =>
    match node.base.lifetime with
    | some lifetime =>
      if lifetime ≤ 0 then acc.removeNode (acc.pool.handleFromIndex i) else acc
    | none => acc

theorem updateNodes_eq (g : Graph) (frame : Vec2) (dt : Real32) :
    g.updateNodes frame dt
      = (List.range (g.lifetimesPhase dt).pool.getCapacity).foldl lifetimeStep
          (g.lifetimesPhase dt) := rfl

/-- The removal scan only frees nodes: capacities, generations and the
lifetimes of the surviving payloads never change. -/
def scanInv (g2 acc : Graph) : Prop :=
  acc.pool.getCapacity = g2.pool.getCapacity ∧
  (∀ i : Nat, ((acc.pool.records[i]?).map PoolRecord.generation)
    = ((g2.pool.records[i]?).map PoolRecord.generation)) ∧
  (∀ k n', acc.pool.borrow k = some n' →
    ∃ n, g2.pool.borrow k = some n ∧ n'.base.lifetime = n.base.lifetime)

theorem scanInv_refl (g2 : Graph) : scanInv g2 g2 :=
  ⟨rfl, fun _ => rfl, fun _ n' hb => ⟨n', hb, rfl⟩⟩

theorem lifetimeStep_inv {g2 acc : Graph} (hinv : scanInv g2 acc) (i : Nat) :
    scanInv g2 (lifetimeStep acc i) := by
  unfold lifetimeStep
  cases acc.pool.atIndex i with
  | none => exact hinv
  | some node =>
    simp only []
    cases node.base.lifetime with
    | none => exact hinv
    | some l =>
      simp only []
      by_cases hl : l ≤ 0
      · rw [if_pos hl]
        obtain ⟨h1, h2, h3⟩ := hinv
        refine ⟨?_, ?_, ?_⟩
        · rw [removeNode_cap, h1]
        · intro j
          rw [removeNode_gen, h2 j]
        · intro k n' hb
          obtain ⟨n1, hb1, hl1⟩ := removeNode_lifetime_frame acc _ k n' hb
          obtain ⟨n, hbn, hln⟩ := h3 k n1 hb1
          exact ⟨n, hbn, hl1.trans hln⟩
      · rw [if_neg hl]
        exact hinv

theorem scanFold_inv (g2 : Graph) :
    ∀ (l : List Nat) (acc : Graph), scanInv g2 acc →
      scanInv g2 (l.foldl lifetimeStep acc) := by
  intro l
  induction l with
  | nil => intro acc h; exact h
  | cons j rest ih =>
    intro acc h
    exact ih (lifetimeStep acc j) (lifetimeStep_inv h j)

theorem removeNode_valid_mono (g : Graph) (h k : Handle)
    (hv : (g.removeNode h).pool.isValidHandle k = true) :
    g.pool.isValidHandle k = true := by
  unfold Pool.isValidHandle at hv ⊢
  cases hb : (g.removeNode h).pool.borrow k with
  | none => rw [hb] at hv; simp at hv
  | some n' =>
    obtain ⟨n, hbn, _⟩ := removeNode_lifetime_frame g h k n' hb
    rw [hbn]
    rfl

theorem lifetimeStep_dead {acc : Graph} {k : Handle}
    (hd : acc.pool.isValidHandle k = false) (i : Nat) :
    (lifetimeStep acc i).pool.isValidHandle k = false := by
  unfold lifetimeStep
  cases acc.pool.atIndex i with
  | none => exact hd
  | some node =>
    simp only []
    cases node.base.lifetime with
    | none => exact hd
    | some l =>
      simp only []
      by_cases hl : l ≤ 0
      · rw [if_pos hl]
        cases hres : (acc.removeNode (acc.pool.handleFromIndex i)).pool.isValidHandle k with
        | false => rfl
        | true =>
          rw [removeNode_valid_mono acc _ k hres] at hd
          simp at hd
      · rw [if_neg hl]
        exact hd

theorem scanFold_dead :
    ∀ (l : List Nat) (acc : Graph) (k : Handle),
      acc.pool.isValidHandle k = false →
      (l.foldl lifetimeStep acc).pool.isValidHandle k = false := by
  intro l
  induction l with
  | nil => intro acc k h; exact h
  | cons j rest ih =>
    intro acc k h
    exact ih (lifetimeStep acc j) k (lifetimeStep_dead h j)

/-- Every entity whose decremented lifetime fell to zero or below is removed
by the scan of `update_nodes`. -/
theorem updateNodes_kills (g : Graph) (frame : Vec2) (dt : Real32) {i : Nat} {n : Node}
    {l : Real32} (hat : (g.lifetimesPhase dt).pool.atIndex i = some n)
    (hl : n.base.lifetime = some l) (hle : l ≤ 0) :
    (g.updateNodes frame dt).pool.isValidHandle
      ((g.lifetimesPhase dt).pool.handleFromIndex i) = false := by
  rw [updateNodes_eq]
  obtain ⟨r, hr, hpay⟩ : ∃ r, (g.lifetimesPhase dt).pool.records[i]? = some r ∧
      r.payload = some n := by
    unfold Pool.atIndex at hat
    cases hg : (g.lifetimesPhase dt).pool.records[i]? with
    | none => rw [hg] at hat; simp at hat
    | some r =>
      rw [hg] at hat
      exact ⟨r, rfl, by simpa using hat⟩
  have hilt : i < (g.lifetimesPhase dt).pool.records.length :=
    (List.getElem?_eq_some_iff.mp hr).1
  have hcapsplit : (g.lifetimesPhase dt).pool.getCapacity
      = (i + 1) + ((g.lifetimesPhase dt).pool.getCapacity - (i + 1)) := by
    show (g.lifetimesPhase dt).pool.getCapacity
      = (i + 1) + ((g.lifetimesPhase dt).pool.getCapacity - (i + 1))
    unfold Pool.getCapacity
    omega
  rw [hcapsplit, List.range_add, List.range_succ, List.foldl_append, List.foldl_append]
  set A := (List.range i).foldl lifetimeStep (g.lifetimesPhase dt) with hA
  have hinvA : scanInv (g.lifetimesPhase dt) A :=
    scanFold_inv _ _ _ (scanInv_refl _)
  set e := (g.lifetimesPhase dt).pool.handleFromIndex i with he
  have heidx : e.index = i := rfl
  have hegen : e.generation = r.generation := by
    rw [he]
    unfold Pool.handleFromIndex
    rw [hr]
    rfl
  have hstep1 : List.foldl lifetimeStep A [i] = lifetimeStep A i := rfl
  rw [hstep1]
  refine scanFold_dead _ _ e ?_
  unfold lifetimeStep
  cases hAi : A.pool.atIndex i with
  | none =>
    simp only []
    unfold Pool.atIndex at hAi
    show A.pool.isValidHandle e = false
    unfold Pool.isValidHandle Pool.borrow
    rw [heidx]
    cases hga : A.pool.records[i]? with
    | none => rfl
    | some ra =>
      rw [hga] at hAi
      have hpn : ra.payload = none := by simpa using hAi
      simp only []
      by_cases hgen : ra.generation = e.generation
      · rw [if_pos hgen, hpn]
        rfl
      · rw [if_neg hgen]
        rfl
  | some nodeA =>
    obtain ⟨ra, hga, hpa⟩ : ∃ ra, A.pool.records[i]? = some ra ∧
        ra.payload = some nodeA := by
      unfold Pool.atIndex at hAi
      cases hg : A.pool.records[i]? with
      | none => rw [hg] at hAi; simp at hAi
      | some ra =>
        rw [hg] at hAi
        exact ⟨ra, rfl, by simpa using hAi⟩
    have hgena : ra.generation = r.generation := by
      have := hinvA.2.1 i
      rw [hga, hr] at this
      simpa using this
    have hbA : A.pool.borrow e = some nodeA := by
      unfold Pool.borrow
      rw [heidx, hga]
      simp only []
      rw [if_pos (by rw [hgena, hegen])]
      exact hpa
    obtain ⟨m, hbm, hlm⟩ := hinvA.2.2 e nodeA hbA
    have hbg2 : (g.lifetimesPhase dt).pool.borrow e = some n := by
      unfold Pool.borrow
      rw [heidx, hr]
      simp only []
      rw [if_pos hegen.symm]
      exact hpay
    have hmn : m = n := by
      rw [hbg2] at hbm
      simpa using hbm.symm
    have hlife : nodeA.base.lifetime = some l := by
      rw [hlm, hmn, hl]
    simp only []
    rw [hlife]
    simp only []
    rw [if_pos hle]
    have hhfi : A.pool.handleFromIndex i = e := by
      rw [he]
      unfold Pool.handleFromIndex
      rw [hinvA.2.1 i]
    rw [hhfi]
    refine removeNode_kills A ?_
    unfold Pool.isValidHandle
    rw [hbA]
    rfl

/-- When no decremented lifetime reaches zero, the scan removes nothing. -/
theorem updateNodes_no_expiry (g : Graph) (frame : Vec2) (dt : Real32)
    (hpos : ∀ i n l, (g.lifetimesPhase dt).pool.atIndex i = some n →
      n.base.lifetime = some l → 0 < l) :
    g.updateNodes frame dt = g.lifetimesPhase dt := by
  rw [updateNodes_eq]
  have hstep : ∀ j, lifetimeStep (g.lifetimesPhase dt) j = g.lifetimesPhase dt := by
    intro j
    unfold lifetimeStep
    cases hA : (g.lifetimesPhase dt).pool.atIndex j with
    | none => rfl
    | some node =>
      simp only []
      cases hL : node.base.lifetime with
      | none => rfl
      | some l =>
        simp only []
        rw [if_neg (not_le.mpr (hpos j node l hA hL))]
  have hfold : ∀ l : List Nat,
      l.foldl lifetimeStep (g.lifetimesPhase dt) = g.lifetimesPhase dt := by
    intro l
    induction l with
    | nil => rfl
    | cons j rest ih =>
      rw [List.foldl_cons, hstep j, ih]
  exact hfold _

theorem lifetime_updateNodesPerNode (dt : Real32) (m : Node) :
    (updateNodesPerNode dt m).base.lifetime = m.base.lifetime.map (· - dt) := by
  unfold updateNodesPerNode
  cases hm : m.base.lifetime with
  | none =>
    simp only []
    rw [hm]
    rfl
  | some l =>
    simp only []
    rw [Node.base_mapBase]
    rfl

end Graph

theorem Node.mapBase_lifetime (f : BaseRec → BaseRec)
    (hf : ∀ b, (f b).lifetime = b.lifetime) (n : Node) :
    (n.mapBase f).base.lifetime = n.base.lifetime := by
  cases n <;> simp only [Node.mapBase, Node.base] <;> rw [hf]

/-- C8 (amended): `update_nodes` decrements every present lifetime by `dt`
and removes, with `remove_node` and hence with its whole subtree, every
entity whose decremented lifetime is `≤ 0`; consequently an entity with no
lifetime of its own is also removed whenever it lies inside such a subtree,
and when no lifetime expires nothing is removed and every surviving entity
carries its decremented lifetime. -/
theorem C8_update_nodes_lifetimes (g : Graph) (frame : Vec2) (dt : Real32) :
    (∀ i n l, (g.lifetimesPhase dt).pool.atIndex i = some n →
      n.base.lifetime = some l → l ≤ 0 →
      (g.updateNodes frame dt).pool.isValidHandle
        ((g.lifetimesPhase dt).pool.handleFromIndex i) = false) ∧
    ((∀ i n l, (g.lifetimesPhase dt).pool.atIndex i = some n →
        n.base.lifetime = some l → 0 < l) →
      g.wf →
      ∀ k n, g.pool.borrow k = some n →
        ∃ n', (g.updateNodes frame dt).pool.borrow k = some n' ∧
          n'.base.lifetime = n.base.lifetime.map (· - dt)) := by
  constructor
  · intro i n l hat hl hle
    exact Graph.updateNodes_kills g frame dt hat hl hle
  · intro hpos hwf k n hb
    rw [Graph.updateNodes_no_expiry g frame dt hpos]
    have hb1 := Graph.updateTransforms_spec hwf k n hb
    have hlp : (g.lifetimesPhase dt).pool.borrow k
        = ((g.updateTransforms).pool.borrow k).map (Graph.updateNodesPerNode dt) :=
      Pool.borrow_mapPayloads _ _ _
    rw [hb1] at hlp
    refine ⟨_, hlp, ?_⟩
    rw [Graph.lifetime_updateNodesPerNode,
      Node.mapBase_lifetime (fun b =>
        { b with
          globalTransform := Pool.pathTransform g.pool (g.pool.getCapacity + 1) k
          globalVisibility := Pool.pathVisibility g.pool (g.pool.getCapacity + 1) k })
        (fun b => rfl) n]

/-- The counterexample graph: a parent with half a second of lifetime and a
child with no lifetime of its own. -/
def c8addP := Graph.newGraph.addNode
  (Node.Base { Base.defaultBase with lifetime := some (1/2) })

def c8hP : Handle := c8addP.1

def c8addC := c8addP.2.addNode (Node.Base Base.defaultBase)

def c8hC : Handle := c8addC.1

def c8g : Graph := c8addC.2.linkNodes c8hC c8hP

/-- An entity with no lifetime is removed by one `update_nodes` call when
its parent's lifetime expires, contradicting the claim that entities with no
lifetime are never removed by this pass. -/
theorem C8_no_lifetime_entity_removed :
    ((c8g.pool.borrow c8hC).map fun n => n.base.lifetime) = some none ∧
    c8g.isValid c8hC = true ∧
    (c8g.updateNodes ⟨0, 0⟩ 1).isValid c8hC = false := by
  refine ⟨by decide, by decide, ?_⟩
  rw [Graph.updateNodes_eq]
  have hcap : (c8g.lifetimesPhase 1).pool.getCapacity = 3 := by rfl
  have hrange : List.range 3 = [0, 1, 2] := by decide
  rw [hcap, hrange]
  have h0 : Graph.lifetimeStep (c8g.lifetimesPhase 1) 0 = c8g.lifetimesPhase 1 := by
    unfold Graph.lifetimeStep
    cases hx : (c8g.lifetimesPhase 1).pool.atIndex 0 with
    | none => rfl
    | some node =>
      simp only []
      have hlt : ((c8g.lifetimesPhase 1).pool.atIndex 0).map (fun n => n.base.lifetime)
          = some none := by rfl
      rw [hx] at hlt
      simp only [Option.map_some', Option.some.injEq] at hlt
      rw [hlt]
  have h1 : Graph.lifetimeStep (c8g.lifetimesPhase 1) 1
      = (c8g.lifetimesPhase 1).removeNode c8hP := by
    unfold Graph.lifetimeStep
    cases hx : (c8g.lifetimesPhase 1).pool.atIndex 1 with
    | none =>
      exfalso
      have hsm : ((c8g.lifetimesPhase 1).pool.atIndex 1).isSome = true := by rfl
      rw [hx] at hsm
      simp at hsm
    | some node =>
      simp only []
      have hlt : ((c8g.lifetimesPhase 1).pool.atIndex 1).map (fun n => n.base.lifetime)
          = some (some ((1 : Real32)/2 - 1)) := by rfl
      rw [hx] at hlt
      simp only [Option.map_some', Option.some.injEq] at hlt
      rw [hlt]
      simp only []
      rw [if_pos (show ((1 : Real32)/2 - 1 : Real32) ≤ 0 by norm_num)]
      rfl
  have h2 : Graph.lifetimeStep ((c8g.lifetimesPhase 1).removeNode c8hP) 2
      = (c8g.lifetimesPhase 1).removeNode c8hP := by
    unfold Graph.lifetimeStep
    have hx : ((c8g.lifetimesPhase 1).removeNode c8hP).pool.atIndex 2 = none := by rfl
    rw [hx]
  show (Graph.lifetimeStep (Graph.lifetimeStep (Graph.lifetimeStep
    (c8g.lifetimesPhase 1) 0) 1) 2).isValid c8hC = false
  rw [h0, h1, h2]
  rfl

theorem C8_update_nodes_lifetimes_witness :
    (c8g.updateNodes ⟨0, 0⟩ 1).pool.isValidHandle
      ((c8g.lifetimesPhase 1).pool.handleFromIndex 1) = false :=
  (C8_update_nodes_lifetimes c8g ⟨0, 0⟩ 1).1 1
    (((c8g.lifetimesPhase 1).pool.atIndex 1).getD (Node.Base Base.defaultBase))
    ((1 : Real32)/2 - 1) (by rfl) (by rfl) (by norm_num)

namespace Graph

open Pool

/-- When no node reachable from the work list carries the target in its
`original` field, the `find_copy_of` search reports `NONE`. -/
theorem findCopyList_none (g : Graph) :
    ∀ fuel (l : List Handle) (target : Handle),
      (∀ k n, (∃ r ∈ l, g.pool.DescP r k) → g.pool.borrow k = some n →
        n.base.original ≠ target) →
      findCopyList g fuel l target = Handle.NONE := by
  intro fuel
  induction fuel with
  | zero => intro l target _; rfl
  | succ fuel ih =>
    intro l target hno
    cases l with
    | nil => rfl
    | cons r rs =>
      rw [findCopyList]
      cases hb : g.pool.borrow r with
      | none =>
        refine ih rs target ?_
        intro k n ⟨s, hs, hd⟩ hbk
        exact hno k n ⟨s, List.mem_cons_of_mem r hs, hd⟩ hbk
      | some root =>
        have hrv : g.pool.isValidHandle r = true := isValid_of_borrow hb
        have hne : ¬ (root.base.original = target) :=
          hno r root ⟨r, List.mem_cons_self r rs, DescP.refl r hrv⟩ hb
        simp only []
        rw [if_neg hne]
        refine ih (root.base.children ++ rs) target ?_
        rintro k n ⟨s, hs, hd⟩ hbk
        rcases List.mem_append.mp hs with hsc | hsr
        · have hsc' : s ∈ g.pool.childrenP r := by
            rw [childrenP_of_borrow hb]
            exact hsc
          exact hno k n ⟨r, List.mem_cons_self r rs, DescP.child hrv hsc' hd⟩ hbk
        · exact hno k n ⟨s, List.mem_cons_of_mem r hsr, hd⟩ hbk

end Graph

/-- Bridge from the decidable per-slot scan to the per-handle reading: when
no record of the arena stores a node whose `original` field equals the bone
handle, no borrow does either. -/
theorem Graph.original_ne_of_scan (g : Graph) (bone : Handle)
    (hscan : ∀ i ∈ List.range g.pool.records.length,
      ((g.pool.records[i]?.bind fun r => r.payload).map
        fun n => n.base.original) ≠ some bone) :
    ∀ k n, g.pool.borrow k = some n → n.base.original ≠ bone := by
  intro k n hbk
  unfold Pool.borrow at hbk
  cases hrec : g.pool.records[k.index]? with
  | none =>
    rw [hrec] at hbk
    exact absurd hbk (by simp)
  | some r =>
    simp only [hrec] at hbk
    by_cases hgen : r.generation = k.generation
    · rw [if_pos hgen] at hbk
      have hi : k.index < g.pool.records.length :=
        (List.getElem?_eq_some_iff.mp hrec).1
      have hne := hscan k.index (List.mem_range.mpr hi)
      rw [hrec] at hne
      simp only [Option.some_bind, hbk, Option.map_some'] at hne
      intro heq
      exact hne (by rw [heq])
    · rw [if_neg hgen] at hbk
      exact absurd hbk (by simp)

/-- C10: in the resync pass of `resolve()`, every bone handle of a mesh with
a resource reference is unconditionally overwritten with
`find_copy_of(model_root, bone)`; and when no node of the hierarchy under
the model root has its `original` field equal to a bone handle, that bone
handle becomes the `NONE` handle — unmatched bones are not left unchanged as
they are in `copy_node`. -/
theorem C10_resync_overwrites_bones (env : ResourceEnv) (g : Graph) (h : Handle)
    (b : BaseRec) (surfs : List Surface) (rid : Nat) (model : Graph)
    (rb : BaseRec) (rsurfs : List Surface)
    (hb : g.pool.borrow h = some (Node.Mesh b surfs))
    (hres : b.resource = some rid)
    (henv : env.get? rid = some model)
    (hmodel : model.pool.borrow (model.findByNameFromRoot b.name)
      = some (Node.Mesh rb rsurfs)) :
    ((Graph.pass2Step env g h).pool.borrow h).map Node.surfaces
      = some (rsurfs.map fun s =>
          { s with bones := s.bones.map fun bone =>
              g.findCopyOf (g.findModelRoot h) bone }) ∧
    (∀ bone, (∀ k n, g.pool.DescP (g.findModelRoot h) k →
        g.pool.borrow k = some n → n.base.original ≠ bone) →
      g.findCopyOf (g.findModelRoot h) bone = Handle.NONE) := by
  constructor
  · unfold Graph.pass2Step
    rw [hb]
    simp only [hres, henv, hmodel]
    show ((g.updateNode h _).pool.borrow h).map Node.surfaces = _
    rw [Graph.updateNode_pool, Pool.borrow_update_self, hb]
    rfl
  · intro bone hno
    refine Graph.findCopyList_none g _ [g.findModelRoot h] bone ?_
    rintro k n ⟨s, hs, hd⟩ hbk
    simp at hs
    subst hs
    exact hno k n hd hbk

theorem C10_resync_overwrites_bones_witness :
    c5live.findCopyOf (c5live.findModelRoot c5hB) ⟨7, 7⟩ = Handle.NONE :=
  (C10_resync_overwrites_bones c5env c5live c5hB
        ((c5live.pool.borrow c5hB).getD (Node.Base Base.defaultBase)).base
        ((c5live.pool.borrow c5hB).getD (Node.Base Base.defaultBase)).surfaces
        0 c5tpl
        ((c5tpl.pool.borrow (c5tpl.findByNameFromRoot
            ((c5live.pool.borrow c5hB).getD (Node.Base Base.defaultBase)).base.name)).getD
          (Node.Base Base.defaultBase)).base
        ((c5tpl.pool.borrow (c5tpl.findByNameFromRoot
            ((c5live.pool.borrow c5hB).getD (Node.Base Base.defaultBase)).base.name)).getD
          (Node.Base Base.defaultBase)).surfaces
        (by rfl) (by rfl) (by rfl) (by rfl)).2
    ⟨7, 7⟩ (fun k n _ => Graph.original_ne_of_scan c5live ⟨7, 7⟩ (by decide) k n)


/-! ## Deep-copy correctness -/

/-- The node fields that the deep copy's bookkeeping relies on and that the
relinking steps never change: the `original` back-reference, the surface
list and the mesh discriminant. -/
def Node.copyView (n : Node) : Handle × List Surface × Bool :=
  (n.base.original, n.surfaces, n.isMesh)

theorem Node.copyView_mapBase (f : BaseRec → BaseRec)
    (hf : ∀ b, (f b).original = b.original) (n : Node) :
    (n.mapBase f).copyView = n.copyView := by
  cases n <;>
    simp only [Node.copyView, Node.mapBase, Node.base, Node.surfaces,
      Node.isMesh] <;>
    rw [hf]

/-- The copy stored by `copy_node_raw` — a clone with fresh hierarchy links
and `original` pointing back at the source handle — seen through the view. -/
theorem Node.copyView_clone (n : Node) (s : Handle) :
    ((n.cloneDetached).mapBase fun b => { b with original := s }).copyView
      = (s, n.surfaces, n.isMesh) := by
  cases n <;> rfl

namespace Pool

theorem update_view_frame {α β : Type} (φ : α → β) {p : Pool α} {h : Handle}
    {f : α → α} (hf : ∀ m, φ (f m) = φ m) :
    ∀ k n', (p.update h f).borrow k = some n' →
      ∃ n, p.borrow k = some n ∧ φ n' = φ n := by
  intro k n' hb
  by_cases hk : k = h
  · subst hk
    rw [borrow_update_self] at hb
    cases hpb : p.borrow k with
    | none => rw [hpb] at hb; simp at hb
    | some n =>
      rw [hpb] at hb
      simp at hb
      exact ⟨n, rfl, by rw [← hb, hf]⟩
  · rw [borrow_update_ne p f hk] at hb
    exact ⟨n', hb, rfl⟩

end Pool

namespace Graph

open Pool

/-- Helper: `mapBase` with an `original`-preserving base update preserves the
copy view. -/
theorem mapBase_copyView (f : BaseRec → BaseRec)
    (hf : ∀ b, (f b).original = b.original) :
    ∀ m : Node, ((Node.mapBase f) m).copyView = m.copyView := fun m =>
  Node.copyView_mapBase f hf m

theorem unlinkInternal_view_frame (g : Graph) (c : Handle) :
    ∀ k n', (g.unlinkInternal c).pool.borrow k = some n' →
      ∃ n, g.pool.borrow k = some n ∧ n'.copyView = n.copyView := by
  intro k n' hb
  unfold unlinkInternal at hb
  cases hbc : g.pool.borrow c with
  | none =>
    rw [hbc] at hb
    exact ⟨n', hb, rfl⟩
  | some node =>
    rw [hbc] at hb
    simp only [] at hb
    by_cases hs : node.base.parent.isSomeH = true
    · rw [if_pos hs] at hb
      cases hb2 : (g.updateNode c (Node.mapBase fun b =>
          { b with parent := Handle.NONE })).pool.borrow node.base.parent with
      | none =>
        rw [hb2] at hb
        simp only [] at hb
        exact update_view_frame Node.copyView
          (mapBase_copyView (fun b => { b with parent := Handle.NONE })
            (fun b => rfl)) k n' hb
      | some m =>
        rw [hb2] at hb
        simp only [] at hb
        obtain ⟨n1, hb1, hl1⟩ := update_view_frame Node.copyView
          (mapBase_copyView (fun b => { b with children := b.children.erase c })
            (fun b => rfl)) k n' hb
        obtain ⟨n0, hb0, hl0⟩ := update_view_frame Node.copyView
          (mapBase_copyView (fun b => { b with parent := Handle.NONE })
            (fun b => rfl)) k n1 hb1
        exact ⟨n0, hb0, hl1.trans hl0⟩
    · rw [if_neg hs] at hb
      exact update_view_frame Node.copyView
        (mapBase_copyView (fun b => { b with parent := Handle.NONE })
          (fun b => rfl)) k n' hb

theorem linkNodes_view_frame (g : Graph) (c p : Handle) :
    ∀ k n', (g.linkNodes c p).pool.borrow k = some n' →
      ∃ n, g.pool.borrow k = some n ∧ n'.copyView = n.copyView := by
  intro k n' hb
  simp only [linkNodes] at hb
  cases hb1 : (g.unlinkInternal c).pool.borrow c with
  | none =>
    rw [hb1] at hb
    exact unlinkInternal_view_frame g c k n' hb
  | some n1 =>
    rw [hb1] at hb
    simp only [] at hb
    cases hb2 : ((g.unlinkInternal c).updateNode c (Node.mapBase fun b =>
        { b with parent := p })).pool.borrow p with
    | none =>
      rw [hb2] at hb
      simp only [] at hb
      obtain ⟨na, hba, hva⟩ := update_view_frame Node.copyView
        (mapBase_copyView (fun b => { b with parent := p }) (fun b => rfl)) k n' hb
      obtain ⟨nb, hbb, hvb⟩ := unlinkInternal_view_frame g c k na hba
      exact ⟨nb, hbb, hva.trans hvb⟩
    | some n2 =>
      rw [hb2] at hb
      simp only [] at hb
      obtain ⟨na, hba, hva⟩ := update_view_frame Node.copyView
        (mapBase_copyView (fun b => { b with children := b.children ++ [c] })
          (fun b => rfl)) k n' hb
      obtain ⟨nb, hbb, hvb⟩ := update_view_frame Node.copyView
        (mapBase_copyView (fun b => { b with parent := p }) (fun b => rfl)) k na hba
      obtain ⟨nc, hbc, hvc⟩ := unlinkInternal_view_frame g c k nb hbb
      exact ⟨nc, hbc, hva.trans (hvb.trans hvc)⟩

end Graph

namespace Graph

open Pool

theorem linkNodes_valid_frame (g : Graph) (c p : Handle) (k : Handle) :
    (g.linkNodes c p).pool.isValidHandle k = g.pool.isValidHandle k := by
  simp only [linkNodes]
  cases hb1 : (g.unlinkInternal c).pool.borrow c with
  | none => exact unlinkInternal_valid_frame g c k
  | some n1 =>
    simp only []
    cases hb2 : ((g.unlinkInternal c).updateNode c (Node.mapBase fun b =>
        { b with parent := p })).pool.borrow p with
    | none =>
      show (((g.unlinkInternal c).pool.update c _).isValidHandle k) = _
      rw [valid_update_iff]
      exact unlinkInternal_valid_frame g c k
    | some n2 =>
      show ((((g.unlinkInternal c).pool.update c _).update p _).isValidHandle k) = _
      rw [valid_update_iff, valid_update_iff]
      exact unlinkInternal_valid_frame g c k

theorem unlinkInternal_ok (g : Graph) (c : Handle) (hok : g.pool.ok) :
    (g.unlinkInternal c).pool.ok := by
  unfold unlinkInternal
  cases hbc : g.pool.borrow c with
  | none => exact hok
  | some node =>
    simp only [hbc]
    by_cases hs : node.base.parent.isSomeH = true
    · rw [if_pos hs]
      cases hb2 : (g.updateNode c (Node.mapBase fun b =>
          { b with parent := Handle.NONE })).pool.borrow node.base.parent with
      | none =>
        show ((g.pool.update c _).ok)
        exact update_ok _ _ _ hok
      | some m =>
        show (((g.pool.update c _).update node.base.parent _).ok)
        exact update_ok _ _ _ (update_ok _ _ _ hok)
    · rw [if_neg hs]
      show ((g.pool.update c _).ok)
      exact update_ok _ _ _ hok

theorem linkNodes_ok (g : Graph) (c p : Handle) (hok : g.pool.ok) :
    (g.linkNodes c p).pool.ok := by
  simp only [linkNodes]
  cases hb1 : (g.unlinkInternal c).pool.borrow c with
  | none => exact unlinkInternal_ok g c hok
  | some n1 =>
    simp only []
    cases hb2 : ((g.unlinkInternal c).updateNode c (Node.mapBase fun b =>
        { b with parent := p })).pool.borrow p with
    | none =>
      show ((g.unlinkInternal c).pool.update c _).ok
      exact update_ok _ _ _ (unlinkInternal_ok g c hok)
    | some n2 =>
      show (((g.unlinkInternal c).pool.update c _).update p _).ok
      exact update_ok _ _ _ (update_ok _ _ _ (unlinkInternal_ok g c hok))

theorem addNode_ok (g : Graph) (v : Node) (hok : g.pool.ok) :
    (g.addNode v).2.pool.ok := by
  show (linkNodes { g with pool := (g.pool.spawn v).2 } _ _).pool.ok
  exact linkNodes_ok _ _ _ (spawn_ok g.pool v hok)

/-- Read a live handle back from a valid-handle fact. -/
theorem borrow_of_valid {p : Pool Node} {k : Handle}
    (hv : p.isValidHandle k = true) : ∃ n, p.borrow k = some n := by
  unfold Pool.isValidHandle at hv
  cases hbb : p.borrow k with
  | none => rw [hbb] at hv; simp at hv
  | some n => exact ⟨n, rfl⟩

theorem addNode_borrow_self (g : Graph) (v : Node) (hok : g.pool.ok) :
    ∃ n', (g.addNode v).2.pool.borrow (g.addNode v).1 = some n' ∧
      n'.copyView = v.copyView := by
  have hsp : (g.pool.spawn v).2.borrow (g.pool.spawn v).1 = some v :=
    spawn_borrow_self g.pool v hok
  have hv1 : ({ g with pool := (g.pool.spawn v).2 } : Graph).pool.isValidHandle
      (g.pool.spawn v).1 = true := by
    show ((g.pool.spawn v).2.borrow (g.pool.spawn v).1).isSome = true
    rw [hsp]; rfl
  have hv2 : (g.addNode v).2.pool.isValidHandle (g.pool.spawn v).1 = true := by
    show (linkNodes { g with pool := (g.pool.spawn v).2 } _ _).pool.isValidHandle _ = true
    rw [linkNodes_valid_frame]
    exact hv1
  obtain ⟨n', hb'⟩ := borrow_of_valid hv2
  obtain ⟨n0, hb0, hview⟩ := linkNodes_view_frame
    { g with pool := (g.pool.spawn v).2 } (g.pool.spawn v).1 g.root
    (g.pool.spawn v).1 n' hb'
  have hn0 : n0 = v := by
    have : some n0 = some v := hb0.symm.trans hsp
    exact Option.some.inj this
  exact ⟨n', hb', by rw [hview, hn0]⟩

theorem addNode_borrow_preserved (g : Graph) (v : Node) (hok : g.pool.ok)
    (k : Handle) (n : Node) (hb : g.pool.borrow k = some n) :
    ∃ n', (g.addNode v).2.pool.borrow k = some n' ∧ n'.copyView = n.copyView := by
  have hkv : g.pool.isValidHandle k = true := isValid_of_borrow hb
  have hsp : (g.pool.spawn v).2.borrow k = g.pool.borrow k :=
    spawn_borrow_preserved g.pool v hok k hkv
  have hv2 : (g.addNode v).2.pool.isValidHandle k = true := by
    show (linkNodes { g with pool := (g.pool.spawn v).2 } _ _).pool.isValidHandle _ = true
    rw [linkNodes_valid_frame]
    show ((g.pool.spawn v).2.borrow k).isSome = true
    rw [hsp, hb]; rfl
  obtain ⟨n', hb'⟩ := borrow_of_valid hv2
  obtain ⟨n0, hb0, hview⟩ := linkNodes_view_frame
    { g with pool := (g.pool.spawn v).2 } (g.pool.spawn v).1 g.root k n' hb'
  have hn0 : n0 = n := by
    have : some n0 = some n := hb0.symm.trans (hsp.trans hb)
    exact Option.some.inj this
  exact ⟨n', hb', by rw [hview, hn0]⟩

theorem addNode_fresh (g : Graph) (v : Node) (hok : g.pool.ok) :
    g.pool.isValidHandle (g.addNode v).1 = false := by
  show g.pool.isValidHandle (g.pool.spawn v).1 = false
  exact spawn_not_valid_before g.pool v hok

end Graph

namespace Graph

open Pool

/-- Invariant of the deep-copy traversal: the destination pool is sane, the
destination handles recorded so far are pairwise distinct, and every recorded
pair points at a live destination node whose `original` field is the source
handle and whose surfaces and variant are the source node's. -/
def copyInv (src dest : Graph) (mapping : List (Handle × Handle)) : Prop :=
  dest.pool.ok ∧
  (mapping.map Prod.snd).Nodup ∧
  ∀ s d, (s, d) ∈ mapping → ∃ n n',
    src.pool.borrow s = some n ∧
    dest.pool.borrow d = some n' ∧
    n'.copyView = (s, n.surfaces, n.isMesh)

theorem copySubtrees_inv (src : Graph) :
    ∀ (fuel : Nat) (items : List CopyItem) (dest : Graph)
      (mapping : List (Handle × Handle)),
      copyInv src dest mapping →
      copyInv src (copySubtrees src fuel items dest mapping).1
        (copySubtrees src fuel items dest mapping).2 := by
  intro fuel
  induction fuel with
  | zero =>
    intro items dest mapping h
    simpa only [copySubtrees] using h
  | succ fuel ih =>
    intro items dest mapping h
    cases items with
    | nil => simpa only [copySubtrees] using h
    | cons item rest =>
      cases item with
      | link c p =>
        rw [copySubtrees]
        refine ih rest _ mapping ?_
        obtain ⟨hok, hnd, hinv⟩ := h
        by_cases hc : c.isSomeH = true
        · rw [if_pos hc]
          refine ⟨linkNodes_ok dest c p hok, hnd, ?_⟩
          intro s d hmem
          obtain ⟨n, n', hbs, hbd, hview⟩ := hinv s d hmem
          have hv : (dest.linkNodes c p).pool.isValidHandle d = true := by
            rw [linkNodes_valid_frame]
            exact isValid_of_borrow hbd
          obtain ⟨m, hbm⟩ := borrow_of_valid hv
          obtain ⟨n0, hb0, hview0⟩ := linkNodes_view_frame dest c p d m hbm
          have hn0 : n0 = n' := Option.some.inj (hb0.symm.trans hbd)
          exact ⟨n, m, hbs, hbm, by rw [hview0, hn0, hview]⟩
        · rw [if_neg hc]
          exact ⟨hok, hnd, hinv⟩
      | copy s dp =>
        cases hsb : src.pool.borrow s with
        | none =>
          rw [copySubtrees, hsb]
          exact ih rest dest mapping h
        | some srcNode =>
          rw [copySubtrees, hsb]
          simp only []
          refine ih _ _ _ ?_
          obtain ⟨hok, hnd, hinv⟩ := h
          refine ⟨addNode_ok dest _ hok, ?_, ?_⟩
          · rw [List.map_append, List.nodup_append]
            refine ⟨hnd, List.nodup_singleton _, ?_⟩
            intro a ha hamem
            have ha1 : a = (dest.addNode (srcNode.cloneDetached.mapBase fun b =>
                { b with original := s })).1 := by
              simpa using hamem
            obtain ⟨s0, hs0⟩ : ∃ s0, (s0, a) ∈ mapping := by
              obtain ⟨⟨s0, a0⟩, hpr, hpra⟩ := List.mem_map.mp ha
              exact ⟨s0, by rwa [show a0 = a from hpra] at hpr⟩
            obtain ⟨n, n', hbs, hbd, hview⟩ := hinv s0 a hs0
            have hval : dest.pool.isValidHandle a = true := isValid_of_borrow hbd
            rw [ha1] at hval
            rw [addNode_fresh dest _ hok] at hval
            exact Bool.false_ne_true hval
          · intro s' d' hmem
            rcases List.mem_append.mp hmem with hold | hnew
            · obtain ⟨n, n', hbs, hbd, hview⟩ := hinv s' d' hold
              obtain ⟨m, hbm, hviewm⟩ := addNode_borrow_preserved dest _ hok d' n' hbd
              exact ⟨n, m, hbs, hbm, by rw [hviewm, hview]⟩
            · have hpair : s' = s ∧ d' = (dest.addNode
                  (srcNode.cloneDetached.mapBase fun b =>
                    { b with original := s })).1 := by
                simpa using hnew
              obtain ⟨m, hbm, hviewm⟩ := addNode_borrow_self dest
                (srcNode.cloneDetached.mapBase fun b => { b with original := s }) hok
              refine ⟨srcNode, m, ?_, ?_, ?_⟩
              · rw [hpair.1]; exact hsb
              · rw [hpair.2]; exact hbm
              · rw [hviewm, Node.copyView_clone, hpair.1]

end Graph

namespace Graph

open Pool

/-- Every source handle the deep copy records descends from the copied root
(the work list only ever holds descendants of the original root). -/
theorem copySubtrees_srcInv (src : Graph) (root : Handle)
    (hf : src.pool.forest) :
    ∀ (fuel : Nat) (items : List CopyItem) (dest : Graph)
      (mapping : List (Handle × Handle)),
      (∀ s dp, CopyItem.copy s dp ∈ items →
        src.pool.isValidHandle s = true → src.pool.DescP root s) →
      (∀ s d, (s, d) ∈ mapping → src.pool.DescP root s) →
      ∀ s d, (s, d) ∈ (copySubtrees src fuel items dest mapping).2 →
        src.pool.DescP root s := by
  intro fuel
  induction fuel with
  | zero =>
    intro items dest mapping hitems hmap
    simpa only [copySubtrees] using hmap
  | succ fuel ih =>
    intro items dest mapping hitems hmap
    cases items with
    | nil => simpa only [copySubtrees] using hmap
    | cons item rest =>
      cases item with
      | link c p =>
        rw [copySubtrees]
        exact ih rest _ mapping
          (fun s dp hmem => hitems s dp (List.mem_cons_of_mem _ hmem)) hmap
      | copy s dp =>
        cases hsb : src.pool.borrow s with
        | none =>
          rw [copySubtrees, hsb]
          exact ih rest dest mapping
            (fun s' dp' hmem => hitems s' dp' (List.mem_cons_of_mem _ hmem)) hmap
        | some srcNode =>
          rw [copySubtrees, hsb]
          simp only []
          have hsv : src.pool.isValidHandle s = true := isValid_of_borrow hsb
          have hds : src.pool.DescP root s :=
            hitems s dp (List.mem_cons_self _ _) hsv
          refine ih _ _ _ ?_ ?_
          · intro s' dp' hmem
            rcases List.mem_append.mp hmem with hmm | hrest
            · rcases List.mem_append.mp hmm with hchild | hlink
              · obtain ⟨c, hc, hceq⟩ := List.mem_map.mp hchild
                cases hceq
                intro _
                refine descP_snoc hf hds ?_
                rw [childrenP_of_borrow hsb]
                exact hc
              · exfalso
                cases hdp : dp <;> rw [hdp] at hlink <;> simp at hlink
            · exact hitems s' dp' (List.mem_cons_of_mem _ hrest)
          · intro s' d' hmem
            rcases List.mem_append.mp hmem with hold | hnew
            · exact hmap s' d' hold
            · have : s' = s := by simpa using congrArg Prod.fst (by
                simpa using hnew : (s', d') = (s, _))
              rw [this]
              exact hds

end Graph

namespace Pool

/-- The subtree list of a single root never exceeds the arena capacity. -/
theorem subtreeListP_single_length_le (p : Pool Node) (hf : p.forest)
    (s : Handle) :
    (p.subtreeListP (p.getCapacity + 1) [s]).length ≤ p.getCapacity := by
  have hnodup : (p.subtreeListP (p.getCapacity + 1) [s]).Nodup := by
    refine subtreeListP_nodup hf _ _ ?_
    unfold StackDisj
    simp
  have hsub : p.subtreeListP (p.getCapacity + 1) [s] ⊆ p.liveHandles := by
    intro k hk
    obtain ⟨c, hc, hd⟩ := descP_of_mem_subtreeListP p _ _ k hk
    exact (p.mem_liveHandles k).mpr (descP_valid_right hd)
  have hlen : (p.subtreeListP (p.getCapacity + 1) [s]).length
      ≤ p.liveHandles.length :=
    (List.subperm_of_subset hnodup hsub).length_le
  rw [liveHandles_length] at hlen
  exact hlen.trans (aliveCount_le_capacity p)

/-- For a handle of positive depth — any child of a live node — the subtree
list is already complete at fuel equal to the capacity. -/
theorem subtreeListP_deep_length_le (p : Pool Node) (hf : p.forest)
    (c : Handle) (hd1 : 1 ≤ p.depthOf c) :
    (p.subtreeListP (p.getCapacity + 1) [c]).length
      ≤ (p.subtreeListP p.getCapacity [c]).length := by
  have hnodup : (p.subtreeListP (p.getCapacity + 1) [c]).Nodup := by
    refine subtreeListP_nodup hf _ _ ?_
    unfold StackDisj
    simp
  have hsub : p.subtreeListP (p.getCapacity + 1) [c]
      ⊆ p.subtreeListP p.getCapacity [c] := by
    intro k hk
    obtain ⟨c', hc', hd⟩ := descP_of_mem_subtreeListP p _ _ k hk
    simp at hc'
    rw [hc'] at hd
    exact mem_subtreeListP_of_descP hf hd p.getCapacity (by omega)
  exact (List.subperm_of_subset hnodup hsub).length_le

/-- The subtree list of a work list splits into the subtree lists of its
entries. -/
theorem subtreeListP_length_split (p : Pool Node) (fuel : Nat) :
    ∀ l : List Handle, (p.subtreeListP fuel l).length
      = (l.map fun c => (p.subtreeListP fuel [c]).length).sum := by
  intro l
  induction l with
  | nil => rw [subtreeListP_nil]; rfl
  | cons c rest ih =>
    rw [subtreeListP_cons, List.length_append, ih, List.map_cons, List.sum_cons]

end Pool

namespace Graph

/-- The exact number of traversal steps the deep copy spends on one work
item: one per action, where copying a live node eventually visits its whole
subtree and re-links every copy created under a destination parent. -/
def copyCost (src : Graph) : CopyItem → Nat
  | CopyItem.link _ _ => 1
  | CopyItem.copy s dp =>
    if src.pool.isValidHandle s = true then
      2 * (src.pool.subtreeListP (src.pool.getCapacity + 1) [s]).length - 1
        + (if dp.isSome then 1 else 0)
    else 1

/-- Total remaining cost of a work list. -/
def itemsCost (src : Graph) (items : List CopyItem) : Nat :=
  (items.map (copyCost src)).sum

end Graph

namespace Graph

open Pool

theorem copyCost_copy (src : Graph) (s : Handle) (dp : Option Handle) :
    copyCost src (CopyItem.copy s dp)
      = if src.pool.isValidHandle s = true then
          2 * (src.pool.subtreeListP (src.pool.getCapacity + 1) [s]).length - 1
            + (if dp.isSome then 1 else 0)
        else 1 := rfl

theorem copyCost_pos (src : Graph) (it : CopyItem) : 1 ≤ copyCost src it := by
  cases it with
  | link c p => exact Nat.le_refl 1
  | copy s dp =>
    rw [copyCost_copy]
    by_cases hv : src.pool.isValidHandle s = true
    · rw [if_pos hv]
      obtain ⟨n, hb⟩ := borrow_of_valid hv
      rw [subtreeListP_single_live _ _ _ _ hb]
      simp only [List.length_cons]
      omega
    · rw [if_neg hv]

theorem itemsCost_cons (src : Graph) (it : CopyItem) (rest : List CopyItem) :
    itemsCost src (it :: rest) = copyCost src it + itemsCost src rest := by
  unfold itemsCost
  rw [List.map_cons, List.sum_cons]

theorem itemsCost_append (src : Graph) (a b : List CopyItem) :
    itemsCost src (a ++ b) = itemsCost src a + itemsCost src b := by
  unfold itemsCost
  rw [List.map_append, List.sum_append]

/-- One live copy step of the traversal, with the pending re-link action
written through `Option.toList`. -/
theorem copySubtrees_copy_live (src : Graph) (fuel : Nat) (s : Handle)
    (dp : Option Handle) (rest : List CopyItem) (dest : Graph)
    (mapping : List (Handle × Handle)) (srcNode : Node)
    (hsb : src.pool.borrow s = some srcNode) :
    copySubtrees src (fuel + 1) (CopyItem.copy s dp :: rest) dest mapping
      = copySubtrees src fuel
          ((srcNode.base.children.map fun c => CopyItem.copy c
              (some (dest.addNode (srcNode.cloneDetached.mapBase fun b =>
                { b with original := s })).1))
            ++ (dp.toList.map fun p => CopyItem.link ((dest.addNode
                (srcNode.cloneDetached.mapBase fun b =>
                  { b with original := s })).1) p)
            ++ rest)
          (dest.addNode (srcNode.cloneDetached.mapBase fun b =>
            { b with original := s })).2
          (mapping ++ [(s, (dest.addNode (srcNode.cloneDetached.mapBase fun b =>
            { b with original := s })).1)]) := by
  cases dp <;> (rw [copySubtrees, hsb]; rfl)

/-- With enough fuel — and the chosen fuel is enough — the deep copy records
a destination for every live descendant of every pending source root. -/
theorem copySubtrees_complete (src : Graph) (hf : src.pool.forest) :
    ∀ (fuel : Nat) (items : List CopyItem) (dest : Graph)
      (mapping : List (Handle × Handle)),
      itemsCost src items ≤ fuel →
      ∀ k, (k ∈ mapping.map Prod.fst ∨
          ∃ s dp, CopyItem.copy s dp ∈ items ∧ src.pool.DescP s k) →
        k ∈ (copySubtrees src fuel items dest mapping).2.map Prod.fst := by
  intro fuel
  induction fuel with
  | zero =>
    intro items dest mapping hcost k hk
    cases items with
    | nil =>
      simp only [copySubtrees]
      rcases hk with hmap | ⟨s, dp, hmem, _⟩
      · exact hmap
      · simp at hmem
    | cons it rest =>
      exfalso
      rw [itemsCost_cons] at hcost
      have := copyCost_pos src it
      omega
  | succ fuel ih =>
    intro items dest mapping hcost k hk
    cases items with
    | nil =>
      simp only [copySubtrees]
      rcases hk with hmap | ⟨s, dp, hmem, _⟩
      · exact hmap
      · simp at hmem
    | cons it rest =>
      cases it with
      | link c p =>
        rw [copySubtrees]
        refine ih rest _ mapping ?_ k ?_
        · rw [itemsCost_cons] at hcost
          have hone : copyCost src (CopyItem.link c p) = 1 := rfl
          omega
        · rcases hk with hmap | ⟨s, dp, hmem, hd⟩
          · exact Or.inl hmap
          · rcases List.mem_cons.mp hmem with heq | hrest
            · exact absurd heq (by simp)
            · exact Or.inr ⟨s, dp, hrest, hd⟩
      | copy s dp =>
        cases hsb : src.pool.borrow s with
        | none =>
          have hnv : src.pool.isValidHandle s = false := by
            unfold Pool.isValidHandle
            rw [hsb]
            rfl
          rw [copySubtrees, hsb]
          refine ih rest dest mapping ?_ k ?_
          · rw [itemsCost_cons] at hcost
            have hone : copyCost src (CopyItem.copy s dp) = 1 := by
              rw [copyCost_copy, hnv]
              simp
            omega
          · rcases hk with hmap | ⟨s', dp', hmem, hd⟩
            · exact Or.inl hmap
            · rcases List.mem_cons.mp hmem with heq | hrest
              · exfalso
                have hs' : s' = s := by
                  have := congrArg (fun it => match it with
                    | CopyItem.copy x _ => x
                    | CopyItem.link x _ => x) heq
                  simpa using this
                rw [hs'] at hd
                have hvs : src.pool.isValidHandle s = true := by
                  cases hd with
                  | refl _ hv => exact hv
                  | child hv _ _ => exact hv
                rw [hnv] at hvs
                exact Bool.false_ne_true hvs
              · exact Or.inr ⟨s', dp', hrest, hd⟩
        | some srcNode =>
          have hvs : src.pool.isValidHandle s = true := isValid_of_borrow hsb
          rw [copySubtrees_copy_live src fuel s dp rest dest mapping srcNode hsb]
          refine ih _ _ _ ?_ k ?_
          · -- cost accounting
            rw [itemsCost_cons] at hcost
            rw [itemsCost_append, itemsCost_append]
            have hLs : (src.pool.subtreeListP (src.pool.getCapacity + 1) [s]).length
                = 1 + (src.pool.subtreeListP src.pool.getCapacity
                    srcNode.base.children).length := by
              rw [subtreeListP_single_live _ _ _ _ hsb]
              simp [List.length_cons]
              omega
            have hsplit := subtreeListP_length_split src.pool
              src.pool.getCapacity srcNode.base.children
            have hchild : ∀ c ∈ srcNode.base.children,
                copyCost src (CopyItem.copy c (some (dest.addNode
                    (srcNode.cloneDetached.mapBase fun b =>
                      { b with original := s })).1))
                  ≤ 2 * (src.pool.subtreeListP src.pool.getCapacity [c]).length := by
              intro c hc
              have hcp : c ∈ src.pool.childrenP s := by
                rw [childrenP_of_borrow hsb]
                exact hc
              have hcv : src.pool.isValidHandle c = true :=
                ((forest_at hf hvs).1 c hcp).1
              have hd1 : 1 ≤ src.pool.depthOf c := by
                rw [depthOf_child hf hvs hcp]
                omega
              have hle := subtreeListP_deep_length_le src.pool hf c hd1
              obtain ⟨nc, hbc⟩ := borrow_of_valid hcv
              have hLc : 1 ≤ (src.pool.subtreeListP
                  (src.pool.getCapacity + 1) [c]).length := by
                rw [subtreeListP_single_live _ _ _ _ hbc]
                simp [List.length_cons]
              rw [copyCost_copy, if_pos hcv]
              simp only [Option.isSome_some, if_true]
              omega
            have hsum : (itemsCost src (srcNode.base.children.map fun c =>
                CopyItem.copy c (some (dest.addNode
                  (srcNode.cloneDetached.mapBase fun b =>
                    { b with original := s })).1)))
                ≤ 2 * (src.pool.subtreeListP src.pool.getCapacity
                    srcNode.base.children).length := by
              unfold itemsCost
              rw [List.map_map]
              calc ((srcNode.base.children.map fun c => copyCost src
                    (CopyItem.copy c (some (dest.addNode
                      (srcNode.cloneDetached.mapBase fun b =>
                        { b with original := s })).1)))).sum
                  ≤ ((srcNode.base.children.map fun c =>
                      2 * (src.pool.subtreeListP src.pool.getCapacity [c]).length)).sum := by
                    refine List.sum_le_sum ?_
                    intro c hc
                    exact hchild c hc
                _ = 2 * ((srcNode.base.children.map fun c =>
                      (src.pool.subtreeListP src.pool.getCapacity [c]).length)).sum := by
                    rw [← List.sum_map_mul_left]
                _ = 2 * (src.pool.subtreeListP src.pool.getCapacity
                      srcNode.base.children).length := by
                    rw [hsplit]
            have hlinkcost : itemsCost src (dp.toList.map fun p =>
                CopyItem.link ((dest.addNode
                  (srcNode.cloneDetached.mapBase fun b =>
                    { b with original := s })).1) p)
                = if dp.isSome then 1 else 0 := by
              cases dp <;> rfl
            have hheadcost : copyCost src (CopyItem.copy s dp)
                = 2 * (src.pool.subtreeListP (src.pool.getCapacity + 1) [s]).length
                  - 1 + (if dp.isSome then 1 else 0) := by
              rw [copyCost_copy, if_pos hvs]
            rw [hheadcost, hLs] at hcost
            rw [hlinkcost]
            have hL1 : 1 ≤ (src.pool.subtreeListP (src.pool.getCapacity + 1)
                [s]).length := by
              rw [subtreeListP_single_live _ _ _ _ hsb]
              simp [List.length_cons]
            omega
          · -- membership transport
            rcases hk with hmap | ⟨s', dp', hmem, hd⟩
            · refine Or.inl ?_
              rw [List.map_append]
              exact List.mem_append_left _ hmap
            · rcases List.mem_cons.mp hmem with heq | hrest
              · have hs' : s' = s := by
                  have := congrArg (fun it => match it with
                    | CopyItem.copy x _ => x
                    | CopyItem.link x _ => x) heq
                  simpa using this
                rw [hs'] at hd
                cases hd with
                | refl _ _ =>
                  refine Or.inl ?_
                  rw [List.map_append]
                  refine List.mem_append_right _ ?_
                  simp
                | child hv hc hd' =>
                  rename_i c
                  refine Or.inr ⟨c, some ((dest.addNode
                      (srcNode.cloneDetached.mapBase fun b =>
                        { b with original := s })).1), ?_, hd'⟩
                  refine List.mem_append_left _ ?_
                  refine List.mem_append_left _ ?_
                  refine List.mem_map.mpr ⟨c, ?_, rfl⟩
                  rw [← childrenP_of_borrow hsb]
                  exact hc
              · exact Or.inr ⟨s', dp', List.mem_append_right _ hrest, hd⟩

end Graph

theorem alistLookup_eq_none (m : List (Handle × Handle)) (k : Handle) :
    alistLookup m k = none ↔ k ∉ m.map Prod.fst := by
  induction m with
  | nil => simp [alistLookup]
  | cons pr rest ih =>
    obtain ⟨k', v⟩ := pr
    by_cases hk : k' = k
    · subst hk
      simp [alistLookup]
    · rw [List.map_cons, List.mem_cons]
      unfold alistLookup
      rw [if_neg hk, ih]
      constructor
      · intro hnk hor
        rcases hor with heq | hmem
        · exact hk heq.symm
        · exact hnk hmem
      · intro hnk hmem
        exact hnk (Or.inr hmem)

theorem alistLookup_mem (m : List (Handle × Handle)) (k v : Handle)
    (h : alistLookup m k = some v) : (k, v) ∈ m := by
  induction m with
  | nil => simp [alistLookup] at h
  | cons pr rest ih =>
    obtain ⟨k', v'⟩ := pr
    unfold alistLookup at h
    by_cases hk : k' = k
    · rw [if_pos hk] at h
      have hv : v' = v := Option.some.inj h
      rw [← hk, ← hv]
      exact List.mem_cons_self _ _
    · rw [if_neg hk] at h
      exact List.mem_cons_of_mem _ (ih h)

namespace Graph

open Pool

/-- The per-node surface rewrite of `copy_node`'s bone-remap pass. -/
def remapFn (mapping : List (Handle × Handle)) : Node → Node
  | Node.Mesh b surfs => Node.Mesh b (surfs.map fun s =>
      { s with bones := s.bones.map fun bone => (alistLookup mapping bone).getD bone })
  | n => n

theorem remapBonesAt_pool (dest : Graph) (h : Handle)
    (mapping : List (Handle × Handle)) :
    (remapBonesAt dest h mapping).pool = dest.pool.update h (remapFn mapping) := by
  show dest.pool.update h _ = dest.pool.update h _
  have hfe : (fun n => match n with
      | Node.Mesh b surfs => Node.Mesh b (surfs.map fun s =>
          { s with bones := s.bones.map fun bone =>
              (alistLookup mapping bone).getD bone })
      | other => other) = remapFn mapping := by
    funext n
    cases n <;> rfl
  rw [hfe]

theorem remapFn_view (mapping : List (Handle × Handle)) (n : Node) :
    (remapFn mapping n).base = n.base ∧
    (remapFn mapping n).isMesh = n.isMesh ∧
    (remapFn mapping n).surfaces = n.surfaces.map (fun sur =>
      { sur with bones := sur.bones.map fun bone =>
          (alistLookup mapping bone).getD bone }) := by
  cases n <;> simp [remapFn, Node.base, Node.isMesh, Node.surfaces]

theorem copyView_fields {n : Node} {o : Handle} {ss : List Surface} {mm : Bool}
    (h : n.copyView = (o, ss, mm)) :
    n.base.original = o ∧ n.surfaces = ss ∧ n.isMesh = mm := by
  unfold Node.copyView at h
  exact ⟨congrArg (fun t => t.1) h, congrArg (fun t => t.2.1) h,
    congrArg (fun t => t.2.2) h⟩

/-- Effect of the bone-remap fold of `copy_node` on each destination handle:
recorded copies get their mesh surfaces rewritten once, everything else is
untouched. -/
theorem remapFold_borrow (mapping : List (Handle × Handle)) :
    ∀ (prs : List (Handle × Handle)) (dest : Graph),
      (prs.map Prod.snd).Nodup →
      ∀ d,
        (d ∈ prs.map Prod.snd →
          (prs.foldl (fun g pr => remapBonesAt g pr.2 mapping) dest).pool.borrow d
            = (dest.pool.borrow d).map (remapFn mapping)) ∧
        (d ∉ prs.map Prod.snd →
          (prs.foldl (fun g pr => remapBonesAt g pr.2 mapping) dest).pool.borrow d
            = dest.pool.borrow d) := by
  intro prs
  induction prs with
  | nil =>
    intro dest hnd d
    exact ⟨fun hmem => absurd hmem (by simp), fun _ => rfl⟩
  | cons pr prs ih =>
    intro dest hnd d
    rw [List.map_cons, List.nodup_cons] at hnd
    rw [List.foldl_cons]
    constructor
    · intro hmem
      rw [List.map_cons] at hmem
      rcases List.mem_cons.mp hmem with heq | hmem'
      · have hfr := (ih (remapBonesAt dest pr.2 mapping) hnd.2 d).2
          (by rw [heq]; exact hnd.1)
        rw [hfr, heq, remapBonesAt_pool, borrow_update_self]
      · have hmain := (ih (remapBonesAt dest pr.2 mapping) hnd.2 d).1 hmem'
        have hne : d ≠ pr.2 := fun he => hnd.1 (he ▸ hmem')
        rw [hmain, remapBonesAt_pool, borrow_update_ne _ _ hne]
    · intro hmem
      rw [List.map_cons] at hmem
      have h1 : d ≠ pr.2 := fun he => hmem (by rw [he]; exact List.mem_cons_self _ _)
      have h2 : d ∉ prs.map Prod.snd := fun hm => hmem (List.mem_cons_of_mem _ hm)
      have hfr := (ih (remapBonesAt dest pr.2 mapping) hnd.2 d).2 h2
      rw [hfr, remapBonesAt_pool, borrow_update_ne _ _ h1]

end Graph

/-! ## Resolution idempotence -/

/-- Everything `resolve` ever reads about a node: identification, hierarchy
links, resource provenance, the resolution outputs of pass 1 and the mesh
discriminant. The per-frame transform outputs and the surface lists are
excluded: no branch of `resolve` depends on them. -/
def Node.resolveRead (n : Node) :
    String × Handle × List Handle × Option Nat × Bool × Handle × Mat4 × Bool :=
  (n.base.name, n.base.parent, n.base.children, n.base.resource,
   n.base.isResourceInstance, n.base.original, n.base.invBindPoseTransform,
   n.isMesh)

/-- The slot view that drives `resolve`: the generation (for handle
validity) and the read view of the payload. -/
def recReadView (r : PoolRecord Node) :
    Nat × Option (String × Handle × List Handle × Option Nat × Bool × Handle
      × Mat4 × Bool) :=
  (r.generation, r.payload.map Node.resolveRead)

/-- Two graphs agree on everything `resolve` reads. -/
def Graph.FullEq (g₁ g₂ : Graph) : Prop :=
  g₁.pool.records.length = g₂.pool.records.length ∧
  ∀ i : Nat, (g₁.pool.records[i]?).map recReadView
    = (g₂.pool.records[i]?).map recReadView

theorem Graph.FullEq.refl (g : Graph) : g.FullEq g := ⟨rfl, fun _ => rfl⟩

theorem Graph.FullEq.symm {g₁ g₂ : Graph} (h : g₁.FullEq g₂) : g₂.FullEq g₁ :=
  ⟨h.1.symm, fun i => (h.2 i).symm⟩

theorem Graph.FullEq.trans {g₁ g₂ g₃ : Graph} (h : g₁.FullEq g₂)
    (h' : g₂.FullEq g₃) : g₁.FullEq g₃ :=
  ⟨h.1.trans h'.1, fun i => (h.2 i).trans (h'.2 i)⟩

theorem Graph.FullEq.cap {g₁ g₂ : Graph} (h : g₁.FullEq g₂) :
    g₁.pool.getCapacity = g₂.pool.getCapacity := h.1

theorem Graph.FullEq.borrowView {g₁ g₂ : Graph} (h : g₁.FullEq g₂) (k : Handle) :
    (g₁.pool.borrow k).map Node.resolveRead
      = (g₂.pool.borrow k).map Node.resolveRead := by
  have hi := h.2 k.index
  unfold Pool.borrow
  cases h1 : g₁.pool.records[k.index]? with
  | none =>
    cases h2 : g₂.pool.records[k.index]? with
    | none => rfl
    | some r2 => rw [h1, h2] at hi; simp [recReadView] at hi
  | some r1 =>
    cases h2 : g₂.pool.records[k.index]? with
    | none => rw [h1, h2] at hi; simp [recReadView] at hi
    | some r2 =>
      rw [h1, h2] at hi
      simp only [Option.map_some'] at hi
      have hi2 : recReadView r1 = recReadView r2 := Option.some.inj hi
      have hgen : r1.generation = r2.generation :=
        congrArg (fun t => t.1) hi2
      have hpay : r1.payload.map Node.resolveRead
          = r2.payload.map Node.resolveRead :=
        congrArg (fun t => t.2) hi2
      simp only []
      rw [hgen]
      by_cases hg2 : r2.generation = k.generation
      · rw [if_pos hg2, if_pos hg2]
        exact hpay
      · rw [if_neg hg2, if_neg hg2]

theorem Graph.FullEq.liveHandles_eq {g₁ g₂ : Graph} (h : g₁.FullEq g₂) :
    g₁.pool.liveHandles = g₂.pool.liveHandles := by
  unfold Pool.liveHandles
  rw [h.1]
  refine List.filterMap_congr ?_
  intro i _
  have hi := h.2 i
  unfold Pool.atIndex Pool.handleFromIndex
  cases h1 : g₁.pool.records[i]? with
  | none =>
    cases h2 : g₂.pool.records[i]? with
    | none => rfl
    | some r2 => rw [h1, h2] at hi; simp [recReadView] at hi
  | some r1 =>
    cases h2 : g₂.pool.records[i]? with
    | none => rw [h1, h2] at hi; simp [recReadView] at hi
    | some r2 =>
      rw [h1, h2] at hi
      simp only [Option.map_some'] at hi
      have hi2 : recReadView r1 = recReadView r2 := Option.some.inj hi
      have hgen : r1.generation = r2.generation :=
        congrArg (fun t => t.1) hi2
      have hpay : r1.payload.map Node.resolveRead
          = r2.payload.map Node.resolveRead :=
        congrArg (fun t => t.2) hi2
      have hsome : r1.payload.isSome = r2.payload.isSome := by
        cases hp1 : r1.payload <;> cases hp2 : r2.payload
        · rfl
        · rw [hp1, hp2] at hpay; simp at hpay
        · rw [hp1, hp2] at hpay; simp at hpay
        · rfl
      simp only [Option.some_bind, Option.map_some', hgen, hsome]

theorem Pool.update_readView (p : Pool Node) (h : Handle) (f : Node → Node)
    (hf : ∀ n, Node.resolveRead (f n) = Node.resolveRead n) (i : Nat) :
    (((p.update h f).records[i]?).map recReadView)
      = ((p.records[i]?).map recReadView) := by
  unfold Pool.update
  cases hg : p.records[h.index]? with
  | none => rfl
  | some r =>
    simp only []
    by_cases hc : r.generation = h.generation
    · rw [if_pos hc]
      by_cases hi : h.index = i
      · subst hi
        simp only []
        rw [List.getElem?_set_self (List.getElem?_eq_some_iff.mp hg).1, hg]
        unfold recReadView
        simp only [Option.map_some']
        cases hp : r.payload with
        | none => rfl
        | some n => simp [hf]
      · simp only []
        rw [List.getElem?_set_ne hi]
    · rw [if_neg hc]

/-- `update` through any payload-view it preserves, at the borrow level. -/
theorem Pool.update_view_borrow {β : Type} (φ : Node → β) (p : Pool Node)
    (h : Handle) (f : Node → Node) (hf : ∀ n, φ (f n) = φ n) (k : Handle) :
    ((p.update h f).borrow k).map φ = (p.borrow k).map φ := by
  by_cases hk : k = h
  · subst hk
    rw [Pool.borrow_update_self]
    cases hb : p.borrow k with
    | none => rfl
    | some n => simp [hf]
  · rw [Pool.borrow_update_ne p f hk]

theorem length_eq_of_view {α β : Type} (f : α → β) (l₁ l₂ : List α)
    (h : ∀ i : Nat, (l₁[i]?).map f = (l₂[i]?).map f) : l₁.length = l₂.length := by
  by_contra hne
  rcases Nat.lt_or_ge l₁.length l₂.length with hlt | hge
  · have h1 : l₁[l₁.length]? = none := List.getElem?_eq_none (Nat.le_refl _)
    have h2 : l₂[l₁.length]?.isSome = true := by
      rw [List.getElem?_eq_getElem hlt]
      rfl
    obtain ⟨a, ha⟩ := Option.isSome_iff_exists.mp h2
    have hv := h l₁.length
    rw [h1, ha] at hv
    simp at hv
  · have hlt2 : l₂.length < l₁.length := by omega
    have h1 : l₂[l₂.length]? = none := List.getElem?_eq_none (Nat.le_refl _)
    have h2 : l₁[l₂.length]?.isSome = true := by
      rw [List.getElem?_eq_getElem hlt2]
      rfl
    obtain ⟨a, ha⟩ := Option.isSome_iff_exists.mp h2
    have hv := h l₂.length
    rw [h1, ha] at hv
    simp at hv

namespace Graph

theorem pass2Step_readView (env : ResourceEnv) (g : Graph) (k : Handle)
    (i : Nat) :
    (((pass2Step env g k).pool.records[i]?).map recReadView)
      = ((g.pool.records[i]?).map recReadView) := by
  unfold pass2Step
  cases hb : g.pool.borrow k with
  | none => rfl
  | some n =>
    simp only []
    cases n with
    | Mesh b s =>
      simp only []
      cases hres : b.resource with
      | none => rfl
      | some rid =>
        simp only []
        cases henv : env.get? rid with
        | none => rfl
        | some model =>
          simp only []
          cases hmb : model.pool.borrow (model.findByNameFromRoot b.name) with
          | none => rfl
          | some rn =>
            cases rn with
            | Mesh rb rs =>
              exact Pool.update_readView g.pool k _ (fun m => by cases m <;> rfl) i
            | Base rb => rfl
            | Camera rb => rfl
            | Light rb => rfl
            | ParticleSystem rb => rfl
            | Sprite rb => rfl
    | Base b => rfl
    | Camera b => rfl
    | Light b => rfl
    | ParticleSystem b => rfl
    | Sprite b => rfl

theorem pass2Fold_readView (env : ResourceEnv) :
    ∀ (l : List Handle) (g : Graph) (i : Nat),
      (((l.foldl (pass2Step env) g).pool.records[i]?).map recReadView)
        = ((g.pool.records[i]?).map recReadView) := by
  intro l
  induction l with
  | nil => intro g i; rfl
  | cons k rest ih =>
    intro g i
    rw [List.foldl_cons, ih, pass2Step_readView]

theorem updateTransformsLoop_readView :
    ∀ (fuel : Nat) (stack : List Handle) (p : Pool Node) (i : Nat),
      (((updateTransformsLoop fuel stack p).records[i]?).map recReadView)
        = ((p.records[i]?).map recReadView) := by
  intro fuel
  induction fuel with
  | zero => intro stack p i; rfl
  | succ fuel ih =>
    intro stack p i
    cases stack with
    | nil => rfl
    | cons h rest =>
      rw [updateTransformsLoop]
      cases hb : p.borrow h with
      | none => rfl
      | some node =>
        simp only []
        rw [ih]
        exact Pool.update_readView p h _ (fun m => by cases m <;> rfl) i

theorem updateTransforms_fullEq (g : Graph) : (g.updateTransforms).FullEq g := by
  constructor
  · exact length_eq_of_view recReadView _ _ fun i => updateTransformsLoop_readView _ _ _ i
  · intro i
    exact updateTransformsLoop_readView _ _ _ i

theorem pass2_fullEq (env : ResourceEnv) (g : Graph) :
    (pass2 env g).FullEq g := by
  constructor
  · exact length_eq_of_view recReadView _ _ fun i => pass2Fold_readView env _ _ i
  · intro i
    exact pass2Fold_readView env _ _ i

end Graph

theorem Node.resolveRead_fields {n m : Node} (h : n.resolveRead = m.resolveRead) :
    n.base.name = m.base.name ∧ n.base.parent = m.base.parent ∧
    n.base.children = m.base.children ∧ n.base.resource = m.base.resource ∧
    n.base.isResourceInstance = m.base.isResourceInstance ∧
    n.base.original = m.base.original ∧
    n.base.invBindPoseTransform = m.base.invBindPoseTransform ∧
    n.isMesh = m.isMesh :=
  ⟨congrArg (fun t => t.1) h, congrArg (fun t => t.2.1) h,
   congrArg (fun t => t.2.2.1) h, congrArg (fun t => t.2.2.2.1) h,
   congrArg (fun t => t.2.2.2.2.1) h, congrArg (fun t => t.2.2.2.2.2.1) h,
   congrArg (fun t => t.2.2.2.2.2.2.1) h, congrArg (fun t => t.2.2.2.2.2.2.2) h⟩

theorem Node.resolveRead_mapBase_resolve (n : Node) (o : Handle) (m4 : Mat4) :
    (n.mapBase fun b =>
        { b with original := o, invBindPoseTransform := m4 }).resolveRead
      = (n.base.name, n.base.parent, n.base.children, n.base.resource,
         n.base.isResourceInstance, o, m4, n.isMesh) := by
  cases n <;> rfl

namespace Graph

theorem pass1Node_fields (env : ResourceEnv) (n : Node) :
    (pass1Node env n).base.name = n.base.name ∧
    (pass1Node env n).base.resource = n.base.resource ∧
    (pass1Node env n).surfaces = n.surfaces := by
  unfold pass1Node
  cases hres : n.base.resource with
  | none => exact ⟨rfl, hres, rfl⟩
  | some rid =>
    simp only []
    cases henv : env.get? rid with
    | none => exact ⟨rfl, hres, rfl⟩
    | some model =>
      simp only []
      cases hf : model.pool.pairList.find?
          (fun pr => pr.2.base.name = n.base.name) with
      | none => exact ⟨rfl, hres, rfl⟩
      | some pr =>
        simp only []
        refine ⟨?_, ?_, ?_⟩
        · cases n <;> rfl
        · refine Eq.trans ?_ hres
          cases n <;> rfl
        · cases n <;> rfl

theorem pass1Node_readView_congr (env : ResourceEnv) {n m : Node}
    (h : n.resolveRead = m.resolveRead) :
    (pass1Node env n).resolveRead = (pass1Node env m).resolveRead := by
  obtain ⟨hname, hpar, hch, hres, hinst, horig, hinv, hmesh⟩ :=
    Node.resolveRead_fields h
  unfold pass1Node
  rw [hres, hname]
  cases hr : m.base.resource with
  | none => exact h
  | some rid =>
    simp only []
    cases henv : env.get? rid with
    | none => exact h
    | some model =>
      simp only []
      cases hf : model.pool.pairList.find?
          (fun pr => pr.2.base.name = m.base.name) with
      | none => exact h
      | some pr =>
        simp only []
        rw [Node.resolveRead_mapBase_resolve, Node.resolveRead_mapBase_resolve]
        rw [hname, hpar, hch, hres, hinst, hmesh]

theorem pass1Node_readView_idem (env : ResourceEnv) (n : Node) :
    (pass1Node env (pass1Node env n)).resolveRead
      = (pass1Node env n).resolveRead := by
  obtain ⟨hname, hres, _⟩ := pass1Node_fields env n
  set n1 := pass1Node env n with hn1
  conv_lhs => unfold pass1Node
  rw [hres, hname]
  cases hr : n.base.resource with
  | none => rfl
  | some rid =>
    simp only []
    cases henv : env.get? rid with
    | none => rfl
    | some model =>
      simp only []
      cases hf : model.pool.pairList.find?
          (fun pr => pr.2.base.name = n.base.name) with
      | none => rfl
      | some pr =>
        simp only []
        have hn1eq : n1 = n.mapBase fun b =>
            { b with
              original := pr.1
              invBindPoseTransform := pr.2.base.invBindPoseTransform } := by
          rw [hn1]
          unfold pass1Node
          rw [hr]
          simp only []
          rw [henv]
          simp only []
          rw [hf]
        rw [hn1eq]
        cases n <;> rfl

theorem pass1_records_eq (env : ResourceEnv) (g : Graph) (i : Nat) :
    (pass1 env g).pool.records[i]?
      = (g.pool.records[i]?).map fun r =>
          { r with payload := r.payload.map (pass1Node env) } := by
  show (g.pool.records.map _)[i]? = _
  rw [List.getElem?_map]

theorem pass1_fullEq_congr (env : ResourceEnv) {g g' : Graph}
    (h : g.FullEq g') : (pass1 env g).FullEq (pass1 env g') := by
  constructor
  · show (g.pool.records.map _).length = (g'.pool.records.map _).length
    simp [h.1]
  · intro i
    rw [pass1_records_eq, pass1_records_eq]
    have hi := h.2 i
    cases h1 : g.pool.records[i]? with
    | none =>
      cases h2 : g'.pool.records[i]? with
      | none => rfl
      | some r2 => rw [h1, h2] at hi; simp [recReadView] at hi
    | some r1 =>
      cases h2 : g'.pool.records[i]? with
      | none => rw [h1, h2] at hi; simp [recReadView] at hi
      | some r2 =>
        rw [h1, h2] at hi
        simp only [Option.map_some'] at hi
        have hi2 : recReadView r1 = recReadView r2 := Option.some.inj hi
        have hgen : r1.generation = r2.generation :=
          congrArg (fun t => t.1) hi2
        have hpay : r1.payload.map Node.resolveRead
            = r2.payload.map Node.resolveRead :=
          congrArg (fun t => t.2) hi2
        simp only [Option.map_some']
        unfold recReadView
        simp only []
        rw [hgen]
        cases hp1 : r1.payload with
        | none =>
          cases hp2 : r2.payload with
          | none => rfl
          | some m => rw [hp1, hp2] at hpay; simp at hpay
        | some nn =>
          cases hp2 : r2.payload with
          | none => rw [hp1, hp2] at hpay; simp at hpay
          | some mm =>
            rw [hp1, hp2] at hpay
            simp only [Option.map_some'] at hpay
            have hv : nn.resolveRead = mm.resolveRead := Option.some.inj hpay
            simp only [Option.map_some', pass1Node_readView_congr env hv]

theorem pass1_fullEq_idem (env : ResourceEnv) (g : Graph) :
    (pass1 env (pass1 env g)).FullEq (pass1 env g) := by
  constructor
  · show ((g.pool.records.map _).map _).length = (g.pool.records.map _).length
    simp
  · intro i
    rw [pass1_records_eq, pass1_records_eq]
    cases h1 : g.pool.records[i]? with
    | none => rfl
    | some r =>
      simp only [Option.map_some']
      unfold recReadView
      simp only []
      cases hp : r.payload with
      | none => rfl
      | some nn =>
        simp only [Option.map_some', pass1Node_readView_idem env nn]

end Graph

namespace Graph

theorem findModelRootAux_congr {g₁ g₂ : Graph} (h : g₁.FullEq g₂) :
    ∀ (fuel : Nat) (x : Handle),
      findModelRootAux g₁ fuel x = findModelRootAux g₂ fuel x := by
  intro fuel
  induction fuel with
  | zero => intro x; rfl
  | succ fuel ih =>
    intro x
    rw [findModelRootAux, findModelRootAux]
    by_cases hx : x.isSomeH = true
    · rw [if_pos hx, if_pos hx]
      have hb := h.borrowView x
      cases hb1 : g₁.pool.borrow x with
      | none =>
        cases hb2 : g₂.pool.borrow x with
        | none => rfl
        | some m => rw [hb1, hb2] at hb; simp at hb
      | some n =>
        cases hb2 : g₂.pool.borrow x with
        | none => rw [hb1, hb2] at hb; simp at hb
        | some m =>
          rw [hb1, hb2] at hb
          simp only [Option.map_some'] at hb
          obtain ⟨hname, hpar, hch, hres, hinst, horig, hinv, hmesh⟩ :=
            Node.resolveRead_fields (Option.some.inj hb)
          simp only []
          rw [hpar, hinst]
          by_cases hp : m.base.parent.isSomeH = true
          · simp only [hp, ih]
          · simp only [hp, ih]
    · rw [if_neg hx, if_neg hx]

theorem findModelRoot_congr {g₁ g₂ : Graph} (h : g₁.FullEq g₂) (x : Handle) :
    g₁.findModelRoot x = g₂.findModelRoot x := by
  unfold findModelRoot
  rw [show g₁.pool.getCapacity = g₂.pool.getCapacity from h.1]
  exact findModelRootAux_congr h _ x

theorem findCopyList_congr {g₁ g₂ : Graph} (h : g₁.FullEq g₂) :
    ∀ (fuel : Nat) (l : List Handle) (t : Handle),
      findCopyList g₁ fuel l t = findCopyList g₂ fuel l t := by
  intro fuel
  induction fuel with
  | zero => intro l t; rfl
  | succ fuel ih =>
    intro l t
    cases l with
    | nil => rfl
    | cons r rs =>
      rw [findCopyList, findCopyList]
      have hb := h.borrowView r
      cases hb1 : g₁.pool.borrow r with
      | none =>
        cases hb2 : g₂.pool.borrow r with
        | none => exact ih rs t
        | some m => rw [hb1, hb2] at hb; simp at hb
      | some n =>
        cases hb2 : g₂.pool.borrow r with
        | none => rw [hb1, hb2] at hb; simp at hb
        | some m =>
          rw [hb1, hb2] at hb
          simp only [Option.map_some'] at hb
          obtain ⟨hname, hpar, hch, hres, hinst, horig, hinv, hmesh⟩ :=
            Node.resolveRead_fields (Option.some.inj hb)
          simp only []
          rw [horig, hch]
          by_cases ht : m.base.original = t
          · rw [if_pos ht, if_pos ht]
          · rw [if_neg ht, if_neg ht]
            exact ih _ t

theorem findCopyOf_congr {g₁ g₂ : Graph} (h : g₁.FullEq g₂) (r t : Handle) :
    g₁.findCopyOf r t = g₂.findCopyOf r t := by
  unfold findCopyOf
  rw [show g₁.pool.getCapacity = g₂.pool.getCapacity from h.1]
  exact findCopyList_congr h _ [r] t

end Graph

namespace Graph

/-- What the resync pass of `resolve` writes to the surfaces of one node, if
anything: the resource mesh's surfaces with every bone remapped through
`find_copy_of` against the model root of the node. -/
def p2Write (env : ResourceEnv) (g : Graph) (k : Handle) : Option (List Surface) :=
  match g.pool.borrow k with
  | some (Node.Mesh b _) =>
    match b.resource with
    | some rid =>
      match env.get? rid with
      | some model =>
        match model.pool.borrow (model.findByNameFromRoot b.name) with
        | some (Node.Mesh _ rsurfs) =>
          some (rsurfs.map fun s =>
            { s with bones := s.bones.map fun bone =>
                g.findCopyOf (g.findModelRoot k) bone })
        | _ => none
      | none => none
    | none => none
  | _ => none

theorem pass2Step_none (env : ResourceEnv) (g : Graph) (k : Handle)
    (h : p2Write env g k = none) : pass2Step env g k = g := by
  unfold p2Write at h
  unfold pass2Step
  cases hb : g.pool.borrow k with
  | none => rfl
  | some n =>
    rw [hb] at h
    simp only []
    cases n with
    | Mesh b s =>
      simp only [] at h ⊢
      cases hres : b.resource with
      | none => rfl
      | some rid =>
        rw [hres] at h
        simp only [] at h ⊢
        cases henv : env.get? rid with
        | none => rfl
        | some model =>
          rw [henv] at h
          simp only [] at h ⊢
          cases hmb : model.pool.borrow (model.findByNameFromRoot b.name) with
          | none => rfl
          | some rn =>
            rw [hmb] at h
            cases rn with
            | Mesh rb rs => simp at h
            | Base rb => rfl
            | Camera rb => rfl
            | Light rb => rfl
            | ParticleSystem rb => rfl
            | Sprite rb => rfl
    | Base b => rfl
    | Camera b => rfl
    | Light b => rfl
    | ParticleSystem b => rfl
    | Sprite b => rfl

theorem pass2Step_write (env : ResourceEnv) (g : Graph) (k : Handle)
    (v : List Surface) (h : p2Write env g k = some v) :
    ∃ b s, g.pool.borrow k = some (Node.Mesh b s) ∧
      pass2Step env g k = g.updateNode k (fun node =>
        match node with
        | Node.Mesh b' _ => Node.Mesh b' v
        | other => other) := by
  unfold p2Write at h
  unfold pass2Step
  cases hb : g.pool.borrow k with
  | none => rw [hb] at h; simp at h
  | some n =>
    rw [hb] at h
    simp only []
    cases n with
    | Mesh b s =>
      simp only [] at h ⊢
      cases hres : b.resource with
      | none => rw [hres] at h; simp at h
      | some rid =>
        rw [hres] at h
        simp only [] at h ⊢
        cases henv : env.get? rid with
        | none => rw [henv] at h; simp at h
        | some model =>
          rw [henv] at h
          simp only [] at h ⊢
          cases hmb : model.pool.borrow (model.findByNameFromRoot b.name) with
          | none => rw [hmb] at h; simp at h
          | some rn =>
            rw [hmb] at h
            cases rn with
            | Mesh rb rs =>
              simp only [Option.some.injEq] at h
              refine ⟨b, s, rfl, ?_⟩
              simp only []
              rw [h]
            | Base rb => simp at h
            | Camera rb => simp at h
            | Light rb => simp at h
            | ParticleSystem rb => simp at h
            | Sprite rb => simp at h
    | Base b => simp at h
    | Camera b => simp at h
    | Light b => simp at h
    | ParticleSystem b => simp at h
    | Sprite b => simp at h

theorem pass2Step_borrow_ne (env : ResourceEnv) (g : Graph) (k0 k : Handle)
    (hne : k ≠ k0) :
    (pass2Step env g k0).pool.borrow k = g.pool.borrow k := by
  cases hpw : p2Write env g k0 with
  | none => rw [pass2Step_none env g k0 hpw]
  | some v =>
    obtain ⟨b, s, hb, hstep⟩ := pass2Step_write env g k0 v hpw
    rw [hstep, updateNode_pool]
    exact Pool.borrow_update_ne _ _ hne

theorem p2Write_congr {g₁ g₂ : Graph} (h : g₁.FullEq g₂) (env : ResourceEnv)
    (k : Handle) : p2Write env g₁ k = p2Write env g₂ k := by
  unfold p2Write
  have hb := h.borrowView k
  cases hb1 : g₁.pool.borrow k with
  | none =>
    cases hb2 : g₂.pool.borrow k with
    | none => rfl
    | some m => rw [hb1, hb2] at hb; simp at hb
  | some n =>
    cases hb2 : g₂.pool.borrow k with
    | none => rw [hb1, hb2] at hb; simp at hb
    | some m =>
      rw [hb1, hb2] at hb
      simp only [Option.map_some'] at hb
      obtain ⟨hname, hpar, hch, hres, hinst, horig, hinv, hmesh⟩ :=
        Node.resolveRead_fields (Option.some.inj hb)
      cases n with
      | Mesh b s =>
        cases m with
        | Mesh b' s' =>
          simp only []
          have hbres : b.resource = b'.resource := hres
          have hbname : b.name = b'.name := hname
          rw [hbres, hbname, findModelRoot_congr h k]
          simp only [findCopyOf_congr h]
        | Base b' => simp [Node.isMesh] at hmesh
        | Camera b' => simp [Node.isMesh] at hmesh
        | Light b' => simp [Node.isMesh] at hmesh
        | ParticleSystem b' => simp [Node.isMesh] at hmesh
        | Sprite b' => simp [Node.isMesh] at hmesh
      | Base b =>
        cases m <;> first
          | rfl
          | simp [Node.isMesh] at hmesh
      | Camera b =>
        cases m <;> first
          | rfl
          | simp [Node.isMesh] at hmesh
      | Light b =>
        cases m <;> first
          | rfl
          | simp [Node.isMesh] at hmesh
      | ParticleSystem b =>
        cases m <;> first
          | rfl
          | simp [Node.isMesh] at hmesh
      | Sprite b =>
        cases m <;> first
          | rfl
          | simp [Node.isMesh] at hmesh

theorem pass1_borrow_surfaces (env : ResourceEnv) (g : Graph) (k : Handle) :
    ((pass1 env g).pool.borrow k).map Node.surfaces
      = (g.pool.borrow k).map Node.surfaces := by
  show ((g.pool.mapPayloads (pass1Node env)).borrow k).map _ = _
  rw [Pool.borrow_mapPayloads]
  cases hb : g.pool.borrow k with
  | none => rfl
  | some n => simp [(pass1Node_fields env n).2.2]

theorem updateTransformsLoop_borrow_surfaces :
    ∀ (fuel : Nat) (stack : List Handle) (p : Pool Node) (k : Handle),
      ((updateTransformsLoop fuel stack p).borrow k).map Node.surfaces
        = (p.borrow k).map Node.surfaces := by
  intro fuel
  induction fuel with
  | zero => intro stack p k; rfl
  | succ fuel ih =>
    intro stack p k
    cases stack with
    | nil => rfl
    | cons h rest =>
      rw [updateTransformsLoop]
      cases hb : p.borrow h with
      | none => rfl
      | some node =>
        simp only []
        rw [ih]
        exact Pool.update_view_borrow Node.surfaces p h _
          (fun m => Node.surfaces_mapBase _ m) k

theorem updateTransforms_borrow_surfaces (g : Graph) (k : Handle) :
    ((g.updateTransforms).pool.borrow k).map Node.surfaces
      = (g.pool.borrow k).map Node.surfaces :=
  updateTransformsLoop_borrow_surfaces _ _ _ k

end Graph

namespace Graph

theorem pass2Step_fullEq (env : ResourceEnv) (g : Graph) (k : Handle) :
    (pass2Step env g k).FullEq g :=
  ⟨length_eq_of_view recReadView _ _ (fun i => pass2Step_readView env g k i),
   fun i => pass2Step_readView env g k i⟩

/-- The resync fold writes `p2Write` — computed against any graph that agrees
on all resolve-read data — at every handle of the work list it applies to,
and leaves every other surface list untouched. -/
theorem pass2Fold_surfaces (env : ResourceEnv) (g0 : Graph) :
    ∀ (l : List Handle) (gc : Graph), gc.FullEq g0 →
      ∀ k,
        (k ∈ l → ∀ v, p2Write env g0 k = some v →
          (((l.foldl (pass2Step env) gc).pool.borrow k).map Node.surfaces)
            = some v) ∧
        ((k ∉ l ∨ p2Write env g0 k = none) →
          (((l.foldl (pass2Step env) gc).pool.borrow k).map Node.surfaces)
            = (gc.pool.borrow k).map Node.surfaces) := by
  intro l
  induction l with
  | nil =>
    intro gc hfe k
    exact ⟨fun hmem => absurd hmem (by simp), fun _ => rfl⟩
  | cons k0 rest ih =>
    intro gc hfe k
    rw [List.foldl_cons]
    have hfe' : (pass2Step env gc k0).FullEq g0 :=
      (pass2Step_fullEq env gc k0).trans hfe
    constructor
    · intro hmem v hw
      by_cases hkr : k ∈ rest
      · exact (ih _ hfe' k).1 hkr v hw
      · have hk0 : k = k0 := by
          rcases List.mem_cons.mp hmem with he | hr
          · exact he
          · exact absurd hr hkr
        subst hk0
        have hnot := (ih _ hfe' k).2 (Or.inl hkr)
        rw [hnot]
        have hwc : p2Write env gc k = some v := by
          rw [p2Write_congr hfe env k]
          exact hw
        obtain ⟨b, s, hbk, hstep⟩ := pass2Step_write env gc k v hwc
        rw [hstep, updateNode_pool, Pool.borrow_update_self, hbk]
        rfl
    · intro hcond
      rcases hcond with hnot | hn
      · have hk0 : k ≠ k0 := fun he => hnot (he ▸ List.mem_cons_self k0 rest)
        have hkr : k ∉ rest := fun hr => hnot (List.mem_cons_of_mem _ hr)
        have h1 := (ih _ hfe' k).2 (Or.inl hkr)
        rw [h1, pass2Step_borrow_ne env gc k0 k hk0]
      · have h1 := (ih _ hfe' k).2 (Or.inr hn)
        rw [h1]
        by_cases hk0 : k = k0
        · subst hk0
          have hnc : p2Write env gc k = none := by
            rw [p2Write_congr hfe env k]
            exact hn
          rw [pass2Step_none env gc k hnc]
        · rw [pass2Step_borrow_ne env gc k0 k hk0]

end Graph

/-- The per-entity resolution state named by the idempotence claim: the
`original` back-reference, the inverse bind pose and the surface list with
its bone handles. -/
def Node.resolvedState (n : Node) : Handle × Mat4 × List Surface :=
  (n.base.original, n.base.invBindPoseTransform, n.surfaces)

theorem Graph.pass2_eq_foldl (env : ResourceEnv) (g : Graph) :
    Graph.pass2 env g = (g.pool.liveHandles).foldl (Graph.pass2Step env) g := rfl

/-- C6: `resolve()` is idempotent — running it twice in immediate succession
leaves every entity's `original` field, inverse bind pose transform, surface
list and surface bone handles exactly as one run leaves them. -/
theorem C6_resolve_idempotent (env : ResourceEnv) (g : Graph) :
    ∀ k, ((Graph.resolve env (Graph.resolve env g)).pool.borrow k).map
        Node.resolvedState
      = ((Graph.resolve env g).pool.borrow k).map Node.resolvedState := by
  intro k
  have hres1 : (Graph.resolve env g).FullEq
      (Graph.pass1 env (Graph.updateTransforms g)) :=
    Graph.pass2_fullEq env (Graph.pass1 env (Graph.updateTransforms g))
  have hutB : (Graph.updateTransforms (Graph.resolve env g)).FullEq
      (Graph.resolve env g) :=
    Graph.updateTransforms_fullEq (Graph.resolve env g)
  have hAB : (Graph.pass1 env (Graph.updateTransforms
      (Graph.resolve env g))).FullEq
      (Graph.pass1 env (Graph.updateTransforms g)) := by
    refine ((Graph.pass1_fullEq_congr env (hutB.trans hres1)).trans ?_)
    exact Graph.pass1_fullEq_idem env (Graph.updateTransforms g)
  have houtFE : (Graph.resolve env (Graph.resolve env g)).FullEq
      (Graph.resolve env g) :=
    ((Graph.pass2_fullEq env _).trans hAB).trans hres1.symm
  have hRV := houtFE.borrowView k
  have hlh : (Graph.pass1 env (Graph.updateTransforms
      (Graph.resolve env g))).pool.liveHandles
      = (Graph.pass1 env (Graph.updateTransforms g)).pool.liveHandles :=
    hAB.liveHandles_eq
  have hBsurf : ∀ j, ((Graph.pass1 env (Graph.updateTransforms
      (Graph.resolve env g))).pool.borrow j).map Node.surfaces
      = ((Graph.resolve env g).pool.borrow j).map Node.surfaces := by
    intro j
    rw [Graph.pass1_borrow_surfaces, Graph.updateTransforms_borrow_surfaces]
  have hspec2 := Graph.pass2Fold_surfaces env
    (Graph.pass1 env (Graph.updateTransforms (Graph.resolve env g)))
    (Graph.pass1 env (Graph.updateTransforms
      (Graph.resolve env g))).pool.liveHandles
    (Graph.pass1 env (Graph.updateTransforms (Graph.resolve env g)))
    (Graph.FullEq.refl _) k
  have hspec1 := Graph.pass2Fold_surfaces env
    (Graph.pass1 env (Graph.updateTransforms g))
    (Graph.pass1 env (Graph.updateTransforms g)).pool.liveHandles
    (Graph.pass1 env (Graph.updateTransforms g))
    (Graph.FullEq.refl _) k
  have hL : Graph.resolve env (Graph.resolve env g)
      = ((Graph.pass1 env (Graph.updateTransforms
          (Graph.resolve env g))).pool.liveHandles).foldl (Graph.pass2Step env)
        (Graph.pass1 env (Graph.updateTransforms (Graph.resolve env g))) :=
    Graph.pass2_eq_foldl env _
  have hR : Graph.resolve env g
      = ((Graph.pass1 env (Graph.updateTransforms g)).pool.liveHandles).foldl
        (Graph.pass2Step env) (Graph.pass1 env (Graph.updateTransforms g)) :=
    Graph.pass2_eq_foldl env _
  have hSurf : ((Graph.resolve env (Graph.resolve env g)).pool.borrow k).map
      Node.surfaces
      = ((Graph.resolve env g).pool.borrow k).map Node.surfaces := by
    by_cases hmem : k ∈ (Graph.pass1 env
        (Graph.updateTransforms g)).pool.liveHandles
    · cases hw : Graph.p2Write env
          (Graph.pass1 env (Graph.updateTransforms g)) k with
      | none =>
        have h2 := hspec2.2 (Or.inr (by
          rw [Graph.p2Write_congr hAB env k]
          exact hw))
        rw [hL, h2, hBsurf k]
      | some v =>
        have h2 := hspec2.1 (by rw [hlh]; exact hmem) v (by
          rw [Graph.p2Write_congr hAB env k]
          exact hw)
        have h1 := hspec1.1 hmem v hw
        rw [hL, h2, hR, h1]
    · have hmem2 : k ∉ (Graph.pass1 env (Graph.updateTransforms
          (Graph.resolve env g))).pool.liveHandles := by
        rw [hlh]
        exact hmem
      have h2 := hspec2.2 (Or.inl hmem2)
      rw [hL, h2, hBsurf k]
  cases hb2 : (Graph.resolve env (Graph.resolve env g)).pool.borrow k with
  | none =>
    cases hb1 : (Graph.resolve env g).pool.borrow k with
    | none => rfl
    | some n1 => rw [hb2, hb1] at hRV; simp at hRV
  | some n2 =>
    cases hb1 : (Graph.resolve env g).pool.borrow k with
    | none => rw [hb2, hb1] at hRV; simp at hRV
    | some n1 =>
      rw [hb2, hb1] at hRV hSurf
      simp only [Option.map_some'] at hRV hSurf
      obtain ⟨_, _, _, _, _, horig, hinv, _⟩ :=
        Node.resolveRead_fields (Option.some.inj hRV)
      have hsurfn : n2.surfaces = n1.surfaces := Option.some.inj hSurf
      simp only [Option.map_some', Node.resolvedState, horig, hinv, hsurfn]

/-! ## Structure of the deep copy -/

theorem alistLookup_cons_ne {k' v k : Handle} (m : List (Handle × Handle))
    (h : k' ≠ k) : alistLookup ((k', v) :: m) k = alistLookup m k := by
  show (if k' = k then some v else alistLookup m k) = alistLookup m k
  rw [if_neg h]

theorem alistLookup_cons_self {k v : Handle} (m : List (Handle × Handle)) :
    alistLookup ((k, v) :: m) k = some v := by
  show (if k = k then some v else alistLookup m k) = some v
  rw [if_pos rfl]

theorem alistLookup_append_left {A : List (Handle × Handle)} {k v : Handle}
    (B : List (Handle × Handle)) (h : alistLookup A k = some v) :
    alistLookup (A ++ B) k = some v := by
  induction A with
  | nil => simp [alistLookup] at h
  | cons pr rest ih =>
    obtain ⟨k', v'⟩ := pr
    by_cases hk : k' = k
    · subst hk
      rw [alistLookup_cons_self] at h
      rw [List.cons_append, alistLookup_cons_self]
      exact h
    · rw [alistLookup_cons_ne rest hk] at h
      rw [List.cons_append, alistLookup_cons_ne _ hk]
      exact ih h

theorem alistLookup_append_right {A : List (Handle × Handle)} {k : Handle}
    (B : List (Handle × Handle)) (h : k ∉ A.map Prod.fst) :
    alistLookup (A ++ B) k = alistLookup B k := by
  induction A with
  | nil => rfl
  | cons pr rest ih =>
    obtain ⟨k', v'⟩ := pr
    have hk : k' ≠ k := by
      intro he
      exact h (by simp [he])
    rw [List.cons_append, alistLookup_cons_ne _ hk]
    exact ih (fun hm => h (List.mem_cons_of_mem _ hm))

theorem alistLookup_isSome_of_mem {A : List (Handle × Handle)} {k : Handle}
    (h : k ∈ A.map Prod.fst) : ∃ v, alistLookup A k = some v := by
  cases hl : alistLookup A k with
  | none => exact absurd ((alistLookup_eq_none A k).mp hl) (by simp [h])
  | some v => exact ⟨v, rfl⟩

theorem Node.mapBase_comp (f g : BaseRec → BaseRec) (n : Node) :
    (n.mapBase f).mapBase g = n.mapBase (fun b => g (f b)) := by
  cases n <;> rfl

namespace Pool

theorem isSomeH_of_valid {α : Type} {p : Pool α} (hok : p.ok) {h : Handle}
    (hv : p.isValidHandle h = true) : h.isSomeH = true := by
  unfold isValidHandle borrow at hv
  cases hg : p.records[h.index]? with
  | none => rw [hg] at hv; simp at hv
  | some r =>
    rw [hg] at hv
    simp only [] at hv
    by_cases hgen : r.generation = h.generation
    · have hr : r ∈ p.records := by
        have := (List.getElem?_eq_some_iff.mp hg)
        obtain ⟨hlt, hel⟩ := this
        rw [← hel]
        exact List.getElem_mem hlt
      have h1 := hok.2.2 r hr
      unfold Handle.isSomeH
      simp only [decide_eq_true_eq]
      intro hne
      rw [hne] at hgen
      show False
      have : r.generation = 0 := hgen
      omega
    · rw [if_neg hgen] at hv
      simp at hv

/-- From a valid root, every reachable handle stays inside a set that
contains the root and is closed under the children relation. -/
theorem descP_closed {p : Pool Node} (S : Handle → Prop)
    (hcl : ∀ x, S x → ∀ c ∈ p.childrenP x, S c) :
    ∀ {a k : Handle}, S a → p.DescP a k → S k := by
  intro a k ha hd
  induction hd with
  | refl x _ => exact ha
  | child hv hc hsub ih => exact ih (hcl _ ha _ hc)

theorem subtreeListP_deep_length_eq (p : Pool Node) (hf : p.forest)
    (c : Handle) (hd1 : 1 ≤ p.depthOf c) :
    (p.subtreeListP p.getCapacity [c]).length
      = (p.subtreeListP (p.getCapacity + 1) [c]).length := by
  refine Nat.le_antisymm ?_ (subtreeListP_deep_length_le p hf c hd1)
  have hnodup : (p.subtreeListP p.getCapacity [c]).Nodup := by
    refine subtreeListP_nodup hf _ _ ?_
    unfold StackDisj
    simp
  have hsub : p.subtreeListP p.getCapacity [c]
      ⊆ p.subtreeListP (p.getCapacity + 1) [c] := by
    intro k hk
    obtain ⟨c', hc', hd⟩ := descP_of_mem_subtreeListP p _ _ k hk
    simp at hc'
    rw [hc'] at hd
    exact mem_subtreeListP_of_descP hf hd (p.getCapacity + 1) (by omega)
  exact (List.subperm_of_subset hnodup hsub).length_le

/-- Exact decomposition of a live subtree's size into the root and the
children subtrees. -/
theorem subtreeListP_length_children (p : Pool Node) (hf : p.forest)
    {s : Handle} {n : Node} (hb : p.borrow s = some n) :
    (p.subtreeListP (p.getCapacity + 1) [s]).length
      = 1 + ((n.base.children.map fun c =>
          (p.subtreeListP (p.getCapacity + 1) [c]).length)).sum := by
  rw [subtreeListP_single_live _ _ _ _ hb]
  rw [List.length_cons]
  rw [subtreeListP_length_split]
  have hmap : (n.base.children.map fun c =>
      (p.subtreeListP p.getCapacity [c]).length)
      = (n.base.children.map fun c =>
        (p.subtreeListP (p.getCapacity + 1) [c]).length) := by
    refine List.map_congr_left ?_
    intro c hc
    have hcp : c ∈ p.childrenP s := by
      rw [childrenP_of_borrow hb]
      exact hc
    have hv : p.isValidHandle s = true := isValid_of_borrow hb
    have hd1 : 1 ≤ p.depthOf c := by
      rw [depthOf_child hf hv hcp]
      omega
    exact subtreeListP_deep_length_eq p hf c hd1
  rw [hmap]
  omega

end Pool

namespace Graph

open Pool

theorem unlinkInternal_root_field (g : Graph) (c : Handle) :
    (g.unlinkInternal c).root = g.root := by
  unfold unlinkInternal
  cases hbc : g.pool.borrow c with
  | none => rfl
  | some n =>
    simp only []
    by_cases hs : n.base.parent.isSomeH = true
    · rw [if_pos hs]
      cases (g.updateNode c (Node.mapBase fun b =>
          { b with parent := Handle.NONE })).pool.borrow n.base.parent with
      | none => rfl
      | some m => rfl
    · rw [if_neg hs]
      rfl

theorem linkNodes_root_field (g : Graph) (c t : Handle) :
    (g.linkNodes c t).root = g.root := by
  simp only [linkNodes]
  cases hb1 : (g.unlinkInternal c).pool.borrow c with
  | none => exact unlinkInternal_root_field g c
  | some n1 =>
    simp only []
    cases hb2 : ((g.unlinkInternal c).updateNode c (Node.mapBase fun b =>
        { b with parent := t })).pool.borrow t with
    | none =>
      show ((g.unlinkInternal c).updateNode c (Node.mapBase fun b =>
        { b with parent := t })).root = g.root
      rw [updateNode_root]
      exact unlinkInternal_root_field g c
    | some n2 =>
      show (((g.unlinkInternal c).updateNode c (Node.mapBase fun b =>
          { b with parent := t })).updateNode t (Node.mapBase fun b =>
          { b with children := b.children ++ [c] })).root = g.root
      rw [updateNode_root, updateNode_root]
      exact unlinkInternal_root_field g c

theorem addNode_root_field (g : Graph) (v : Node) :
    (g.addNode v).2.root = g.root := by
  show (linkNodes { g with pool := (g.pool.spawn v).2 } _ _).root = g.root
  rw [linkNodes_root_field]

/-- Explicit form of `link_nodes` when the child currently hangs under the
graph root and is being re-linked under a distinct third node. -/
theorem linkNodes_from_root_eq {g : Graph} {c t : Handle} {n nr nt : Node}
    (hbc : g.pool.borrow c = some n) (hpar : n.base.parent = g.root)
    (hrs : (g.root).isSomeH = true)
    (hbr : g.pool.borrow g.root = some nr)
    (hbt : g.pool.borrow t = some nt)
    (hct : c ≠ t) (hrt : g.root ≠ t) (hcr : c ≠ g.root) :
    g.linkNodes c t
      = (((g.updateNode c (Node.mapBase fun b =>
            { b with parent := Handle.NONE })).updateNode
            g.root (Node.mapBase fun b =>
              { b with children := b.children.erase c })).updateNode
          c (Node.mapBase fun b => { b with parent := t })).updateNode
        t (Node.mapBase fun b => { b with children := b.children ++ [c] }) := by
  have hunlink : g.unlinkInternal c
      = (g.updateNode c (Node.mapBase fun b =>
          { b with parent := Handle.NONE })).updateNode
          g.root (Node.mapBase fun b =>
            { b with children := b.children.erase c }) := by
    unfold unlinkInternal
    rw [hbc]
    simp only [hpar]
    rw [if_pos hrs]
    have hb2 : (g.updateNode c (Node.mapBase fun b =>
        { b with parent := Handle.NONE })).pool.borrow g.root = some nr := by
      rw [updateNode_pool, Pool.borrow_update_ne _ _ (Ne.symm hcr)]
      exact hbr
    rw [hb2]
  have hbc1 : (g.unlinkInternal c).pool.borrow c
      = some (n.mapBase fun b => { b with parent := Handle.NONE }) := by
    rw [hunlink, updateNode_pool, Pool.borrow_update_ne _ _ hcr,
      updateNode_pool, Pool.borrow_update_self, hbc]
    rfl
  have hbt2 : (((g.unlinkInternal c).updateNode c (Node.mapBase fun b =>
      { b with parent := t }))).pool.borrow t = some nt := by
    rw [updateNode_pool, Pool.borrow_update_ne _ _ (Ne.symm hct), hunlink,
      updateNode_pool, Pool.borrow_update_ne _ _ (Ne.symm hrt),
      updateNode_pool, Pool.borrow_update_ne _ _ (Ne.symm hct)]
    exact hbt
  conv_lhs => simp only [linkNodes]
  rw [hbc1]
  simp only []
  rw [hbt2]
  simp only []
  rw [hunlink]

end Graph

namespace Graph

open Pool

/-- Borrow-level effects of the re-link of `linkNodes_from_root_eq`. -/
theorem linkNodes_from_root_borrows {g : Graph} {c t : Handle} {n nr nt : Node}
    (hbc : g.pool.borrow c = some n) (hpar : n.base.parent = g.root)
    (hrs : (g.root).isSomeH = true)
    (hbr : g.pool.borrow g.root = some nr)
    (hbt : g.pool.borrow t = some nt)
    (hct : c ≠ t) (hrt : g.root ≠ t) (hcr : c ≠ g.root) :
    (g.linkNodes c t).pool.borrow c
      = some (n.mapBase fun b => { b with parent := t }) ∧
    (g.linkNodes c t).pool.borrow g.root
      = some (nr.mapBase fun b => { b with children := b.children.erase c }) ∧
    (g.linkNodes c t).pool.borrow t
      = some (nt.mapBase fun b => { b with children := b.children ++ [c] }) ∧
    (∀ y, y ≠ c → y ≠ g.root → y ≠ t →
      (g.linkNodes c t).pool.borrow y = g.pool.borrow y) ∧
    (∀ y, (g.linkNodes c t).pool.isValidHandle y = g.pool.isValidHandle y) := by
  rw [linkNodes_from_root_eq hbc hpar hrs hbr hbt hct hrt hcr]
  refine ⟨?_, ?_, ?_, ?_, ?_⟩
  · rw [updateNode_pool, Pool.borrow_update_ne _ _ hct,
      updateNode_pool, Pool.borrow_update_self,
      updateNode_pool, Pool.borrow_update_ne _ _ hcr,
      updateNode_pool, Pool.borrow_update_self, hbc]
    simp only [Option.map_some']
    cases n <;> rfl
  · rw [updateNode_pool, Pool.borrow_update_ne _ _ hrt,
      updateNode_pool, Pool.borrow_update_ne _ _ (Ne.symm hcr),
      updateNode_pool, Pool.borrow_update_self,
      updateNode_pool, Pool.borrow_update_ne _ _ (Ne.symm hcr), hbr]
    rfl
  · rw [updateNode_pool, Pool.borrow_update_self,
      updateNode_pool, Pool.borrow_update_ne _ _ (Ne.symm hct),
      updateNode_pool, Pool.borrow_update_ne _ _ (Ne.symm hrt),
      updateNode_pool, Pool.borrow_update_ne _ _ (Ne.symm hct), hbt]
    rfl
  · intro y hyc hyr hyt
    rw [updateNode_pool, Pool.borrow_update_ne _ _ hyt,
      updateNode_pool, Pool.borrow_update_ne _ _ hyc,
      updateNode_pool, Pool.borrow_update_ne _ _ hyr,
      updateNode_pool, Pool.borrow_update_ne _ _ hyc]
  · intro y
    rw [updateNode_pool, valid_update_iff, updateNode_pool, valid_update_iff,
      updateNode_pool, valid_update_iff, updateNode_pool, valid_update_iff]

/-- Borrow-level effects of `add_node` on a well-formed graph with a
detached payload: the fresh copy hangs under the root, everything else is
untouched. -/
theorem addNode_effects {g : Graph} (hwf : g.wf) {v : Node}
    (hvp : v.base.parent = Handle.NONE) (hvc : v.base.children = []) :
    (g.addNode v).2.root = g.root ∧
    g.pool.isValidHandle (g.addNode v).1 = false ∧
    (g.addNode v).2.pool.borrow (g.addNode v).1
      = some (v.mapBase fun b => { b with parent := g.root }) ∧
    (∀ nr, g.pool.borrow g.root = some nr →
      (g.addNode v).2.pool.borrow g.root
        = some (nr.mapBase fun b =>
            { b with children := b.children ++ [(g.addNode v).1] })) ∧
    (∀ y ny, g.pool.borrow y = some ny → y ≠ g.root →
      (g.addNode v).2.pool.borrow y = some ny) ∧
    (∀ y, g.pool.isValidHandle y = true →
      (g.addNode v).2.pool.isValidHandle y = true) ∧
    (g.addNode v).2.pool.isValidHandle (g.addNode v).1 = true ∧
    (g.addNode v).2.wf := by
  have hok : g.pool.ok := hwf.1.1
  have hrootv : g.pool.isValidHandle g.root = true := hwf.2.1
  obtain ⟨nr0, hnr0⟩ := borrow_of_valid hrootv
  have hfresh : g.pool.isValidHandle (g.pool.spawn v).1 = false :=
    Pool.spawn_not_valid_before g.pool v hok
  have hrne : g.root ≠ (g.pool.spawn v).1 := by
    intro he
    rw [← he, hrootv] at hfresh
    simp at hfresh
  have hbdh : (g.pool.spawn v).2.borrow (g.pool.spawn v).1 = some v :=
    Pool.spawn_borrow_self g.pool v hok
  have hbroot : (g.pool.spawn v).2.borrow g.root = g.pool.borrow g.root :=
    Pool.spawn_borrow_preserved g.pool v hok g.root hrootv
  have heq : (g.addNode v).2
      = (({ g with pool := (g.pool.spawn v).2 } : Graph).updateNode
          (g.pool.spawn v).1 (Node.mapBase fun b =>
            { b with parent := g.root })).updateNode g.root
          (Node.mapBase fun b =>
            { b with children := b.children ++ [(g.pool.spawn v).1] }) := by
    have hbroot2 : ({ g with pool := (g.pool.spawn v).2 } : Graph).pool.borrow
        g.root = some nr0 := by
      show (g.pool.spawn v).2.borrow g.root = some nr0
      rw [hbroot]
      exact hnr0
    show ({ g with pool := (g.pool.spawn v).2 } : Graph).linkNodes
      (g.pool.spawn v).1 g.root = _
    exact linkNodes_detached_eq hbdh hvp hbroot2 hrne
  refine ⟨addNode_root_field g v, hfresh, ?_, ?_, ?_, ?_, ?_,
    wf_addNode hwf hvp hvc⟩
  · show ((g.addNode v).2.pool.borrow (g.pool.spawn v).1) = _
    rw [heq, updateNode_pool, Pool.borrow_update_ne _ _ (Ne.symm hrne),
      updateNode_pool, Pool.borrow_update_self, hbdh]
    rfl
  · intro nr hnr
    rw [heq, updateNode_pool, Pool.borrow_update_self,
      updateNode_pool, Pool.borrow_update_ne _ _ hrne, hbroot, hnr]
    rfl
  · intro y ny hby hyr
    have hyv : g.pool.isValidHandle y = true := isValid_of_borrow hby
    have hyd : y ≠ (g.pool.spawn v).1 := by
      intro he
      rw [he, hfresh] at hyv
      exact Bool.false_ne_true hyv
    rw [heq, updateNode_pool, Pool.borrow_update_ne _ _ hyr,
      updateNode_pool, Pool.borrow_update_ne _ _ hyd,
      Pool.spawn_borrow_preserved g.pool v hok y hyv]
    exact hby
  · intro y hyv
    rw [heq, updateNode_pool, valid_update_iff, updateNode_pool,
      valid_update_iff]
    show ((g.pool.spawn v).2.isValidHandle y) = true
    rw [Pool.spawn_valid_iff g.pool v hok y]
    exact Or.inl hyv
  · show ((g.addNode v).2.pool.isValidHandle (g.pool.spawn v).1) = true
    rw [heq, updateNode_pool, valid_update_iff, updateNode_pool,
      valid_update_iff]
    show ((g.pool.spawn v).2.isValidHandle (g.pool.spawn v).1) = true
    rw [Pool.spawn_valid_iff g.pool v hok]
    exact Or.inr rfl

end Graph

namespace Graph

/-- Destination parent of a copy block root: the pending re-link target, or
the destination root when there is none (the block root then stays where
`add_node` put it). -/
def dpTarget (dest : Graph) : Option Handle → Handle
  | some p => p
  | none => dest.root

/-- Structural characterization of finished copy blocks `PP` rooted at the
source handles `cs` and re-linked under `t`: every recorded copy stores its
source handle in `original` together with the source's surfaces and variant,
its children are the copies of the source children in source order, and its
parent is the copy of the source parent (the block roots are parented at
`t`). -/
def blocksOK (src dest' : Graph) (cs : List Handle) (t : Handle)
    (PP : List (Handle × Handle)) : Prop :=
  ∀ x dx, (x, dx) ∈ PP → ∃ nx n',
    src.pool.borrow x = some nx ∧
    dest'.pool.borrow dx = some n' ∧
    n'.copyView = (x, nx.surfaces, nx.isMesh) ∧
    n'.base.children = nx.base.children.map
      (fun c => (alistLookup PP c).getD Handle.NONE) ∧
    n'.base.parent = (if x ∈ cs then t
      else (alistLookup PP nx.base.parent).getD Handle.NONE)

/-- Full specification of the processing of one copy work item: the
traversal spends exactly the item's cost, records one block of pairs `P`
keyed by the live subtree of the source root, builds the copies with the
structure of `blocksOK`, re-links the block root under the requested target,
and touches nothing else of the destination. -/
def SegmentSpec (src : Graph) (fuel : Nat) : Prop :=
  ∀ (s : Handle) (dp : Option Handle) (rest : List CopyItem)
    (dest : Graph) (mapping : List (Handle × Handle)) (srcNode : Node),
    src.pool.borrow s = some srcNode →
    dest.wf →
    (∀ p, dp = some p → dest.pool.isValidHandle p = true ∧ p ≠ dest.root) →
    copyCost src (CopyItem.copy s dp) ≤ fuel →
    ∃ (P : List (Handle × Handle)) (d : Handle) (dest' : Graph),
      copySubtrees src fuel (CopyItem.copy s dp :: rest) dest mapping
        = copySubtrees src (fuel - copyCost src (CopyItem.copy s dp)) rest
          dest' (mapping ++ P) ∧
      P.head? = some (s, d) ∧
      (∀ x, x ∈ P.map Prod.fst ↔ src.pool.DescP s x) ∧
      (P.map Prod.snd).Nodup ∧
      (∀ pr ∈ P, dest.pool.isValidHandle pr.2 = false ∧
        dest'.pool.isValidHandle pr.2 = true) ∧
      blocksOK src dest' [s] (dpTarget dest dp) P ∧
      (∀ y ny, dest.pool.borrow y = some ny → y ≠ dest.root →
        (∀ p, dp = some p → y ≠ p) → dest'.pool.borrow y = some ny) ∧
      (∀ nr, dest.pool.borrow dest.root = some nr →
        dest'.pool.borrow dest.root = some (match dp with
          | some _ => nr
          | none => nr.mapBase fun bb =>
              { bb with children := bb.children ++ [d] })) ∧
      (∀ p np, dp = some p → dest.pool.borrow p = some np →
        dest'.pool.borrow p = some (np.mapBase fun bb =>
          { bb with children := bb.children ++ [d] })) ∧
      (∀ y, dest.pool.isValidHandle y = true →
        dest'.pool.isValidHandle y = true) ∧
      dest'.wf ∧
      dest'.root = dest.root

end Graph

theorem alistLookup_head {P : List (Handle × Handle)} {k v : Handle}
    (h : P.head? = some (k, v)) : alistLookup P k = some v := by
  cases P with
  | nil => simp at h
  | cons pr tl =>
    have hpr : pr = (k, v) := by simpa using h
    rw [hpr, alistLookup_cons_self]

theorem Node.mapBase_children_append_nil (n : Node) :
    n.mapBase (fun b => { b with children := b.children ++ [] }) = n := by
  have hb : ∀ b : BaseRec,
      ({ b with children := b.children ++ [] } : BaseRec) = b := by
    intro b
    cases b
    simp
  cases n <;> simp [Node.mapBase, hb]


namespace Graph

open Pool

theorem copySubtrees_blocks (src : Graph) (hsf : src.pool.forest)
    {s : Handle} (hvs : src.pool.isValidHandle s = true)
    (d R : Handle) (hdR : d ≠ R)
    (fuel : Nat) (hseg : ∀ m, m < fuel → SegmentSpec src m) :
    ∀ (cs : List Handle), (∀ c ∈ cs, c ∈ src.pool.childrenP s) → cs.Nodup →
    ∀ (after : List CopyItem) (fuel₁ : Nat) (dest₁ : Graph)
      (mapping₁ : List (Handle × Handle)),
      fuel₁ < fuel →
      ((cs.map fun c => copyCost src (CopyItem.copy c (some d))).sum ≤ fuel₁) →
      dest₁.wf → dest₁.root = R →
      dest₁.pool.isValidHandle d = true →
      ∃ (PP : List (Handle × Handle)) (dest₂ : Graph),
        copySubtrees src fuel₁
            ((cs.map fun c => CopyItem.copy c (some d)) ++ after) dest₁ mapping₁
          = copySubtrees src
              (fuel₁ - (cs.map fun c => copyCost src (CopyItem.copy c (some d))).sum)
              after dest₂ (mapping₁ ++ PP) ∧
        (∀ x, x ∈ PP.map Prod.fst ↔ ∃ c ∈ cs, src.pool.DescP c x) ∧
        (PP.map Prod.snd).Nodup ∧
        (∀ pr ∈ PP, dest₁.pool.isValidHandle pr.2 = false ∧
          dest₂.pool.isValidHandle pr.2 = true) ∧
        blocksOK src dest₂ cs d PP ∧
        (∀ y ny, dest₁.pool.borrow y = some ny → y ≠ d →
          dest₂.pool.borrow y = some ny) ∧
        (∀ nd1, dest₁.pool.borrow d = some nd1 →
          dest₂.pool.borrow d = some (nd1.mapBase fun bb =>
            { bb with children := bb.children ++ cs.map fun c => (alistLookup PP c).getD Handle.NONE })) ∧
        (∀ y, dest₁.pool.isValidHandle y = true →
          dest₂.pool.isValidHandle y = true) ∧
        dest₂.wf ∧ dest₂.root = dest₁.root := by
  intro cs
  induction cs with
  | nil =>
    intro _ _ after fuel₁ dest₁ mapping₁ _ _ hdw₁ hroot₁ hvd₁
    refine ⟨[], dest₁, ?_, ?_, ?_, ?_, ?_, ?_, ?_, ?_, hdw₁, rfl⟩
    · simp
    · intro x
      simp
    · simp
    · intro pr hpr
      simp at hpr
    · intro x dx hx
      simp at hx
    · intro y ny hby _
      exact hby
    · intro nd1 hb
      rw [hb]
      simp only [List.map_nil]
      rw [Node.mapBase_children_append_nil]
    · intro y hy
      exact hy
  | cons c cs' ih =>
    intro hcs hnd after fuel₁ dest₁ mapping₁ hflt hsum hdw₁ hroot₁ hvd₁
    have hc : c ∈ src.pool.childrenP s := hcs c (List.mem_cons_self c cs')
    have hcv : src.pool.isValidHandle c = true := ((forest_at hsf hvs).1 c hc).1
    obtain ⟨nc, hbc⟩ := borrow_of_valid hcv
    have hdr₁ : d ≠ dest₁.root := by
      rw [hroot₁]
      exact hdR
    rw [List.map_cons, List.sum_cons] at hsum
    have hcostc : copyCost src (CopyItem.copy c (some d)) ≤ fuel₁ := by omega
    obtain ⟨Pc, dc, dest₁', hEq, hHead, hKeys, hVnd, hFresh, hBlocks, hFrame,
      hRootCl, hPCl, hVmono, hWf', hRoot'⟩ :=
      hseg fuel₁ hflt c (some d)
        ((cs'.map fun c => CopyItem.copy c (some d)) ++ after)
        dest₁ mapping₁ nc hbc hdw₁
        (by
          intro p hp
          cases hp
          exact ⟨hvd₁, hdr₁⟩)
        hcostc
    have hflt2 : fuel₁ - copyCost src (CopyItem.copy c (some d)) < fuel := by
      omega
    have hsum2 : ((cs'.map fun c => copyCost src (CopyItem.copy c (some d))).sum
        ≤ fuel₁ - copyCost src (CopyItem.copy c (some d))) := by omega
    have hvd₁' : dest₁'.pool.isValidHandle d = true := hVmono d hvd₁
    obtain ⟨PP', dest₂, hEq2, hKeys2, hVnd2, hFresh2, hBlocks2, hFrame2,
      hDcl2, hVmono2, hWf2, hRoot2⟩ :=
      ih (fun c' hc' => hcs c' (List.mem_cons_of_mem c hc'))
        (List.nodup_cons.mp hnd).2 after
        (fuel₁ - copyCost src (CopyItem.copy c (some d))) dest₁'
        (mapping₁ ++ Pc) hflt2 hsum2 hWf' (hRoot'.trans hroot₁) hvd₁'
    have hcne : ∀ c' ∈ cs', c ≠ c' := by
      intro c' hc' he
      exact (List.nodup_cons.mp hnd).1 (he ▸ hc')
    have hdisj : ∀ c' ∈ cs', ∀ k, src.pool.DescP c k → src.pool.DescP c' k →
        False := by
      intro c' hc' k h1 h2
      exact sibling_disjoint hsf hvs hc (hcs c' (List.mem_cons_of_mem c hc'))
        (hcne c' hc') k h1 h2
    have hPcKeys : ∀ k, k ∈ Pc.map Prod.fst → src.pool.DescP c k :=
      fun k hk => (hKeys k).mp hk
    have hPPKeys : ∀ k, k ∈ PP'.map Prod.fst →
        ∃ c' ∈ cs', src.pool.DescP c' k :=
      fun k hk => (hKeys2 k).mp hk
    have hmiss : ∀ k, (∃ c' ∈ cs', src.pool.DescP c' k) →
        k ∉ Pc.map Prod.fst := by
      intro k hk hmem
      obtain ⟨c', hc', hdk⟩ := hk
      exact hdisj c' hc' k (hPcKeys k hmem) hdk
    have hhit : ∀ k, src.pool.DescP c k →
        alistLookup (Pc ++ PP') k = alistLookup Pc k := by
      intro k hdk
      obtain ⟨v, hv⟩ := alistLookup_isSome_of_mem ((hKeys k).mpr hdk)
      rw [hv]
      exact alistLookup_append_left _ hv
    have hskip : ∀ k, (∃ c' ∈ cs', src.pool.DescP c' k) →
        alistLookup (Pc ++ PP') k = alistLookup PP' k :=
      fun k hk => alistLookup_append_right _ (hmiss k hk)
    have hPcValid : ∀ v ∈ Pc.map Prod.snd,
        dest₁'.pool.isValidHandle v = true := by
      intro v hv
      obtain ⟨⟨x, v'⟩, hpr, hv'⟩ := List.mem_map.mp hv
      have h1 := (hFresh _ hpr).2
      rw [show v' = v from hv'] at h1
      exact h1
    refine ⟨Pc ++ PP', dest₂, ?_, ?_, ?_, ?_, ?_, ?_, ?_, ?_, hWf2,
      hRoot2.trans hRoot'⟩
    · rw [List.map_cons, List.cons_append, hEq, hEq2, List.append_assoc,
        List.map_cons, List.sum_cons]
      have harith : fuel₁ - copyCost src (CopyItem.copy c (some d))
          - ((cs'.map fun c => copyCost src (CopyItem.copy c (some d))).sum)
          = fuel₁ - (copyCost src (CopyItem.copy c (some d))
            + (cs'.map fun c => copyCost src (CopyItem.copy c (some d))).sum) := by
        omega
      rw [harith]
    · intro x
      rw [List.map_append, List.mem_append]
      constructor
      · intro hx
        rcases hx with hx | hx
        · exact ⟨c, List.mem_cons_self c cs', (hKeys x).mp hx⟩
        · obtain ⟨c', hc', hdk⟩ := (hKeys2 x).mp hx
          exact ⟨c', List.mem_cons_of_mem c hc', hdk⟩
      · rintro ⟨c', hc', hdk⟩
        rcases List.mem_cons.mp hc' with he | hc'
        · exact Or.inl ((hKeys x).mpr (he ▸ hdk))
        · exact Or.inr ((hKeys2 x).mpr ⟨c', hc', hdk⟩)
    · rw [List.map_append, List.nodup_append]
      refine ⟨hVnd, hVnd2, ?_⟩
      intro v hv hv2
      obtain ⟨⟨x2, v2⟩, hpr2, hveq2⟩ := List.mem_map.mp hv2
      have hfr := (hFresh2 _ hpr2).1
      rw [show v2 = v from hveq2] at hfr
      rw [hPcValid v hv] at hfr
      exact Bool.true_eq_false.mp hfr
    · intro pr hpr
      rcases List.mem_append.mp hpr with hpr | hpr
      · exact ⟨(hFresh pr hpr).1, hVmono2 pr.2 (hFresh pr hpr).2⟩
      · refine ⟨?_, (hFresh2 pr hpr).2⟩
        cases hval : dest₁.pool.isValidHandle pr.2
        · rfl
        · exfalso
          have h1 := hVmono pr.2 hval
          rw [(hFresh2 pr hpr).1] at h1
          exact Bool.false_eq_true.mp h1
    · -- blocksOK
      intro x dx hx
      rcases List.mem_append.mp hx with hx | hx
      · obtain ⟨nx, n', hbx, hbdx, hview, hch, hpar⟩ := hBlocks x dx hx
        have hxkey : src.pool.DescP c x :=
          hPcKeys x (List.mem_map.mpr ⟨(x, dx), hx, rfl⟩)
        have hdxd : dx ≠ d := by
          intro he
          have h1 := (hFresh _ hx).1
          rw [he, hvd₁] at h1
          exact Bool.true_eq_false.mp h1
        have hbdx2 : dest₂.pool.borrow dx = some n' := hFrame2 dx n' hbdx hdxd
        refine ⟨nx, n', hbx, hbdx2, hview, ?_, ?_⟩
        · rw [hch]
          refine List.map_congr_left ?_
          intro kid hkid
          have hkc : kid ∈ src.pool.childrenP x := by
            rw [childrenP_of_borrow hbx]
            exact hkid
          rw [hhit kid (descP_snoc hsf hxkey hkc)]
        · rw [hpar]
          by_cases hxc : x = c
          · rw [if_pos (by rw [hxc]; exact List.mem_singleton.mpr rfl),
              if_pos (by rw [hxc]; exact List.mem_cons_self c cs')]
            rfl
          · have hxcs : x ∉ cs' := by
              intro hmem
              exact hdisj x hmem x hxkey
                (DescP.refl x (isValid_of_borrow hbx))
            rw [if_neg (by
                intro hmem
                exact hxc (List.mem_singleton.mp hmem)),
              if_neg (by
                intro hmem
                rcases List.mem_cons.mp hmem with he | hm
                · exact hxc he
                · exact hxcs hm)]
            obtain ⟨hpv, hpd⟩ := descP_parent hsf hxkey hxc
            have hpe : src.pool.parentP x = nx.base.parent := by
              unfold Pool.parentP
              rw [hbx]
              rfl
            rw [hhit nx.base.parent (by rw [← hpe]; exact hpd)]
      · obtain ⟨nx, n', hbx, hbdx, hview, hch, hpar⟩ := hBlocks2 x dx hx
        have hxkey : ∃ c' ∈ cs', src.pool.DescP c' x :=
          hPPKeys x (List.mem_map.mpr ⟨(x, dx), hx, rfl⟩)
        obtain ⟨c', hc', hdc'⟩ := hxkey
        refine ⟨nx, n', hbx, hbdx, hview, ?_, ?_⟩
        · rw [hch]
          refine List.map_congr_left ?_
          intro kid hkid
          have hkc : kid ∈ src.pool.childrenP x := by
            rw [childrenP_of_borrow hbx]
            exact hkid
          rw [hskip kid ⟨c', hc', descP_snoc hsf hdc' hkc⟩]
        · rw [hpar]
          have hxc : x ≠ c := by
            intro he
            exact hdisj c' hc' x (he ▸ DescP.refl c hcv) hdc'
          by_cases hxcs : x ∈ cs'
          · rw [if_pos hxcs, if_pos (List.mem_cons_of_mem c hxcs)]
          · rw [if_neg hxcs, if_neg (by
              intro hmem
              rcases List.mem_cons.mp hmem with he | hm
              · exact hxc he
              · exact hxcs hm)]
            have hxc' : x ≠ c' := by
              intro he
              exact hxcs (he ▸ hc')
            obtain ⟨hpv, hpd⟩ := descP_parent hsf hdc' hxc'
            have hpe : src.pool.parentP x = nx.base.parent := by
              unfold Pool.parentP
              rw [hbx]
              rfl
            rw [hskip nx.base.parent ⟨c', hc', by rw [← hpe]; exact hpd⟩]
    · -- frame
      intro y ny hby hyd
      by_cases hyr : y = dest₁.root
      · subst hyr
        have h1 := hRootCl ny hby
        simp only [] at h1
        exact hFrame2 _ ny h1 hyd
      · have h1 := hFrame y ny hby hyr (by
          intro p hp
          cases hp
          exact hyd)
        exact hFrame2 y ny h1 hyd
    · -- accumulated children of d
      intro nd1 hb
      have h1 := hPCl d nd1 rfl hb
      have h2 := hDcl2 _ h1
      rw [h2, Node.mapBase_comp]
      congr 2
      funext bb
      have hlc : (alistLookup (Pc ++ PP') c).getD Handle.NONE = dc := by
        rw [alistLookup_append_left _ (alistLookup_head hHead)]
        rfl
      have hmap : cs'.map (fun c0 => (alistLookup PP' c0).getD Handle.NONE)
          = cs'.map (fun c0 => (alistLookup (Pc ++ PP') c0).getD Handle.NONE) := by
        refine List.map_congr_left ?_
        intro c0 hc0
        have hv0 : src.pool.isValidHandle c0 = true :=
          ((forest_at hsf hvs).1 c0 (hcs c0 (List.mem_cons_of_mem c hc0))).1
        rw [hskip c0 ⟨c0, hc0, DescP.refl c0 hv0⟩]
      simp only [List.map_cons]
      rw [← hmap, hlc, List.append_assoc]
      rfl
    · exact fun y hy => hVmono2 y (hVmono y hy)

end Graph

theorem sum_map_two_mul (l : List Handle) (f : Handle → Nat) :
    (l.map fun c => 2 * f c).sum = 2 * (l.map f).sum := by
  induction l with
  | nil => rfl
  | cons a tl ih => simp [List.map_cons, List.sum_cons, ih, Nat.mul_add]

theorem Node.base_children_mapBase_parent (n : Node) (t : Handle) :
    (n.mapBase fun b => { b with parent := t }).base.children
      = n.base.children := by
  cases n <;> rfl

theorem Node.base_parent_mapBase_parent (n : Node) (t : Handle) :
    (n.mapBase fun b => { b with parent := t }).base.parent = t := by
  cases n <;> rfl

/-- Appending a handle to a children list and then erasing it restores the
original node, provided the handle was not already a child. -/
theorem Node.mapBase_append_erase (n : Node) (a : Handle)
    (ha : a ∉ n.base.children) :
    ((n.mapBase fun b => { b with children := b.children ++ [a] }).mapBase
      fun b => { b with children := b.children.erase a }) = n := by
  have hl : ∀ l : List Handle, a ∉ l → (l ++ [a]).erase a = l := by
    intro l hal
    rw [List.erase_append_right _ hal, List.erase_cons_head, List.append_nil]
  rw [Node.mapBase_comp]
  cases n <;> simp only [Node.base] at ha <;> simp [Node.mapBase, hl _ ha]

namespace Graph

theorem copySubtrees_link_step (src : Graph) (fuel : Nat) (c p : Handle)
    (rest : List CopyItem) (dest : Graph) (mapping : List (Handle × Handle)) :
    copySubtrees src (fuel + 1) (CopyItem.link c p :: rest) dest mapping
      = copySubtrees src fuel rest
          (if c.isSomeH = true then dest.linkNodes c p else dest) mapping := by
  rw [copySubtrees]

end Graph

namespace Graph

open Pool

/-- Every copy work item is processed according to the full segment
specification; the induction is on fuel, each child segment spending
strictly less fuel than its parent's item. -/
theorem copySubtrees_segment (src : Graph) (hsf : src.pool.forest) :
    ∀ fuel, SegmentSpec src fuel := by
  intro fuel
  induction fuel using Nat.strong_induction_on with
  | _ fuel ih =>
  intro s dp rest dest mapping srcNode hsb hdw hdp hcost
  have hvs : src.pool.isValidHandle s = true := isValid_of_borrow hsb
  have hpos : 1 ≤ copyCost src (CopyItem.copy s dp) := copyCost_pos src _
  obtain ⟨fuel', rfl⟩ : ∃ f', fuel = f' + 1 := by
    cases fuel with
    | zero => omega
    | succ f' => exact ⟨f', rfl⟩
  have hstep := copySubtrees_copy_live src fuel' s dp rest dest mapping srcNode hsb
  have hvp : (srcNode.cloneDetached.mapBase fun b =>
      { b with original := s }).base.parent = Handle.NONE := by
    cases srcNode <;> rfl
  have hvc : (srcNode.cloneDetached.mapBase fun b =>
      { b with original := s }).base.children = [] := by
    cases srcNode <;> rfl
  obtain ⟨hA1, hA2, hA3, hA4, hA5, hA6, hA7, hA8⟩ := addNode_effects hdw hvp hvc
  obtain ⟨dh, dest₀, hdh, hdest₀⟩ :
      ∃ h0 g0, (dest.addNode (srcNode.cloneDetached.mapBase fun b =>
          { b with original := s })).1 = h0 ∧
        (dest.addNode (srcNode.cloneDetached.mapBase fun b =>
          { b with original := s })).2 = g0 := ⟨_, _, rfl, rfl⟩
  simp only [hdh, hdest₀] at hstep hA1 hA2 hA3 hA4 hA5 hA6 hA7 hA8
  have hne_dh : ∀ y, dest.pool.isValidHandle y = true → y ≠ dh := by
    intro y hy he
    rw [he, hA2] at hy
    exact Bool.false_eq_true.mp hy
  have hroot_v : dest.pool.isValidHandle dest.root = true := hdw.2.1
  have hrne : dest.root ≠ dh := hne_dh _ hroot_v
  have hdhR : dh ≠ dest.root := Ne.symm hrne
  obtain ⟨nr0, hnr0⟩ := borrow_of_valid hroot_v
  have hcs : ∀ c ∈ srcNode.base.children, c ∈ src.pool.childrenP s := by
    intro c hc
    rw [childrenP_of_borrow hsb]
    exact hc
  have hnd : srcNode.base.children.Nodup := by
    have h1 := (forest_at hsf hvs).2.1
    rwa [childrenP_of_borrow hsb] at h1
  have hLc : ∀ c ∈ srcNode.base.children,
      1 ≤ (src.pool.subtreeListP (src.pool.getCapacity + 1) [c]).length := by
    intro c hc
    have hcv := ((forest_at hsf hvs).1 c (hcs c hc)).1
    obtain ⟨nc, hbc⟩ := borrow_of_valid hcv
    rw [subtreeListP_single_live _ _ _ _ hbc]
    simp
  have hcc : ∀ c ∈ srcNode.base.children,
      copyCost src (CopyItem.copy c (some dh))
        = 2 * (src.pool.subtreeListP (src.pool.getCapacity + 1) [c]).length := by
    intro c hc
    have hcv := ((forest_at hsf hvs).1 c (hcs c hc)).1
    rw [copyCost_copy, if_pos hcv]
    have h1 := hLc c hc
    have h2 : (if (some dh).isSome = true then 1 else 0) = 1 := rfl
    rw [h2]
    omega
  have hSum : ((srcNode.base.children.map fun c =>
      copyCost src (CopyItem.copy c (some dh))).sum)
      = 2 * ((srcNode.base.children.map fun c =>
        (src.pool.subtreeListP (src.pool.getCapacity + 1) [c]).length).sum) := by
    rw [List.map_congr_left hcc, sum_map_two_mul]
  have hLs := subtreeListP_length_children src.pool hsf hsb
  have hcost' : copyCost src (CopyItem.copy s dp)
      = 2 * (src.pool.subtreeListP (src.pool.getCapacity + 1) [s]).length - 1
        + (if dp.isSome then 1 else 0) := by
    rw [copyCost_copy, if_pos hvs]
  have hsum₁ : ((srcNode.base.children.map fun c =>
      copyCost src (CopyItem.copy c (some dh))).sum) ≤ fuel' := by
    have hge : 2 * (src.pool.subtreeListP (src.pool.getCapacity + 1) [s]).length
        - 1 ≤ copyCost src (CopyItem.copy s dp) := by
      rw [hcost']
      omega
    omega
  obtain ⟨PP, dest₂, hEq2, hKeys2, hVnd2, hFresh2, hBlocks2, hFrame2, hDcl2,
      hVmono2, hWf2, hRoot2⟩ :=
    copySubtrees_blocks src hsf hvs dh dest.root hdhR (fuel' + 1) ih
      srcNode.base.children hcs hnd
      ((dp.toList.map fun p => CopyItem.link dh p) ++ rest)
      fuel' dest₀ (mapping ++ [(s, dh)])
      (Nat.lt_succ_self fuel') hsum₁ hA8 hA1 hA7
  rw [List.append_assoc] at hstep
  have hFreshP : ∀ pr ∈ PP, dest.pool.isValidHandle pr.2 = false := by
    intro pr hpr
    cases hval : dest.pool.isValidHandle pr.2
    · rfl
    · exfalso
      have h1 := hA6 pr.2 hval
      rw [(hFresh2 pr hpr).1] at h1
      exact Bool.false_eq_true.mp h1
  have hKeysP : ∀ x, x ∈ ((s, dh) :: PP).map Prod.fst ↔
      src.pool.DescP s x := by
    intro x
    rw [List.map_cons]
    constructor
    · intro hx
      rcases List.mem_cons.mp hx with he | hm
      · rw [he]
        exact DescP.refl s hvs
      · obtain ⟨c, hc, hdc⟩ := (hKeys2 x).mp hm
        exact DescP.child hvs (hcs c hc) hdc
    · intro hdx
      rcases descP_cases hdx with he | ⟨c, hc, hdc⟩
      · rw [he]
        exact List.mem_cons_self _ _
      · have hc' : c ∈ srcNode.base.children := by
          rwa [childrenP_of_borrow hsb] at hc
        exact List.mem_cons_of_mem _ ((hKeys2 x).mpr ⟨c, hc', hdc⟩)
  have hne_s : ∀ k, (∃ c ∈ srcNode.base.children, src.pool.DescP c k) →
      k ≠ s := by
    rintro k ⟨c, hc, hdc⟩ he
    rw [he] at hdc
    exact not_descP_child_self hsf hvs (hcs c hc) hdc
  have hlookupP : ∀ k, (∃ c ∈ srcNode.base.children, src.pool.DescP c k) →
      alistLookup ((s, dh) :: PP) k = alistLookup PP k := by
    intro k hk
    exact alistLookup_cons_ne PP (fun he => hne_s k hk he.symm)
  have hVndP : (((s, dh) :: PP).map Prod.snd).Nodup := by
    rw [List.map_cons]
    refine List.nodup_cons.mpr ⟨?_, hVnd2⟩
    intro hmem
    obtain ⟨pr, hpr, hpe⟩ := List.mem_map.mp hmem
    have h1 := (hFresh2 pr hpr).1
    rw [hpe, hA7] at h1
    exact Bool.true_eq_false.mp h1
  have hFreshAll : ∀ pr ∈ (s, dh) :: PP, dest.pool.isValidHandle pr.2 = false
      ∧ dest₂.pool.isValidHandle pr.2 = true := by
    intro pr hpr
    rcases List.mem_cons.mp hpr with he | hm
    · rw [he]
      exact ⟨hA2, hVmono2 dh hA7⟩
    · exact ⟨hFreshP pr hm, (hFresh2 pr hm).2⟩
  have hbdh₂ := hDcl2 _ hA3
  have hview1 : ∀ m, dest₂.pool.borrow dh = some m →
      m.copyView = (s, srcNode.surfaces, srcNode.isMesh) := by
    intro m hm
    rw [hbdh₂] at hm
    have hm' := Option.some.inj hm
    subst hm'
    cases srcNode <;> rfl
  have hch1 : ∀ m, dest₂.pool.borrow dh = some m →
      m.base.children = srcNode.base.children.map fun c =>
        (alistLookup PP c).getD Handle.NONE := by
    intro m hm
    rw [hbdh₂] at hm
    have hm' := Option.some.inj hm
    subst hm'
    cases srcNode <;> rfl
  have hpar1 : ∀ m, dest₂.pool.borrow dh = some m →
      m.base.parent = dest.root := by
    intro m hm
    rw [hbdh₂] at hm
    have hm' := Option.some.inj hm
    subst hm'
    cases srcNode <;> rfl
  have hchP_dh : dest₂.pool.childrenP dh
      = srcNode.base.children.map fun c =>
        (alistLookup PP c).getD Handle.NONE := by
    rw [childrenP_of_borrow hbdh₂]
    exact hch1 _ hbdh₂
  have hvalmem : ∀ k, k ∈ PP.map Prod.fst →
      (alistLookup PP k).getD Handle.NONE ∈ PP.map Prod.snd := by
    intro k hk
    obtain ⟨v, hv⟩ := alistLookup_isSome_of_mem hk
    rw [hv]
    exact List.mem_map.mpr ⟨(k, v), alistLookup_mem PP k v hv, rfl⟩
  have hclosed : ∀ x, (x = dh ∨ x ∈ PP.map Prod.snd) →
      ∀ cc ∈ dest₂.pool.childrenP x, cc = dh ∨ cc ∈ PP.map Prod.snd := by
    intro x hx
    rcases hx with he | hx
    · intro cc hcc
      rw [he, hchP_dh] at hcc
      obtain ⟨c, hc, hce⟩ := List.mem_map.mp hcc
      right
      rw [← hce]
      exact hvalmem c ((hKeys2 c).mpr
        ⟨c, hc, DescP.refl c ((forest_at hsf hvs).1 c (hcs c hc)).1⟩)
    · obtain ⟨⟨x0, dx⟩, hpr, hpe⟩ := List.mem_map.mp hx
      have hdxx : dx = x := hpe
      intro cc hcc
      rw [← hdxx] at hcc
      obtain ⟨nx, n', hbx, hbdx, hview, hch, hpar⟩ := hBlocks2 x0 dx hpr
      rw [childrenP_of_borrow hbdx, hch] at hcc
      obtain ⟨kid, hkid, hke⟩ := List.mem_map.mp hcc
      right
      rw [← hke]
      obtain ⟨c, hc, hdcx⟩ := (hKeys2 x0).mp
        (List.mem_map.mpr ⟨(x0, dx), hpr, rfl⟩)
      have hkc : kid ∈ src.pool.childrenP x0 := by
        rw [childrenP_of_borrow hbx]
        exact hkid
      exact hvalmem kid ((hKeys2 kid).mpr ⟨c, hc, descP_snoc hsf hdcx hkc⟩)
  have hdh_nr0 : dh ∉ nr0.base.children := by
    intro hmem
    have hcm : dh ∈ dest.pool.childrenP dest.root := by
      rw [childrenP_of_borrow hnr0]
      exact hmem
    have hvdh := ((forest_at hdw.1 hroot_v).1 dh hcm).1
    rw [hA2] at hvdh
    exact Bool.false_eq_true.mp hvdh
  cases dp with
  | none =>
    refine ⟨(s, dh) :: PP, dh, dest₂, ?_, rfl, hKeysP, hVndP, hFreshAll,
      ?_, ?_, ?_, ?_, ?_, hWf2, hRoot2.trans hA1⟩
    · rw [hstep, hEq2]
      have he0 : copyCost src (CopyItem.copy s Option.none)
          = 2 * (src.pool.subtreeListP (src.pool.getCapacity + 1) [s]).length
            - 1 := by
        rw [copyCost_copy, if_pos hvs]
        rfl
      have hfu : fuel' - ((srcNode.base.children.map fun c =>
          copyCost src (CopyItem.copy c (some dh))).sum)
          = (fuel' + 1) - copyCost src (CopyItem.copy s Option.none) := by
        omega
      rw [hfu, List.append_assoc, List.singleton_append]
      rfl
    · intro x dx hx
      rcases List.mem_cons.mp hx with he | hm
      · injection he with h1 h2
        rw [h1, h2]
        refine ⟨srcNode, _, hsb, hbdh₂, hview1 _ hbdh₂, ?_, ?_⟩
        · rw [hch1 _ hbdh₂]
          refine List.map_congr_left ?_
          intro c hc
          rw [hlookupP c ⟨c, hc, DescP.refl c
            ((forest_at hsf hvs).1 c (hcs c hc)).1⟩]
        · rw [hpar1 _ hbdh₂, if_pos (List.mem_singleton.mpr rfl)]
          rfl
      · obtain ⟨nx, n', hbx, hbdx, hview, hch, hpar⟩ := hBlocks2 x dx hm
        have hxkey : ∃ c ∈ srcNode.base.children, src.pool.DescP c x :=
          (hKeys2 x).mp (List.mem_map.mpr ⟨(x, dx), hm, rfl⟩)
        refine ⟨nx, n', hbx, hbdx, hview, ?_, ?_⟩
        · rw [hch]
          refine List.map_congr_left ?_
          intro kid hkid
          obtain ⟨c, hc, hdcx⟩ := hxkey
          have hkc : kid ∈ src.pool.childrenP x := by
            rw [childrenP_of_borrow hbx]
            exact hkid
          rw [hlookupP kid ⟨c, hc, descP_snoc hsf hdcx hkc⟩]
        · rw [hpar]
          have hxs : x ≠ s := hne_s x hxkey
          rw [if_neg (fun hmem => hxs (List.mem_singleton.mp hmem))]
          by_cases hxcs : x ∈ srcNode.base.children
          · rw [if_pos hxcs]
            have hps : nx.base.parent = s := by
              rw [← parentP_of_borrow hbx]
              exact ((forest_at hsf hvs).1 x (hcs x hxcs)).2
            rw [hps, alistLookup_cons_self]
            rfl
          · rw [if_neg hxcs]
            obtain ⟨c, hc, hdcx⟩ := hxkey
            have hxc : x ≠ c := by
              intro he
              exact hxcs (he ▸ hc)
            obtain ⟨hpv, hpd⟩ := descP_parent hsf hdcx hxc
            have hpe : src.pool.parentP x = nx.base.parent := by
              unfold Pool.parentP
              rw [hbx]
              rfl
            rw [hlookupP nx.base.parent ⟨c, hc, by rw [← hpe]; exact hpd⟩]
    · intro y ny hby hyr hyp
      exact hFrame2 y ny (hA5 y ny hby hyr) (hne_dh y (isValid_of_borrow hby))
    · intro nr hnr
      exact hFrame2 _ _ (hA4 nr hnr) hrne
    · intro q np hq hbq
      exact Option.noConfusion hq
    · intro y hy
      exact hVmono2 y (hA6 y hy)
  | some p =>
    have hpv : dest.pool.isValidHandle p = true := (hdp p rfl).1
    have hprr : p ≠ dest.root := (hdp p rfl).2
    obtain ⟨np0, hnp0⟩ := borrow_of_valid hpv
    have hpdh : p ≠ dh := hne_dh p hpv
    have hbp₂ : dest₂.pool.borrow p = some np0 :=
      hFrame2 p np0 (hA5 p np0 hnp0 hprr) hpdh
    have hbr₂ : dest₂.pool.borrow dest.root = some (nr0.mapBase fun b =>
        { b with children := b.children ++ [dh] }) :=
      hFrame2 _ _ (hA4 nr0 hnr0) hrne
    have hRoot20 : dest₂.root = dest.root := hRoot2.trans hA1
    have hvdh₂ : dest₂.pool.isValidHandle dh = true := hVmono2 dh hA7
    have hvp₂ : dest₂.pool.isValidHandle p = true := isValid_of_borrow hbp₂
    have hSinv : ∀ x, (x = dh ∨ x ∈ PP.map Prod.snd) →
        dest.pool.isValidHandle x = false := by
      intro x hx
      rcases hx with he | hx
      · rw [he]
        exact hA2
      · obtain ⟨pr, hpr', hpe⟩ := List.mem_map.mp hx
        rw [← hpe]
        exact hFreshP pr hpr'
    have hnd₂ : ¬ dest₂.pool.DescP dh p := by
      intro hdd
      have hSp := descP_closed _ hclosed (Or.inl rfl) hdd
      have h1 := hSinv p hSp
      rw [hpv] at h1
      exact Bool.true_eq_false.mp h1
    have hwf' : (dest₂.linkNodes dh p).wf :=
      wf_linkNodes hWf2 hvdh₂ (by rw [hRoot20]; exact hdhR) hvp₂ hnd₂
    have hpar₂ : ∀ m, dest₂.pool.borrow dh = some m →
        m.base.parent = dest₂.root := by
      intro m hm
      rw [hRoot20]
      exact hpar1 m hm
    have hrs₂ : (dest₂.root).isSomeH = true := by
      rw [hRoot20]
      exact isSomeH_of_valid hdw.1.1 hroot_v
    have hbr₂' : dest₂.pool.borrow dest₂.root = some (nr0.mapBase fun b =>
        { b with children := b.children ++ [dh] }) := by
      rw [hRoot20]
      exact hbr₂
    have hrt₂ : dest₂.root ≠ p := by
      rw [hRoot20]
      exact Ne.symm hprr
    have hcr₂ : dh ≠ dest₂.root := by
      rw [hRoot20]
      exact hdhR
    obtain ⟨hL1, hL2, hL3, hL4, hL5⟩ :=
      linkNodes_from_root_borrows hbdh₂ (hpar₂ _ hbdh₂) hrs₂ hbr₂' hbp₂
        (Ne.symm hpdh) hrt₂ hcr₂
    have hsome : dh.isSomeH = true := isSomeH_of_valid hWf2.1.1 hvdh₂
    refine ⟨(s, dh) :: PP, dh, dest₂.linkNodes dh p, ?_, rfl, hKeysP, hVndP,
      ?_, ?_, ?_, ?_, ?_, ?_, hwf', (linkNodes_root_field dest₂ dh p).trans hRoot20⟩
    · rw [hstep, hEq2]
      simp only [Option.toList, List.map_cons, List.map_nil,
        List.singleton_append]
      have he1 : copyCost src (CopyItem.copy s (some p))
          = 2 * (src.pool.subtreeListP (src.pool.getCapacity + 1) [s]).length := by
        rw [copyCost_copy, if_pos hvs]
        have h2 : (if (some p).isSome = true then 1 else 0) = 1 := rfl
        rw [h2]
        omega
      have hfu : fuel' - ((srcNode.base.children.map fun c =>
          copyCost src (CopyItem.copy c (some dh))).sum)
          = (fuel' - ((srcNode.base.children.map fun c =>
            copyCost src (CopyItem.copy c (some dh))).sum) - 1) + 1 := by
        omega
      rw [hfu, copySubtrees_link_step, if_pos hsome]
      have hfu2 : fuel' - ((srcNode.base.children.map fun c =>
          copyCost src (CopyItem.copy c (some dh))).sum) - 1
          = (fuel' + 1) - copyCost src (CopyItem.copy s (some p)) := by
        omega
      rw [hfu2, List.append_assoc, List.singleton_append]
    · intro pr hpr'
      refine ⟨(hFreshAll pr hpr').1, ?_⟩
      rw [hL5]
      exact (hFreshAll pr hpr').2
    · intro x dx hx
      rcases List.mem_cons.mp hx with he | hm
      · injection he with h1 h2
        rw [h1, h2]
        refine ⟨srcNode, _, hsb, hL1, ?_, ?_, ?_⟩
        · rw [Node.copyView_mapBase]
          · exact hview1 _ hbdh₂
          · intro b
            rfl
        · rw [Node.base_children_mapBase_parent, hch1 _ hbdh₂]
          refine List.map_congr_left ?_
          intro c hc
          rw [hlookupP c ⟨c, hc, DescP.refl c
            ((forest_at hsf hvs).1 c (hcs c hc)).1⟩]
        · rw [Node.base_parent_mapBase_parent,
            if_pos (List.mem_singleton.mpr rfl)]
          rfl
      · obtain ⟨nx, n', hbx, hbdx, hview, hch, hpar⟩ := hBlocks2 x dx hm
        have hdx_dest : dest.pool.isValidHandle dx = false := hFreshP (x, dx) hm
        have hdx_dh : dx ≠ dh := by
          intro he
          have h1 : dest₀.pool.isValidHandle dx = false := (hFresh2 (x, dx) hm).1
          rw [he, hA7] at h1
          exact Bool.true_eq_false.mp h1
        have hdx_root : dx ≠ dest₂.root := by
          rw [hRoot20]
          intro he
          rw [he, hroot_v] at hdx_dest
          exact Bool.true_eq_false.mp hdx_dest
        have hdx_p : dx ≠ p := by
          intro he
          rw [he, hpv] at hdx_dest
          exact Bool.true_eq_false.mp hdx_dest
        have hbdx' : (dest₂.linkNodes dh p).pool.borrow dx = some n' := by
          rw [hL4 dx hdx_dh hdx_root hdx_p]
          exact hbdx
        have hxkey : ∃ c ∈ srcNode.base.children, src.pool.DescP c x :=
          (hKeys2 x).mp (List.mem_map.mpr ⟨(x, dx), hm, rfl⟩)
        refine ⟨nx, n', hbx, hbdx', hview, ?_, ?_⟩
        · rw [hch]
          refine List.map_congr_left ?_
          intro kid hkid
          obtain ⟨c, hc, hdcx⟩ := hxkey
          have hkc : kid ∈ src.pool.childrenP x := by
            rw [childrenP_of_borrow hbx]
            exact hkid
          rw [hlookupP kid ⟨c, hc, descP_snoc hsf hdcx hkc⟩]
        · rw [hpar]
          have hxs : x ≠ s := hne_s x hxkey
          rw [if_neg (fun hmem => hxs (List.mem_singleton.mp hmem))]
          by_cases hxcs : x ∈ srcNode.base.children
          · rw [if_pos hxcs]
            have hps : nx.base.parent = s := by
              rw [← parentP_of_borrow hbx]
              exact ((forest_at hsf hvs).1 x (hcs x hxcs)).2
            rw [hps, alistLookup_cons_self]
            rfl
          · rw [if_neg hxcs]
            obtain ⟨c, hc, hdcx⟩ := hxkey
            have hxc : x ≠ c := by
              intro he
              exact hxcs (he ▸ hc)
            obtain ⟨hpv2, hpd⟩ := descP_parent hsf hdcx hxc
            have hpe : src.pool.parentP x = nx.base.parent := by
              unfold Pool.parentP
              rw [hbx]
              rfl
            rw [hlookupP nx.base.parent ⟨c, hc, by rw [← hpe]; exact hpd⟩]
    · intro y ny hby hyr hyp
      have hydh : y ≠ dh := hne_dh y (isValid_of_borrow hby)
      rw [hL4 y hydh (by rw [hRoot20]; exact hyr) (hyp p rfl)]
      exact hFrame2 y ny (hA5 y ny hby hyr) hydh
    · intro nr hnr
      have hnre : nr0 = nr := by
        rw [hnr0] at hnr
        exact Option.some.inj hnr
      subst hnre
      have h2 := hL2
      rw [hRoot20] at h2
      rw [h2, Node.mapBase_append_erase nr0 dh hdh_nr0]
    · intro q nq hq hbq
      have hq' : p = q := Option.some.inj hq
      subst hq'
      have hnq : np0 = nq := by
        rw [hnp0] at hbq
        exact Option.some.inj hbq
      subst hnq
      exact hL3
    · intro y hy
      rw [hL5]
      exact hVmono2 y (hA6 y hy)

end Graph

namespace Graph

theorem copySubtrees_nil (src : Graph) (fuel : Nat) (dest : Graph)
    (mapping : List (Handle × Handle)) :
    copySubtrees src fuel [] dest mapping = (dest, mapping) := by
  cases fuel <;> rfl

theorem copySubtrees_copy_dead (src : Graph) (fuel : Nat) (s : Handle)
    (dp : Option Handle) (rest : List CopyItem) (dest : Graph)
    (mapping : List (Handle × Handle)) (hsb : src.pool.borrow s = none) :
    copySubtrees src (fuel + 1) (CopyItem.copy s dp :: rest) dest mapping
      = copySubtrees src fuel rest dest mapping := by
  rw [copySubtrees, hsb]

end Graph

/-- C4: `copy_node(h, dest)` records an old-to-new mapping whose source
handles are exactly the live hierarchy under `h`, and the recorded copies
form a structurally isomorphic image of that hierarchy: distinct sources
get distinct copies, every cloned node's `original` field is set to the
handle of its source node, the clone keeps the source's variant, its
children list is the source's children mapped through the mapping in
source order, its parent is the copy of the source's parent (the copied
root hanging under the destination root), and after the remap pass every
bone handle of a cloned mesh that pointed inside the copied subtree is
replaced by the corresponding destination handle while every other bone
handle is left unchanged. -/
theorem C4_copy_node_originals_and_bones (g : Graph) (h : Handle) (dest : Graph)
    (hwf : g.wf) (hdw : dest.wf) :
    (∀ k, k ∈ (g.copyNodeRaw h dest).2.2.map Prod.fst ↔ g.pool.DescP h k) ∧
    ((g.copyNodeRaw h dest).2.2.map Prod.snd).Nodup ∧
    (∀ s d, (s, d) ∈ (g.copyNodeRaw h dest).2.2 → ∃ n n',
      g.pool.borrow s = some n ∧
      (g.copyNode h dest).2.pool.borrow d = some n' ∧
      n'.base.original = s ∧
      n'.isMesh = n.isMesh ∧
      n'.surfaces = (n.surfaces.map fun sur =>
        { sur with bones := sur.bones.map fun bone =>
            (alistLookup (g.copyNodeRaw h dest).2.2 bone).getD bone }) ∧
      n'.base.children = (n.base.children.map fun c =>
        (alistLookup (g.copyNodeRaw h dest).2.2 c).getD Handle.NONE) ∧
      n'.base.parent = (if s = h then dest.root
        else (alistLookup (g.copyNodeRaw h dest).2.2 n.base.parent).getD
          Handle.NONE)) ∧
    (∀ bone, g.pool.DescP h bone →
      ∃ d', alistLookup (g.copyNodeRaw h dest).2.2 bone = some d' ∧
        (bone, d') ∈ (g.copyNodeRaw h dest).2.2) ∧
    (∀ bone, ¬ g.pool.DescP h bone →
      (alistLookup (g.copyNodeRaw h dest).2.2 bone).getD bone = bone) := by
  have hinv : Graph.copyInv g
      (Graph.copySubtrees g (2 * g.pool.getCapacity + 2)
        [CopyItem.copy h none] dest []).1
      (Graph.copySubtrees g (2 * g.pool.getCapacity + 2)
        [CopyItem.copy h none] dest []).2 := by
    refine Graph.copySubtrees_inv g _ _ dest [] ⟨hdw.1.1, by simp, ?_⟩
    intro s d hsd
    simp at hsd
  have hsound : ∀ s d, (s, d) ∈ (Graph.copySubtrees g
      (2 * g.pool.getCapacity + 2) [CopyItem.copy h none] dest []).2 →
      g.pool.DescP h s := by
    refine Graph.copySubtrees_srcInv g h hwf.1 _ _ dest [] ?_ ?_
    · intro s dp hmem hv
      have hs : s = h := by
        have heq : CopyItem.copy s dp = CopyItem.copy h none := by simpa using hmem
        have := congrArg (fun it => match it with
          | CopyItem.copy x _ => x
          | CopyItem.link x _ => x) heq
        simpa using this
      rw [hs]
      exact Pool.DescP.refl h (hs ▸ hv)
    · intro s d hsd
      simp at hsd
  have hcost : Graph.itemsCost g [CopyItem.copy h none]
      ≤ 2 * g.pool.getCapacity + 2 := by
    have h1 : Graph.itemsCost g [CopyItem.copy h none]
        = Graph.copyCost g (CopyItem.copy h none) := by
      unfold Graph.itemsCost
      simp
    rw [h1, Graph.copyCost_copy]
    by_cases hv : g.pool.isValidHandle h = true
    · rw [if_pos hv]
      have hle := Pool.subtreeListP_single_length_le g.pool hwf.1 h
      have hz : (if (none : Option Handle).isSome = true then 1 else 0) = 0 := rfl
      rw [hz]
      omega
    · rw [if_neg hv]
      omega
  have hcomplete : ∀ k, g.pool.DescP h k →
      k ∈ (Graph.copySubtrees g (2 * g.pool.getCapacity + 2)
        [CopyItem.copy h none] dest []).2.map Prod.fst := by
    intro k hd
    exact Graph.copySubtrees_complete g hwf.1 _ _ dest [] hcost k
      (Or.inr ⟨h, none, List.mem_cons_self _ _, hd⟩)
  have hkeys : ∀ k, k ∈ (g.copyNodeRaw h dest).2.2.map Prod.fst ↔
      g.pool.DescP h k := by
    intro k
    constructor
    · intro hk
      obtain ⟨⟨s, d⟩, hsd, hfst⟩ := List.mem_map.mp hk
      have hs : s = k := hfst
      rw [← hs]
      exact hsound s d hsd
    · exact hcomplete k
  have hnodup : ((g.copyNodeRaw h dest).2.2.map Prod.snd).Nodup := by
    show ((Graph.copySubtrees g (2 * g.pool.getCapacity + 2)
      [CopyItem.copy h none] dest []).2.map Prod.snd).Nodup
    exact hinv.2.1
  refine ⟨hkeys, hnodup, ?_, ?_, ?_⟩
  · by_cases hvh : g.pool.isValidHandle h = true
    · obtain ⟨srcNodeH, hsbh⟩ := Graph.borrow_of_valid hvh
      have hcost1 : Graph.copyCost g (CopyItem.copy h none)
          ≤ 2 * g.pool.getCapacity + 2 := by
        rw [Graph.copyCost_copy, if_pos hvh]
        have hle := Pool.subtreeListP_single_length_le g.pool hwf.1 h
        have hz : (if (none : Option Handle).isSome = true then 1 else 0) = 0 := rfl
        rw [hz]
        omega
      obtain ⟨P, d0, dest', hEqS, hHeadS, hKeysS, hVndS, hFreshS, hBlocksS,
          hFrameS, hRootClS, hPClS, hVmonoS, hWfS, hRootS⟩ :=
        Graph.copySubtrees_segment g hwf.1 (2 * g.pool.getCapacity + 2)
          h none [] dest [] srcNodeH hsbh hdw
          (fun p hp => Option.noConfusion hp) hcost1
      have hr : Graph.copySubtrees g (2 * g.pool.getCapacity + 2)
          [CopyItem.copy h none] dest [] = (dest', [] ++ P) :=
        hEqS.trans (Graph.copySubtrees_nil g _ dest' ([] ++ P))
      have hmapP : (g.copyNodeRaw h dest).2.2 = P := by
        show (Graph.copySubtrees g (2 * g.pool.getCapacity + 2)
          [CopyItem.copy h none] dest []).2 = P
        rw [hr]
        exact List.nil_append P
      intro s d hsd
      have hsdP : (s, d) ∈ P := by
        rw [← hmapP]
        exact hsd
      obtain ⟨nx, n0, hbx, hbd', hviewS, hchS, hparS⟩ := hBlocksS s d hsdP
      obtain ⟨horig, hsurf, hmesh⟩ := Graph.copyView_fields hviewS
      have hbd2 : (Graph.copySubtrees g (2 * g.pool.getCapacity + 2)
          [CopyItem.copy h none] dest []).1.pool.borrow d = some n0 := by
        rw [hr]
        exact hbd'
      have hdmem : d ∈ (g.copyNodeRaw h dest).2.2.map Prod.snd :=
        List.mem_map.mpr ⟨(s, d), hsd, rfl⟩
      have hfold := (Graph.remapFold_borrow (g.copyNodeRaw h dest).2.2
        (g.copyNodeRaw h dest).2.2 (g.copyNodeRaw h dest).2.1 hinv.2.1 d).1 hdmem
      have hbfold : (g.copyNode h dest).2.pool.borrow d
          = some (Graph.remapFn (g.copyNodeRaw h dest).2.2 n0) := by
        show (((g.copyNodeRaw h dest).2.2).foldl (fun d pr =>
          Graph.remapBonesAt d pr.2 (g.copyNodeRaw h dest).2.2)
          (g.copyNodeRaw h dest).2.1).pool.borrow d = _
        rw [hfold]
        show ((Graph.copySubtrees g (2 * g.pool.getCapacity + 2)
          [CopyItem.copy h none] dest []).1.pool.borrow d).map _ = _
        rw [hbd2]
        rfl
      obtain ⟨hrbase, hrmesh, hrsurf⟩ := Graph.remapFn_view
        (g.copyNodeRaw h dest).2.2 n0
      refine ⟨nx, Graph.remapFn (g.copyNodeRaw h dest).2.2 n0, hbx, hbfold,
        ?_, ?_, ?_, ?_, ?_⟩
      · rw [hrbase, horig]
      · rw [hrmesh, hmesh]
      · rw [hrsurf, hsurf]
      · rw [hrbase, hmapP, hchS]
      · rw [hrbase, hmapP, hparS]
        by_cases hsh : s = h
        · rw [if_pos (List.mem_singleton.mpr hsh), if_pos hsh]
          rfl
        · rw [if_neg (fun hm => hsh (List.mem_singleton.mp hm)), if_neg hsh]
    · have hbh : g.pool.borrow h = none := by
        cases hb : g.pool.borrow h with
        | none => rfl
        | some n => exact absurd (Pool.isValid_of_borrow hb) hvh
      have hdead : Graph.copySubtrees g (2 * g.pool.getCapacity + 2)
          [CopyItem.copy h none] dest [] = (dest, []) :=
        (Graph.copySubtrees_copy_dead g (2 * g.pool.getCapacity + 1) h none []
          dest [] hbh).trans (Graph.copySubtrees_nil g _ dest [])
      have hmapnil : (g.copyNodeRaw h dest).2.2 = [] := by
        show (Graph.copySubtrees g (2 * g.pool.getCapacity + 2)
          [CopyItem.copy h none] dest []).2 = []
        rw [hdead]
      intro s d hsd
      rw [hmapnil] at hsd
      simp at hsd
  · intro bone hd
    have hk := hcomplete bone hd
    cases hlook : alistLookup (g.copyNodeRaw h dest).2.2 bone with
    | none =>
      exfalso
      exact (alistLookup_eq_none _ _ |>.mp hlook) hk
    | some d' =>
      exact ⟨d', rfl, alistLookup_mem _ _ _ hlook⟩
  · intro bone hnd
    have hnk : bone ∉ (g.copyNodeRaw h dest).2.2.map Prod.fst :=
      fun hk => hnd ((hkeys bone).mp hk)
    rw [(alistLookup_eq_none _ _).mpr hnk]
    rfl

theorem C4_copy_node_originals_and_bones_witness :
    c5hA ∈ (c5live.copyNodeRaw c5hA Graph.newGraph).2.2.map Prod.fst ↔
      c5live.pool.DescP c5hA c5hA :=
  (C4_copy_node_originals_and_bones c5live c5hA Graph.newGraph
    (by decide) (by decide)).1 c5hA
